import Mathlib

/-!
Verification development for the two-stage similarity-grouping algorithm of
`scripts/find_similar_questions.py`.

The external collaborators are modelled as oracle parameters:
* `score : String → String → ℚ` is the Pairwise Scorer (cross-encoder);
  `predict` on a batch of pairs is order-preserving, so a per-pair function is
  an exact model.
* `cluster1, cluster2 : List String → List Int` are the Density Clusterer
  passes (bi-encoder embeddings followed by HDBSCAN with the coarse resp. fine
  selection policy): one integer label per input text, `-1` meaning noise.
* `hcut : List (List ℚ) → ℚ → List Nat` is the SciPy average-linkage dendrogram
  cut (`linkage` + `fcluster`): it receives the full pairwise distance matrix
  and the distance cutoff and returns one positive cluster number per member.

Everything else (graph construction, BFS component extraction, label
assignment, the two stage drivers) is translated directly from the source.
-/

set_option linter.unusedVariables false

namespace SimilarQuestions

/-- Group labels. `simGroup k` models the Stage-1 label string
`f"sim_group_{cluster_id}"` (line 205); `sub g n` models the Stage-2 label
string `f"{group_id}_sub{sub_group_num}"` (line 426).  Stage-1 labels contain
no `_sub` marker, so these string forms are injective, which the inductive
representation reflects. -/
inductive GroupLabel where
  | simGroup (k : Nat)
  | sub (g : GroupLabel) (n : Nat)
deriving DecidableEq, Repr

/-- A question record.  `success` is the truthiness of the `success` field,
`data = some t` means the record has a truthy `data` payload whose
`question_text` is `t` (`getD ""` below mirrors `q.get("data", {}).get("question_text", "")`),
and `simField` distinguishes an absent `similarity_group_id` key (`none`) from
a present one (`some v`, with `v = none` modelling JSON `null`). -/
structure Question where
  success : Bool
  data : Option String
  simField : Option (Option GroupLabel)
deriving DecidableEq, Repr

instance : Inhabited Question := ⟨⟨false, none, none⟩⟩

/-- `get_question_text` (lines 60-62). -/
def getText (q : Question) : String := q.data.getD ""

/-- `prepare_e5_text` (lines 65-67). -/
def prepareE5 (t : String) : String := "query: " ++ t

/-- The group label currently carried by a record, as the truthiness test
`group_id = q.get("similarity_group_id"); if group_id:` sees it (an absent key
and a `null` value are both falsy). -/
def simVal (q : Question) : Option GroupLabel := q.simField.join

/-! ### Breadth-first component extraction

Both stages extract connected components of a verification graph with the same
BFS loop (`lines 186-200` and `lines 327-340`): pop from the front of the
queue, skip visited nodes, otherwise record the node and enqueue its
not-yet-visited neighbours.  We model the graph nodes as `Fin n` (local
positions inside one candidate cluster). -/

/-- Not-yet-visited neighbours of `node`:
`(n for n in adjacency[node] if n not in visited)` where `visited` already
contains `node`. -/
def nbrsOutside {n : Nat} (adj : Fin n → Fin n → Bool) (node : Fin n)
    (V : Finset (Fin n)) : List (Fin n) :=
  (List.finRange n).filter fun m => adj node m && decide (m ∉ V)

/-- The `while queue:` loop.  Returns the final visited set and the list of
nodes newly visited by this call (the `component`). -/
def bfsAux {n : Nat} (adj : Fin n → Fin n → Bool) (V : Finset (Fin n))
    (Q : List (Fin n)) : Finset (Fin n) × List (Fin n) :=
  match Q with
  | [] => (V, [])
  | node :: rest =>
    if h : node ∈ V then bfsAux adj V rest
    else
      let V' := insert node V
      let r := bfsAux adj V' (rest ++ nbrsOutside adj node V')
      (r.1, node :: r.2)
termination_by ((Finset.univ \ V).card, Q.length)
decreasing_by
  · exact Prod.Lex.right _ (Nat.lt_succ_self _)
  · apply Prod.Lex.left
    have hmem : node ∈ Finset.univ \ V := by simp [h]
    have hEq : Finset.univ \ insert node V = (Finset.univ \ V).erase node := by
      ext x; simp [Finset.mem_sdiff, Finset.mem_erase, and_comm]
    rw [hEq]
    exact Finset.card_erase_lt_of_mem hmem

/-- One iteration of the outer `for start in range(len(members)):` loop.  In
Stage 1 (`skipIso = true`) a start whose adjacency entry is empty is skipped
(`if start in visited or not adjacency[start]: continue`, line 189); the
Stage-2 loop (line 328) only skips visited starts. -/
def scanStep {n : Nat} (adj : Fin n → Fin n → Bool) (skipIso : Bool)
    (acc : Finset (Fin n) × List (List (Fin n))) (start : Fin n) :
    Finset (Fin n) × List (List (Fin n)) :=
  if start ∈ acc.1 then acc
  else if skipIso && ((List.finRange n).filter fun m => adj start m).isEmpty then acc
  else
    let r := bfsAux adj acc.1 [start]
    (r.1, acc.2 ++ [r.2])

/-- All components discovered by the outer loop, in discovery order. -/
def scanComponents {n : Nat} (adj : Fin n → Fin n → Bool) (skipIso : Bool) :
    List (List (Fin n)) :=
  ((List.finRange n).foldl (scanStep adj skipIso) (∅, [])).2

/-- Components that pass the `if len(component) >= 2:` test (lines 202, 342). -/
def verifyComponents {n : Nat} (adj : Fin n → Fin n → Bool) (skipIso : Bool) :
    List (List (Fin n)) :=
  (scanComponents adj skipIso).filter fun c => 2 ≤ c.length

/-! ### Reachability, for stating what a connected component is -/

/-- One closure step: add every node adjacent to the set. -/
def stepSet {n : Nat} (adj : Fin n → Fin n → Bool) (S : Finset (Fin n)) :
    Finset (Fin n) :=
  S ∪ S.biUnion fun x => Finset.univ.filter fun y => adj x y = true

/-- The set of nodes reachable from `v` (computable; `mem_reachSet` below
identifies it with the reflexive-transitive closure of the edge relation,
i.e. with the connected component of `v` when `adj` is symmetric). -/
def reachSet {n : Nat} (adj : Fin n → Fin n → Bool) (v : Fin n) :
    Finset (Fin n) :=
  (stepSet adj)^[n] {v}

/-- The edge relation of the verification graph as a proposition. -/
def Adjacent {n : Nat} (adj : Fin n → Fin n → Bool) (a b : Fin n) : Prop :=
  adj a b = true

/-! ### Scored adjacency -/

/-- The score of the unordered pair `{i, j}`: the code scores each pair
`[member_texts[i], member_texts[j]]` once, for `i < j`, and uses it for both
directions (lines 169-184). -/
def pairScore (score : String → String → ℚ) (ts : List String)
    (i j : Fin ts.length) : ℚ :=
  if (i : Nat) < (j : Nat) then score (ts.get i) (ts.get j)
  else score (ts.get j) (ts.get i)

/-- Adjacency of the Stage-1 verification graph: an edge between distinct
members `i` and `j` iff their pairwise score reaches the threshold
(`if score >= cross_encoder_threshold:` line 182). -/
def adjFull (score : String → String → ℚ) (t : ℚ) (ts : List String)
    (i j : Fin ts.length) : Bool :=
  decide (i ≠ j) && decide (t ≤ pairScore score ts i j)

/-- The pair positions scored by the bounded Stage-2 pass:
`for i in range(len(members)): for j in range(i + 1, min(len(members), i + 51))`
(lines 311-312). -/
def boundedPairList (m : Nat) : List (Nat × Nat) :=
  (List.range m).flatMap fun i =>
    (List.range' (i + 1) (min m (i + 51) - (i + 1))).map fun j => (i, j)

/-- Adjacency of the bounded Stage-2 verification graph: only pairs whose
positions differ by at most 50 are scored (lines 311-324). -/
def adjBounded (score : String → String → ℚ) (t : ℚ) (ts : List String)
    (i j : Fin ts.length) : Bool :=
  (decide ((i : Nat) < (j : Nat)) && decide ((j : Nat) < (i : Nat) + 51) ||
   decide ((j : Nat) < (i : Nat)) && decide ((i : Nat) < (j : Nat) + 51)) &&
  decide (t ≤ pairScore score ts i j)

/-- Verification Grapher for one Stage-1 candidate cluster: all unordered pairs
are scored, and components are extracted with the isolated-start skip. -/
def clusterComponents (score : String → String → ℚ) (t : ℚ) (ts : List String) :
    List (List (Fin ts.length)) :=
  verifyComponents (adjFull score t ts) true

/-- Bounded Verification Grapher for one Stage-2 fine-grained cluster. -/
def boundedClusterComponents (score : String → String → ℚ) (t : ℚ)
    (ts : List String) : List (List (Fin ts.length)) :=
  verifyComponents (adjBounded score t ts) false

/-- Union of the node sets of a list of components. -/
def compUnion {n : Nat} (cs : List (List (Fin n))) : Finset (Fin n) :=
  (cs.map List.toFinset).foldr (· ∪ ·) ∅

/-- Invariant of the outer component-scan loop. -/
structure ScanInv {n : Nat} (adj : Fin n → Fin n → Bool)
    (acc : Finset (Fin n) × List (List (Fin n))) : Prop where
  closed : ∀ x ∈ acc.1, ∀ y : Fin n, adj x y = true → y ∈ acc.1
  visEq : acc.1 = compUnion acc.2
  compsOK : ∀ c ∈ acc.2, c.Nodup ∧ ∃ v, c.toFinset = reachSet adj v
  disj : acc.2.Pairwise fun c d => ∀ x ∈ c, x ∉ d

/-- The emitted component lists are exactly the connected components of size
at least 2: each emitted list is such a component, each such component is
emitted, and a node whose component is a singleton appears in no emitted
list. -/
def ComponentsExactly {n : Nat} (adj : Fin n → Fin n → Bool)
    (comps : List (List (Fin n))) : Prop :=
  (∀ c ∈ comps, ∃ v, c.toFinset = reachSet adj v ∧ 2 ≤ (reachSet adj v).card) ∧
  (∀ v, 2 ≤ (reachSet adj v).card → ∃ c ∈ comps, c.toFinset = reachSet adj v) ∧
  (∀ v, (reachSet adj v).card = 1 → ∀ c ∈ comps, v ∉ c)

/-- Conclusion of claim C1 for one candidate cluster with member texts `ts`:
the verification graph has an edge between `i` and `j` iff they are distinct
and their pair score reaches the threshold, membership of `reachSet` is genuine
graph reachability, and the emitted groups are exactly the connected
components of size ≥ 2. -/
def C1Conclusion (score : String → String → ℚ) (t : ℚ) (ts : List String) : Prop :=
  (∀ i j : Fin ts.length,
      Adjacent (adjFull score t ts) i j ↔ i ≠ j ∧ t ≤ pairScore score ts i j) ∧
  (∀ v w : Fin ts.length, w ∈ reachSet (adjFull score t ts) v ↔
      Relation.ReflTransGen (Adjacent (adjFull score t ts)) v w) ∧
  ComponentsExactly (adjFull score t ts) (clusterComponents score t ts)

/-- Conclusion of claim C7 for one fine-grained cluster with member texts
`ts`: the bounded pass scores exactly the pairs of positions that differ by at
most 50 (member `i` with members `i+1 … i+50`, clipped to the cluster size),
the bounded graph has an edge iff such a scored pair reaches the threshold,
and the sub-groups are exactly the connected components of size ≥ 2 of that
graph. -/
def C7Conclusion (score : String → String → ℚ) (t : ℚ) (ts : List String) : Prop :=
  (∀ i j : Nat, (i, j) ∈ boundedPairList ts.length ↔
      i < j ∧ j < ts.length ∧ j ≤ i + 50) ∧
  (∀ i j : Fin ts.length, Adjacent (adjBounded score t ts) i j ↔
      ((((i : Nat), (j : Nat)) ∈ boundedPairList ts.length ∨
        ((j : Nat), (i : Nat)) ∈ boundedPairList ts.length) ∧
       t ≤ pairScore score ts i j)) ∧
  ComponentsExactly (adjBounded score t ts) (boundedClusterComponents score t ts)

/-! ### Dictionary and grouping helpers -/

/-- Append `v` to the entry of key `k`, creating the entry at the end if absent
(`defaultdict(list)` with insertion-ordered iteration). -/
def addEntry {κ : Type} [DecidableEq κ] (acc : List (κ × List Nat)) (k : κ)
    (v : Nat) : List (κ × List Nat) :=
  if acc.any fun e => decide (e.1 = k) then
    acc.map fun e => if e.1 = k then (e.1, e.2 ++ [v]) else e
  else acc ++ [(k, [v])]

/-- `clusters = defaultdict(list); for i, label in enumerate(cluster_labels): if label >= 0: clusters[label].append(i)`
(lines 152-155 and 295-298). -/
def groupByLabel (labels : List Int) : List (Int × List Nat) :=
  labels.enum.foldl (fun acc p => if 0 ≤ p.2 then addEntry acc p.2 p.1 else acc) []

/-- Grouping a list of key-value pairs with `addEntry`, in order (the generic
shape shared by `groupByLabel` and `find_large_groups`). -/
def groupPairs {κ : Type} [DecidableEq κ] (ps : List (κ × Nat)) :
    List (κ × List Nat) :=
  ps.foldl (fun acc p => addEntry acc p.1 p.2) []

/-- What the accumulator of a grouping fold looks like after inserting the
pairs `ps` in order: keys are distinct, each entry holds exactly its key's
values in insertion order, and the keys are exactly the keys of `ps`. -/
def GroupsDescribe {κ : Type} [DecidableEq κ] (ps : List (κ × Nat))
    (acc : List (κ × List Nat)) : Prop :=
  (acc.map Prod.fst).Nodup ∧
  (∀ e ∈ acc, e.2 = (ps.filter fun p => decide (p.1 = e.1)).map Prod.snd) ∧
  (∀ k, (∃ v, (k, v) ∈ ps) ↔ k ∈ acc.map Prod.fst)

/-- Python-dict insertion: overwrite in place if the key exists, else append. -/
def dinsert {α : Type} (m : List (Nat × α)) (k : Nat) (v : α) : List (Nat × α) :=
  if m.any fun p => decide (p.1 = k) then
    m.map fun p => if p.1 = k then (k, v) else p
  else m ++ [(k, v)]

/-- Pointwise update of an assignment map (`verified_clusters[key] = label`). -/
def updateFn (f : Nat → Option GroupLabel) (k : Nat) (v : GroupLabel) :
    Nat → Option GroupLabel :=
  fun x => if x = k then some v else f x

/-! ### Stage 1 -/

/-- The `valid_data` list of `find_similarity_groups` (lines 121-125): for the
records of `questions_with_indices`, pairs of original index and text, kept
when the stripped text is non-empty, each with its position `i` in the zipped
list. -/
def fsgValid (qwi : List (Nat × Question)) : List (Nat × Nat × String) :=
  ((qwi.map Prod.fst).zip (qwi.map fun p => getText p.2)).enum.filter
    fun p => !p.2.2.trim.isEmpty

/-- `original_indices` (line 129). -/
def fsgOrig (qwi : List (Nat × Question)) : List Nat :=
  (fsgValid qwi).map fun p => p.2.1

/-- `valid_texts` (line 130). -/
def fsgTexts (qwi : List (Nat × Question)) : List String :=
  (fsgValid qwi).map fun p => p.2.2

/-- One cluster of the cross-encoder verification loop of
`find_similarity_groups` (lines 160-205): skip clusters of fewer than 2
members, otherwise label each emitted component with the next `cluster_id`
and write the labels keyed by original index. -/
def ceStep (score : String → String → ℚ) (t : ℚ) (orig : List Nat)
    (vtexts : List String) (acc : Nat × (Nat → Option GroupLabel))
    (cl : Int × List Nat) : Nat × (Nat → Option GroupLabel) :=
  if cl.2.length < 2 then acc else
  (clusterComponents score t (cl.2.map fun p => vtexts.getD p "")).foldl
    (fun acc2 c =>
      (acc2.1 + 1,
       c.foldl (fun f loc =>
         updateFn f (orig.getD (cl.2.getD (loc : Nat) 0) 0)
           (.simGroup (acc2.1 + 1))) acc2.2)) acc

/-- One cluster of the skip-verification path (lines 207-212): accept every
cluster of size ≥ 2 directly. -/
def nceStep (orig : List Nat) (acc : Nat × (Nat → Option GroupLabel))
    (cl : Int × List Nat) : Nat × (Nat → Option GroupLabel) :=
  if 2 ≤ cl.2.length then
    (acc.1 + 1,
     cl.2.foldl (fun f p =>
       updateFn f (orig.getD p 0) (.simGroup (acc.1 + 1))) acc.2)
  else acc

/-- `find_similarity_groups` (lines 109-214).  `qwi` is
`questions_with_indices`; the result is the `verified_clusters` mapping from
original question index to label (a total function to `Option`, modelling
`dict.get`). -/
def findSimilarityGroups (cluster1 : List String → List Int)
    (score : String → String → ℚ) (useCE : Bool) (t : ℚ)
    (qwi : List (Nat × Question)) : Nat → Option GroupLabel :=
  if qwi.isEmpty then fun _ => none else
  if (fsgValid qwi).length < 2 then fun _ => none else
  let orig := fsgOrig qwi
  let vtexts := fsgTexts qwi
  let clusters := groupByLabel (cluster1 (vtexts.map prepareE5))
  if useCE then
    (clusters.foldl (ceStep score t orig vtexts) ((0 : Nat), fun _ => none)).2
  else
    (clusters.foldl (nceStep orig) ((0 : Nat), fun _ => none)).2

/-- Eligibility for Stage-1 grouping: a truthy `success` flag and `data`
payload (line 232) and a non-empty stripped text (line 125). -/
def eligibleRecord (q : Question) : Bool :=
  q.success && q.data.isSome && !(getText q).trim.isEmpty

/-- The number of records currently carrying label `l`. -/
def labelCount (qs : List Question) (l : GroupLabel) : Nat :=
  qs.countP fun q => decide (simVal q = some l)

/-- The `similarity_map` computed by `run_stage1` (lines 230-243): only records
with truthy `success` and `data` take part. -/
def stage1Assignment (cluster1 : List String → List Int)
    (score : String → String → ℚ) (useCE : Bool) (t : ℚ) (qs : List Question) :
    Nat → Option GroupLabel :=
  findSimilarityGroups cluster1 score useCE t
    ((qs.enum).filter fun p => p.2.success && p.2.data.isSome)

/-- `run_stage1` (lines 217-250): the assignment is written onto every record,
`question["similarity_group_id"] = similarity_map.get(idx)` (lines 246-247). -/
def runStage1 (cluster1 : List String → List Int)
    (score : String → String → ℚ) (useCE : Bool) (t : ℚ) (qs : List Question) :
    List Question :=
  let m := stage1Assignment cluster1 score useCE t qs
  (qs.enum).map fun p => { p.2 with simField := some (m p.1) }

/-! ### Stage 2 -/

/-- `find_large_groups` (lines 70-77): indices grouped by current truthy label,
keeping the groups with more than `minSize` members. -/
def findLargeGroups (qs : List Question) (minSize : Nat) :
    List (GroupLabel × List Nat) :=
  ((qs.enum).foldl (fun acc p =>
      match simVal p.2 with
      | some gid => addEntry acc gid p.1
      | none => acc) []).filter fun g => minSize < g.2.length

/-- `np.clip(x, 0, 1)`. -/
def clip01 (x : ℚ) : ℚ := if x < 0 then 0 else if 1 < x then 1 else x

/-- The symmetric similarity-matrix entry built from the cross-encoder scores
(lines 367-371): `sim_matrix` has the score of the `i < j` pair at both `(i,j)`
and `(j,i)`, and diagonal 1. -/
def simEntry (score : String → String → ℚ) (texts : List String)
    (i j : Nat) : ℚ :=
  if i = j then 1
  else if i < j then score (texts.getD i "") (texts.getD j "")
  else score (texts.getD j "") (texts.getD i "")

/-- The clipped distance matrix `np.clip(1 - sim_matrix, 0, 1)` (line 373). -/
def distMatrix (score : String → String → ℚ) (texts : List String) (n : Nat) :
    List (List ℚ) :=
  (List.range n).map fun i =>
    (List.range n).map fun j => clip01 (1 - simEntry score texts i j)

/-- The cluster numbers produced by cutting the dendrogram at distance
`1 - threshold` (lines 375-376), via the external `hcut` oracle. -/
def fallbackLabels (hcut : List (List ℚ) → ℚ → List Nat)
    (score : String → String → ℚ) (indices : List Nat) (texts : List String)
    (t : ℚ) : List Nat :=
  hcut (distMatrix score texts indices.length) (1 - t)

/-- The content of the `assignments` dictionary of the Hierarchical Fallback
(line 381): member index `indices[i]` mapped to its cut cluster number. -/
def fallbackAssignments (indices : List Nat) (labels : List Nat) :
    List (Nat × Nat) :=
  labels.enum.map fun p => (indices.getD p.1 0, p.2)

/-- The surviving cluster numbers of the Hierarchical Fallback (lines 383-387):
cut cluster numbers with at least 2 members. -/
def validFallback (labels : List Nat) : List Nat :=
  labels.dedup.filter fun l => 2 ≤ labels.count l

/-- The texts of one group's members, as read by `try_split_group`
(line 268). -/
def groupTexts (qs : List Question) (indices : List Nat) : List String :=
  indices.map fun i => getText (qs.getD i default)

/-- `try_split_with_cross_encoder` (lines 350-392): the full pairwise
similarity matrix, turned into a clipped distance matrix and cut by the
external `hcut` oracle; clusters of the cut with fewer than 2 members are
discarded, and the result is returned only when more than one distinct cluster
number survives. -/
def trySplitWithCrossEncoder (hcut : List (List ℚ) → ℚ → List Nat)
    (score : String → String → ℚ) (indices : List Nat) (texts : List String)
    (t : ℚ) : Option (List (Nat × Nat)) :=
  if indices.length < 4 then none else
  let labels := fallbackLabels hcut score indices texts t
  if labels.dedup.length ≤ 1 then none else
  let assignments := (labels.enum).foldl
    (fun d p => dinsert d (indices.getD p.1 0) p.2) []
  let validGroups := labels.dedup.filter fun l =>
    2 ≤ (assignments.map Prod.snd).count l
  if validGroups.length ≤ 1 then none else
  let filtered := assignments.filter fun p => decide (p.2 ∈ validGroups)
  if 1 < (filtered.map Prod.snd).dedup.length then some filtered else none

/-- The `verified_assignments` built by the bounded verification pass of
`try_split_group` (lines 294-345): per fine-grained cluster of size ≥ 2, the
connected components of size ≥ 2 of the bounded graph, each numbered by the
running `sub_group_counter` and mapped back through `indices`.  (For a cluster
with at least 2 members the bounded pair list is never empty, so the
`if not pairs: continue` guard of line 316 has no separate counterpart.) -/
def boundedVerifyAssignments (score : String → String → ℚ) (t : ℚ)
    (indices : List Nat) (texts : List String) (labels : List Int) :
    List (Nat × Nat) :=
  ((groupByLabel labels).foldl (fun acc cl =>
    if cl.2.length < 2 then acc else
    let mts := cl.2.map fun p => texts.getD p ""
    (boundedClusterComponents score t mts).foldl (fun acc2 c =>
      (acc2.1 + 1,
       c.foldl (fun d loc =>
         dinsert d (indices.getD (cl.2.getD (loc : Nat) 0) 0) (acc2.1 + 1))
         acc2.2)) acc)
    ((0 : Nat), ([] : List (Nat × Nat)))).2

/-- `try_split_group` (lines 257-347).  When the fine density pass yields at
most one non-noise cluster label, fall back to the hierarchical split;
otherwise run the bounded verification pass per fine cluster. -/
def trySplitGroup (cluster2 : List String → List Int)
    (hcut : List (List ℚ) → ℚ → List Nat) (score : String → String → ℚ)
    (t : ℚ) (qs : List Question) (indices : List Nat) :
    Option (List (Nat × Nat)) :=
  if indices.length < 4 then none else
  let texts := groupTexts qs indices
  let labels := cluster2 (texts.map prepareE5)
  if (labels.dedup.filter fun l => decide (l ≠ -1)).length ≤ 1 then
    trySplitWithCrossEncoder hcut score indices texts t
  else
    let va := boundedVerifyAssignments score t indices texts labels
    if 1 < (va.map Prod.snd).dedup.length then some va else none

/-- Write the `similarity_group_id` field of record `i` (out-of-range writes
cannot happen in the driver and leave the list unchanged). -/
def setSim (qs : List Question) (i : Nat) (v : Option GroupLabel) :
    List Question :=
  match qs.get? i with
  | some q => qs.set i { q with simField := some v }
  | none => qs

/-- `run_stage2` (lines 395-433).  Returns the updated records together with
the `groups_split` and `groups_kept` counters that the source reports in its
final summary line (`print(f"...: {groups_split} split, {groups_kept} kept as-is")`);
the Python function itself mutates `questions` in place and returns `None`. -/
def runStage2 (cluster2 : List String → List Int)
    (hcut : List (List ℚ) → ℚ → List Nat) (score : String → String → ℚ)
    (refineThr : Nat) (t : ℚ) (qs : List Question) :
    List Question × Nat × Nat :=
  (findLargeGroups qs refineThr).foldl (fun st g =>
    match trySplitGroup cluster2 hcut score t st.1 g.2 with
    | some m =>
      if m ≠ [] ∧ 1 < (m.map Prod.snd).dedup.length then
        let qs1 := m.foldl (fun a p => setSim a p.1 (some (.sub g.1 p.2))) st.1
        let qs2 := g.2.foldl (fun a idx =>
          if m.any fun p => decide (p.1 = idx) then a else setSim a idx none) qs1
        (qs2, st.2.1 + 1, st.2.2)
      else (st.1, st.2.1, st.2.2 + 1)
    | none => (st.1, st.2.1, st.2.2 + 1)) (qs, 0, 0)

/-- Conclusion of claim C10 for one oversized group: with at most one
non-noise fine cluster the split result is exactly the Hierarchical
Fallback's; with two or more fine clusters the result does not depend on the
fallback oracle at all (it is never invoked), and if the bounded verification
then yields at most one distinct sub-group number the group is kept
(`none`). -/
def C10Conclusion (cluster2 : List String → List Int)
    (hcut hcut2 : List (List ℚ) → ℚ → List Nat) (score : String → String → ℚ)
    (t : ℚ) (qs : List Question) (indices : List Nat) : Prop :=
  ((((cluster2 ((groupTexts qs indices).map prepareE5)).dedup.filter
        fun l => decide (l ≠ -1)).length ≤ 1 →
      trySplitGroup cluster2 hcut score t qs indices =
        trySplitWithCrossEncoder hcut score indices (groupTexts qs indices) t) ∧
   (2 ≤ ((cluster2 ((groupTexts qs indices).map prepareE5)).dedup.filter
        fun l => decide (l ≠ -1)).length →
      trySplitGroup cluster2 hcut score t qs indices =
        trySplitGroup cluster2 hcut2 score t qs indices) ∧
   (2 ≤ ((cluster2 ((groupTexts qs indices).map prepareE5)).dedup.filter
        fun l => decide (l ≠ -1)).length →
      ((boundedVerifyAssignments score t indices (groupTexts qs indices)
          (cluster2 ((groupTexts qs indices).map prepareE5))).map
        Prod.snd).dedup.length ≤ 1 →
      trySplitGroup cluster2 hcut score t qs indices = none))

/-- An assignment map respecting the minimum group size: every label that is
assigned at all is assigned to at least two distinct indices. -/
def MinTwoFn (f : Nat → Option GroupLabel) : Prop :=
  ∀ l, (∃ k, f k = some l) → ∃ k1 k2, k1 ≠ k2 ∧ f k1 = some l ∧ f k2 = some l

/-- A record collection respecting the minimum group size: every label is
absent or carried by at least two records. -/
def MinTwo (qs : List Question) : Prop :=
  ∀ l, labelCount qs l = 0 ∨ 2 ≤ labelCount qs l

/-- Every entry of a split result shares its sub-group number with an entry
for a different target index. -/
def PairUp (m : List (Nat × Nat)) : Prop :=
  ∀ p ∈ m, ∃ p2 ∈ m, p2.1 ≠ p.1 ∧ p2.2 = p.2

/-- The member-index list of a group is exactly the set of positions whose
record currently carries the group's label. -/
def FiberIs (qs : List Question) (g : GroupLabel × List Nat) : Prop :=
  ∀ i, i ∈ g.2 ↔ ∃ q, qs.get? i = some q ∧ simVal q = some g.1



end SimilarQuestions

namespace SimilarQuestions

/-! ### BFS lemmas -/

theorem bfsAux_nil {n : Nat} (adj : Fin n → Fin n → Bool) (V : Finset (Fin n)) :
    bfsAux adj V [] = (V, []) := by
  rw [bfsAux]

theorem bfsAux_cons_mem {n : Nat} (adj : Fin n → Fin n → Bool) (V : Finset (Fin n))
    (node : Fin n) (rest : List (Fin n)) (h : node ∈ V) :
    bfsAux adj V (node :: rest) = bfsAux adj V rest := by
  rw [bfsAux]; simp [h]

theorem bfsAux_cons_not_mem {n : Nat} (adj : Fin n → Fin n → Bool) (V : Finset (Fin n))
    (node : Fin n) (rest : List (Fin n)) (h : node ∉ V) :
    bfsAux adj V (node :: rest) =
      ((bfsAux adj (insert node V) (rest ++ nbrsOutside adj node (insert node V))).1,
       node :: (bfsAux adj (insert node V) (rest ++ nbrsOutside adj node (insert node V))).2) := by
  rw [bfsAux]; simp [h]

theorem bfsAux_vis_subset {n : Nat} (adj : Fin n → Fin n → Bool) (V : Finset (Fin n))
    (Q : List (Fin n)) : V ⊆ (bfsAux adj V Q).1 := by
  induction V, Q using bfsAux.induct adj with
  | case1 V => simp [bfsAux_nil]
  | case2 V node rest h ih => rw [bfsAux_cons_mem adj V node rest h]; exact ih
  | case3 V node rest h V' =>
    rename_i ih
    rw [bfsAux_cons_not_mem adj V node rest h]
    exact fun x hx => ih (Finset.mem_insert_of_mem hx)

theorem bfsAux_vis_eq {n : Nat} (adj : Fin n → Fin n → Bool) (V : Finset (Fin n))
    (Q : List (Fin n)) :
    (bfsAux adj V Q).1 = V ∪ (bfsAux adj V Q).2.toFinset := by
  induction V, Q using bfsAux.induct adj with
  | case1 V => simp [bfsAux_nil]
  | case2 V node rest h ih => rw [bfsAux_cons_mem adj V node rest h]; exact ih
  | case3 V node rest h V' =>
    rename_i ih
    rw [bfsAux_cons_not_mem adj V node rest h]
    simp only [List.toFinset_cons]
    rw [ih, Finset.insert_union, Finset.union_insert]

theorem bfsAux_comp_not_mem {n : Nat} (adj : Fin n → Fin n → Bool) (V : Finset (Fin n))
    (Q : List (Fin n)) : ∀ c ∈ (bfsAux adj V Q).2, c ∉ V := by
  induction V, Q using bfsAux.induct adj with
  | case1 V => simp [bfsAux_nil]
  | case2 V node rest h ih => rw [bfsAux_cons_mem adj V node rest h]; exact ih
  | case3 V node rest h V' =>
    rename_i ih
    rw [bfsAux_cons_not_mem adj V node rest h]
    intro c hc
    rcases List.mem_cons.mp hc with rfl | hc'
    · exact h
    · exact fun hcV => ih c hc' (Finset.mem_insert_of_mem hcV)

theorem bfsAux_comp_nodup {n : Nat} (adj : Fin n → Fin n → Bool) (V : Finset (Fin n))
    (Q : List (Fin n)) : (bfsAux adj V Q).2.Nodup := by
  induction V, Q using bfsAux.induct adj with
  | case1 V => simp [bfsAux_nil]
  | case2 V node rest h ih => rw [bfsAux_cons_mem adj V node rest h]; exact ih
  | case3 V node rest h V' =>
    rename_i ih
    rw [bfsAux_cons_not_mem adj V node rest h]
    refine List.Nodup.cons ?_ ih
    intro hmem
    exact bfsAux_comp_not_mem adj _ _ _ hmem (Finset.mem_insert_self node V)

theorem bfsAux_queue_visited {n : Nat} (adj : Fin n → Fin n → Bool) (V : Finset (Fin n))
    (Q : List (Fin n)) : ∀ q ∈ Q, q ∈ (bfsAux adj V Q).1 := by
  induction V, Q using bfsAux.induct adj with
  | case1 V => simp
  | case2 V node rest h ih =>
    rw [bfsAux_cons_mem adj V node rest h]
    intro q hq
    rcases List.mem_cons.mp hq with rfl | hq'
    · exact bfsAux_vis_subset adj V rest h
    · exact ih q hq'
  | case3 V node rest h V' =>
    rename_i ih
    rw [bfsAux_cons_not_mem adj V node rest h]
    intro q hq
    rcases List.mem_cons.mp hq with rfl | hq'
    · exact bfsAux_vis_subset adj _ _ (Finset.mem_insert_self q V)
    · exact ih q (List.mem_append_left _ hq')

theorem bfsAux_comp_closed {n : Nat} (adj : Fin n → Fin n → Bool) (V : Finset (Fin n))
    (Q : List (Fin n)) :
    ∀ c ∈ (bfsAux adj V Q).2, ∀ y, adj c y = true → y ∈ (bfsAux adj V Q).1 := by
  induction V, Q using bfsAux.induct adj with
  | case1 V => simp [bfsAux_nil]
  | case2 V node rest h ih => rw [bfsAux_cons_mem adj V node rest h]; exact ih
  | case3 V node rest h V' =>
    rename_i ih
    rw [bfsAux_cons_not_mem adj V node rest h]
    intro c hc y hy
    rcases List.mem_cons.mp hc with rfl | hc'
    · by_cases hyV : y ∈ insert c V
      · exact bfsAux_vis_subset adj _ _ hyV
      · have hmem : y ∈ nbrsOutside adj c (insert c V) := by
          unfold nbrsOutside
          refine List.mem_filter.mpr ⟨List.mem_finRange y, ?_⟩
          simp [hy, hyV]
        exact bfsAux_queue_visited adj _ _ y (List.mem_append_right _ hmem)
    · exact ih c hc' y hy

theorem bfsAux_comp_reaches {n : Nat} (adj : Fin n → Fin n → Bool) (V : Finset (Fin n))
    (Q : List (Fin n)) :
    ∀ c ∈ (bfsAux adj V Q).2, ∃ q ∈ Q, Relation.ReflTransGen (Adjacent adj) q c := by
  induction V, Q using bfsAux.induct adj with
  | case1 V => simp [bfsAux_nil]
  | case2 V node rest h ih =>
    rw [bfsAux_cons_mem adj V node rest h]
    intro c hc
    obtain ⟨q, hq, hr⟩ := ih c hc
    exact ⟨q, List.mem_cons_of_mem _ hq, hr⟩
  | case3 V node rest h V' =>
    rename_i ih
    rw [bfsAux_cons_not_mem adj V node rest h]
    intro c hc
    rcases List.mem_cons.mp hc with rfl | hc'
    · exact ⟨c, List.mem_cons_self c rest, Relation.ReflTransGen.refl⟩
    · obtain ⟨q, hq, hr⟩ := ih c hc'
      rcases List.mem_append.mp hq with hq1 | hq2
      · exact ⟨q, List.mem_cons_of_mem _ hq1, hr⟩
      · have hadj : adj node q = true := by
          have := List.mem_filter.mp hq2
          simpa using (Bool.and_eq_true _ _ |>.mp this.2).1
        exact ⟨node, List.mem_cons_self node rest,
          Relation.ReflTransGen.head hadj hr⟩

end SimilarQuestions

namespace SimilarQuestions

/-! ### Reachability lemmas -/

theorem mem_stepSet {n : Nat} (adj : Fin n → Fin n → Bool) (S : Finset (Fin n))
    (y : Fin n) : y ∈ stepSet adj S ↔ y ∈ S ∨ ∃ x ∈ S, adj x y = true := by
  unfold stepSet
  simp [Finset.mem_union, Finset.mem_biUnion, Finset.mem_filter]

theorem subset_stepSet {n : Nat} (adj : Fin n → Fin n → Bool) (S : Finset (Fin n)) :
    S ⊆ stepSet adj S :=
  Finset.subset_union_left

theorem subset_iterate_stepSet {n : Nat} (adj : Fin n → Fin n → Bool)
    (S : Finset (Fin n)) (k : Nat) : S ⊆ (stepSet adj)^[k] S := by
  induction k with
  | zero => simp
  | succ k ih =>
    rw [Function.iterate_succ_apply']
    exact ih.trans (subset_stepSet adj _)

theorem mem_reachSet_self {n : Nat} (adj : Fin n → Fin n → Bool) (v : Fin n) :
    v ∈ reachSet adj v :=
  subset_iterate_stepSet adj {v} n (Finset.mem_singleton_self v)

theorem stepSet_reachSet {n : Nat} (adj : Fin n → Fin n → Bool) (v : Fin n) :
    stepSet adj (reachSet adj v) = reachSet adj v := by
  by_cases hfix : ∃ k, k < n ∧ (stepSet adj)^[k + 1] {v} = (stepSet adj)^[k] {v}
  · obtain ⟨k, hk, he⟩ := hfix
    have key : ∀ m, k ≤ m → (stepSet adj)^[m] {v} = (stepSet adj)^[k] {v} := by
      intro m hm
      induction m, hm using Nat.le_induction with
      | base => rfl
      | succ m hm ih =>
        rw [Function.iterate_succ_apply', ih]
        have h2 : stepSet adj ((stepSet adj)^[k] {v}) = (stepSet adj)^[k + 1] {v} :=
          (Function.iterate_succ_apply' _ _ _).symm
        rw [h2, he]
    unfold reachSet
    have h3 : stepSet adj ((stepSet adj)^[n] {v}) = (stepSet adj)^[n + 1] {v} :=
      (Function.iterate_succ_apply' _ _ _).symm
    rw [h3, key (n + 1) (by omega), key n (by omega)]
  · exfalso
    push_neg at hfix
    have grow : ∀ k, k ≤ n → k + 1 ≤ ((stepSet adj)^[k] {v}).card := by
      intro k hk
      induction k with
      | zero => simp
      | succ k ih =>
        have h1 : k + 1 ≤ ((stepSet adj)^[k] {v}).card := ih (by omega)
        have hne := hfix k (by omega)
        have hsub : (stepSet adj)^[k] {v} ⊆ (stepSet adj)^[k + 1] {v} := by
          rw [Function.iterate_succ_apply']
          exact subset_stepSet adj _
        have hlt : ((stepSet adj)^[k] {v}).card < ((stepSet adj)^[k + 1] {v}).card :=
          Finset.card_lt_card (Finset.ssubset_iff_subset_ne.mpr
            ⟨hsub, fun he => hne he.symm⟩)
        omega
    have h1 := grow n (le_refl n)
    have h2 : ((stepSet adj)^[n] {v}).card ≤ n := by
      simpa using Finset.card_le_univ ((stepSet adj)^[n] {v})
    omega

theorem reaches_of_mem_iterate {n : Nat} (adj : Fin n → Fin n → Bool) (v : Fin n)
    (k : Nat) : ∀ y ∈ (stepSet adj)^[k] {v},
      Relation.ReflTransGen (Adjacent adj) v y := by
  induction k with
  | zero =>
    intro y hy
    simp only [Function.iterate_zero, id_eq, Finset.mem_singleton] at hy
    subst hy
    exact Relation.ReflTransGen.refl
  | succ k ih =>
    intro y hy
    rw [Function.iterate_succ_apply'] at hy
    rcases (mem_stepSet adj _ y).mp hy with h1 | ⟨x, hx, hadj⟩
    · exact ih y h1
    · exact (ih x hx).tail hadj

/-- Membership in `reachSet` is exactly reachability: the reflexive-transitive
closure of the edge relation. -/
theorem mem_reachSet {n : Nat} (adj : Fin n → Fin n → Bool) (v y : Fin n) :
    y ∈ reachSet adj v ↔ Relation.ReflTransGen (Adjacent adj) v y := by
  constructor
  · exact reaches_of_mem_iterate adj v n y
  · intro h
    induction h with
    | refl => exact mem_reachSet_self adj v
    | tail hab hbc ih =>
      have hc := (mem_stepSet adj (reachSet adj v) _).mpr (Or.inr ⟨_, ih, hbc⟩)
      rwa [stepSet_reachSet] at hc

theorem adjacent_symmetric {n : Nat} (adj : Fin n → Fin n → Bool)
    (hs : ∀ a b : Fin n, adj a b = adj b a) : Symmetric (Adjacent adj) :=
  fun a b h => by unfold Adjacent at *; rw [hs]; exact h

theorem reachSet_eq_of_mem {n : Nat} (adj : Fin n → Fin n → Bool)
    (hs : ∀ a b : Fin n, adj a b = adj b a) (v w : Fin n)
    (h : w ∈ reachSet adj v) : reachSet adj w = reachSet adj v := by
  have hvw := (mem_reachSet adj v w).mp h
  have hwv := (Relation.ReflTransGen.symmetric (adjacent_symmetric adj hs)) hvw
  ext y
  rw [mem_reachSet, mem_reachSet]
  exact ⟨fun hy => hvw.trans hy, fun hy => hwv.trans hy⟩

/-- A BFS launched from an unvisited start, when the visited set is closed
under adjacency, discovers exactly the connected component of the start. -/
theorem bfsAux_component_eq {n : Nat} (adj : Fin n → Fin n → Bool)
    (hs : ∀ a b : Fin n, adj a b = adj b a) (V : Finset (Fin n)) (start : Fin n)
    (hcl : ∀ x ∈ V, ∀ y : Fin n, adj x y = true → y ∈ V) (hst : start ∉ V) :
    (bfsAux adj V [start]).2.toFinset = reachSet adj start := by
  apply Finset.Subset.antisymm
  · intro c hc
    rw [List.mem_toFinset] at hc
    obtain ⟨q, hq, hr⟩ := bfsAux_comp_reaches adj V [start] c hc
    rw [List.mem_singleton] at hq
    subst hq
    exact (mem_reachSet adj _ c).mpr hr
  · intro y hy
    have hr := (mem_reachSet adj start y).mp hy
    rw [List.mem_toFinset]
    clear hy
    induction hr with
    | refl =>
      have hv := bfsAux_queue_visited adj V [start] start (List.mem_singleton_self start)
      rw [bfsAux_vis_eq] at hv
      rcases Finset.mem_union.mp hv with h1 | h2
      · exact absurd h1 hst
      · exact List.mem_toFinset.mp h2
    | tail hab hbc ih =>
      rename_i b c
      have hc := bfsAux_comp_closed adj V [start] _ ih _ hbc
      rw [bfsAux_vis_eq] at hc
      rcases Finset.mem_union.mp hc with h1 | h2
      · exfalso
        have hba : adj c b = true := by rw [hs]; exact hbc
        have hbV := hcl _ h1 _ hba
        exact bfsAux_comp_not_mem adj V [start] _ ih hbV
      · exact List.mem_toFinset.mp h2

end SimilarQuestions

namespace SimilarQuestions

/-! ### Outer scan: the emitted components are exactly the components -/

theorem mem_compUnion {n : Nat} (cs : List (List (Fin n))) (x : Fin n) :
    x ∈ compUnion cs ↔ ∃ c ∈ cs, x ∈ c := by
  induction cs with
  | nil => simp [compUnion]
  | cons c cs ih =>
    unfold compUnion at *
    simp only [List.map_cons, List.foldr_cons, Finset.mem_union, List.mem_toFinset, ih]
    constructor
    · rintro (h | ⟨d, hd, hx⟩)
      · exact ⟨c, List.mem_cons_self c cs, h⟩
      · exact ⟨d, List.mem_cons_of_mem c hd, hx⟩
    · rintro ⟨d, hd, hx⟩
      rcases List.mem_cons.mp hd with rfl | hd'
      · exact Or.inl hx
      · exact Or.inr ⟨d, hd', hx⟩

theorem compUnion_append {n : Nat} (cs : List (List (Fin n))) (c : List (Fin n)) :
    compUnion (cs ++ [c]) = compUnion cs ∪ c.toFinset := by
  ext x
  rw [mem_compUnion, Finset.mem_union, mem_compUnion, List.mem_toFinset]
  constructor
  · rintro ⟨d, hd, hx⟩
    rcases List.mem_append.mp hd with h1 | h2
    · exact Or.inl ⟨d, h1, hx⟩
    · rw [List.mem_singleton] at h2; subst h2; exact Or.inr hx
  · rintro (⟨d, hd, hx⟩ | hx)
    · exact ⟨d, List.mem_append_left _ hd, hx⟩
    · exact ⟨c, List.mem_append_right _ (List.mem_singleton_self c), hx⟩

theorem scanStep_inv {n : Nat} (adj : Fin n → Fin n → Bool)
    (hs : ∀ a b : Fin n, adj a b = adj b a) (skipIso : Bool)
    (acc : Finset (Fin n) × List (List (Fin n))) (s : Fin n)
    (h : ScanInv adj acc) : ScanInv adj (scanStep adj skipIso acc s) := by
  unfold scanStep
  by_cases h1 : s ∈ acc.1
  · rw [if_pos h1]; exact h
  · rw [if_neg h1]
    by_cases h2 : (skipIso && ((List.finRange n).filter fun m => adj s m).isEmpty) = true
    · rw [if_pos h2]; exact h
    · rw [if_neg h2]
      refine ⟨?_, ?_, ?_, ?_⟩
      · intro x hx y hy
        rw [bfsAux_vis_eq] at hx
        rcases Finset.mem_union.mp hx with hxa | hxc
        · exact bfsAux_vis_subset adj acc.1 [s] (h.closed x hxa y hy)
        · exact bfsAux_comp_closed adj acc.1 [s] x (List.mem_toFinset.mp hxc) y hy
      · rw [bfsAux_vis_eq, compUnion_append, h.visEq]
      · intro c hc
        rcases List.mem_append.mp hc with hold | hnew
        · exact h.compsOK c hold
        · rw [List.mem_singleton] at hnew
          subst hnew
          exact ⟨bfsAux_comp_nodup adj acc.1 [s],
            s, bfsAux_component_eq adj hs acc.1 s h.closed h1⟩
      · rw [List.pairwise_append]
        refine ⟨h.disj, List.pairwise_singleton _ _, ?_⟩
        intro c hc d hd x hxc hxd
        rw [List.mem_singleton] at hd
        subst hd
        have hxa : x ∈ acc.1 := by
          rw [h.visEq, mem_compUnion]
          exact ⟨c, hc, hxc⟩
        exact bfsAux_comp_not_mem adj acc.1 [s] x hxd hxa

theorem foldl_scanStep_inv {n : Nat} (adj : Fin n → Fin n → Bool)
    (hs : ∀ a b : Fin n, adj a b = adj b a) (skipIso : Bool)
    (L : List (Fin n)) (acc : Finset (Fin n) × List (List (Fin n)))
    (h : ScanInv adj acc) : ScanInv adj (L.foldl (scanStep adj skipIso) acc) := by
  induction L generalizing acc with
  | nil => exact h
  | cons s L ih => exact ih _ (scanStep_inv adj hs skipIso acc s h)

theorem scanInv_init {n : Nat} (adj : Fin n → Fin n → Bool) :
    ScanInv adj ((∅ : Finset (Fin n)), ([] : List (List (Fin n)))) := by
  refine ⟨?_, ?_, ?_, ?_⟩ <;> simp [compUnion]

theorem scanComponents_inv {n : Nat} (adj : Fin n → Fin n → Bool)
    (hs : ∀ a b : Fin n, adj a b = adj b a) (skipIso : Bool) :
    ScanInv adj ((List.finRange n).foldl (scanStep adj skipIso) (∅, [])) :=
  foldl_scanStep_inv adj hs skipIso _ _ (scanInv_init adj)

theorem scanStep_vis_mono {n : Nat} (adj : Fin n → Fin n → Bool) (skipIso : Bool)
    (acc : Finset (Fin n) × List (List (Fin n))) (s : Fin n) :
    acc.1 ⊆ (scanStep adj skipIso acc s).1 := by
  unfold scanStep
  by_cases h1 : s ∈ acc.1
  · simp [h1]
  · simp only [h1, if_false]
    by_cases h2 : (skipIso && ((List.finRange n).filter fun m => adj s m).isEmpty) = true
    · simp [h2]
    · simp only [h2, if_false]
      exact bfsAux_vis_subset adj acc.1 [s]

theorem foldl_scanStep_vis_mono {n : Nat} (adj : Fin n → Fin n → Bool) (skipIso : Bool)
    (L : List (Fin n)) (acc : Finset (Fin n) × List (List (Fin n))) :
    acc.1 ⊆ (L.foldl (scanStep adj skipIso) acc).1 := by
  induction L generalizing acc with
  | nil => exact fun x hx => hx
  | cons s L ih =>
    exact (scanStep_vis_mono adj skipIso acc s).trans (ih _)

theorem foldl_scanStep_covers {n : Nat} (adj : Fin n → Fin n → Bool) (skipIso : Bool)
    (L : List (Fin n)) (acc : Finset (Fin n) × List (List (Fin n))) (v : Fin n)
    (hv : v ∈ L) (hnz : skipIso = true → ∃ w, adj v w = true) :
    v ∈ (L.foldl (scanStep adj skipIso) acc).1 := by
  induction L generalizing acc with
  | nil => cases hv
  | cons s L ih =>
    rcases List.mem_cons.mp hv with rfl | hv'
    · simp only [List.foldl_cons]
      apply foldl_scanStep_vis_mono
      unfold scanStep
      by_cases h1 : v ∈ acc.1
      · simp [h1]
      · simp only [h1, if_false]
        by_cases h2 : (skipIso && ((List.finRange n).filter fun m => adj v m).isEmpty) = true
        · exfalso
          have hsk : skipIso = true := (Bool.and_eq_true _ _ |>.mp h2).1
          have hemp := (Bool.and_eq_true _ _ |>.mp h2).2
          obtain ⟨w, hw⟩ := hnz hsk
          have hmem : w ∈ (List.finRange n).filter fun m => adj v m :=
            List.mem_filter.mpr ⟨List.mem_finRange w, hw⟩
          rw [List.isEmpty_iff] at hemp
          rw [hemp] at hmem
          cases hmem
        · simp only [h2, if_false]
          exact bfsAux_queue_visited adj acc.1 [v] v (List.mem_singleton_self v)
    · simp only [List.foldl_cons]
      exact ih _ hv'

theorem scanComponents_covers {n : Nat} (adj : Fin n → Fin n → Bool)
    (hs : ∀ a b : Fin n, adj a b = adj b a) (skipIso : Bool) (v : Fin n)
    (hnz : skipIso = true → ∃ w, adj v w = true) :
    ∃ c ∈ scanComponents adj skipIso, v ∈ c := by
  have hinv := scanComponents_inv adj hs skipIso
  have hv : v ∈ ((List.finRange n).foldl (scanStep adj skipIso) (∅, [])).1 :=
    foldl_scanStep_covers adj skipIso _ _ v (List.mem_finRange v) hnz
  rw [hinv.visEq] at hv
  exact (mem_compUnion _ v).mp hv

/-! ### Characterisation of the emitted groups -/

/-- Soundness: every emitted group is (the node list of) a connected component
with at least two members. -/
theorem verifyComponents_spec {n : Nat} (adj : Fin n → Fin n → Bool)
    (hs : ∀ a b : Fin n, adj a b = adj b a) (skipIso : Bool) :
    ∀ c ∈ verifyComponents adj skipIso,
      c.Nodup ∧ 2 ≤ c.length ∧
      ∃ v, c.toFinset = reachSet adj v ∧ 2 ≤ (reachSet adj v).card := by
  intro c hc
  unfold verifyComponents at hc
  have hmem := List.mem_filter.mp hc
  have hlen : 2 ≤ c.length := by simpa using hmem.2
  have hinv := scanComponents_inv adj hs skipIso
  obtain ⟨hnd, v, hv⟩ := hinv.compsOK c hmem.1
  refine ⟨hnd, hlen, v, hv, ?_⟩
  rw [← hv, List.toFinset_card_of_nodup hnd]
  exact hlen

/-- Completeness: every connected component with at least two members is
emitted. -/
theorem verifyComponents_complete {n : Nat} (adj : Fin n → Fin n → Bool)
    (hs : ∀ a b : Fin n, adj a b = adj b a) (skipIso : Bool) (v : Fin n)
    (hcard : 2 ≤ (reachSet adj v).card) :
    ∃ c ∈ verifyComponents adj skipIso, c.toFinset = reachSet adj v := by
  have hnz : ∃ w, adj v w = true := by
    obtain ⟨w, hw, hne⟩ : ∃ w ∈ reachSet adj v, w ≠ v := by
      by_contra hno
      push_neg at hno
      have hsub : reachSet adj v ⊆ {v} := fun x hx => Finset.mem_singleton.mpr (hno x hx)
      have := Finset.card_le_card hsub
      simp only [Finset.card_singleton] at this
      omega
    have hr := (mem_reachSet adj v w).mp hw
    rcases hr.cases_head with he | ⟨x, hx, _⟩
    · exact absurd he.symm hne
    · exact ⟨x, hx⟩
  obtain ⟨c, hc, hvc⟩ := scanComponents_covers adj hs skipIso v (fun _ => hnz)
  have hinv := scanComponents_inv adj hs skipIso
  obtain ⟨hnd, u, hu⟩ := hinv.compsOK c hc
  have hvu : v ∈ reachSet adj u := hu ▸ List.mem_toFinset.mpr hvc
  have hvequ : reachSet adj v = reachSet adj u := reachSet_eq_of_mem adj hs u v hvu
  have hcfin : c.toFinset = reachSet adj v := by rw [hu, hvequ]
  refine ⟨c, ?_, hcfin⟩
  unfold verifyComponents
  refine List.mem_filter.mpr ⟨hc, ?_⟩
  have hlen : c.toFinset.card = c.length := List.toFinset_card_of_nodup hnd
  rw [hcfin] at hlen
  simp only [decide_eq_true_eq]
  omega

/-- A member of a singleton component is in no emitted group. -/
theorem verifyComponents_small_not_mem {n : Nat} (adj : Fin n → Fin n → Bool)
    (hs : ∀ a b : Fin n, adj a b = adj b a) (skipIso : Bool) (v : Fin n)
    (hcard : (reachSet adj v).card ≤ 1) :
    ∀ c ∈ verifyComponents adj skipIso, v ∉ c := by
  intro c hc hvc
  obtain ⟨hnd, hlen, u, hu, _⟩ := verifyComponents_spec adj hs skipIso c hc
  have hvu : v ∈ reachSet adj u := hu ▸ List.mem_toFinset.mpr hvc
  have hvequ : reachSet adj v = reachSet adj u := reachSet_eq_of_mem adj hs u v hvu
  have hcardc : c.toFinset.card = c.length := List.toFinset_card_of_nodup hnd
  rw [hu, ← hvequ] at hcardc
  omega

/-- Fewer edges can only shrink reachability. -/
theorem reachSet_mono {n : Nat} (adj adj' : Fin n → Fin n → Bool)
    (hmono : ∀ a b : Fin n, adj a b = true → adj' a b = true) (v : Fin n) :
    reachSet adj v ⊆ reachSet adj' v := by
  intro y hy
  rw [mem_reachSet] at hy ⊢
  exact Relation.ReflTransGen.mono (fun a b h => hmono a b h) hy

end SimilarQuestions

namespace SimilarQuestions

/-! ### Symmetry and monotonicity of the scored adjacency -/

theorem pairScore_symm (score : String → String → ℚ) (ts : List String)
    (i j : Fin ts.length) : pairScore score ts i j = pairScore score ts j i := by
  unfold pairScore
  rcases lt_trichotomy (i : Nat) (j : Nat) with h | h | h
  · rw [if_pos h, if_neg (by omega)]
  · have hij : i = j := Fin.ext h
    subst hij
    rfl
  · rw [if_neg (by omega), if_pos h]

theorem adjFull_symm (score : String → String → ℚ) (t : ℚ) (ts : List String) :
    ∀ i j, adjFull score t ts i j = adjFull score t ts j i := by
  intro i j
  unfold adjFull
  rw [pairScore_symm]
  congr 1
  exact decide_eq_decide.mpr ne_comm

theorem adjBounded_symm (score : String → String → ℚ) (t : ℚ) (ts : List String) :
    ∀ i j, adjBounded score t ts i j = adjBounded score t ts j i := by
  intro i j
  unfold adjBounded
  rw [pairScore_symm]
  congr 1
  rw [Bool.or_comm]

theorem adjFull_mono (score : String → String → ℚ) (ts : List String)
    (t t' : ℚ) (h : t ≤ t') :
    ∀ i j, adjFull score t' ts i j = true → adjFull score t ts i j = true := by
  intro i j hj
  unfold adjFull at *
  rw [Bool.and_eq_true] at hj
  rw [Bool.and_eq_true]
  refine ⟨hj.1, ?_⟩
  have h2 : t' ≤ pairScore score ts i j := of_decide_eq_true hj.2
  exact decide_eq_true (le_trans h h2)

theorem mem_boundedPairList (m i j : Nat) :
    (i, j) ∈ boundedPairList m ↔ i < j ∧ j < m ∧ j ≤ i + 50 := by
  unfold boundedPairList
  simp only [List.mem_flatMap, List.mem_map, List.mem_range, List.mem_range'_1]
  constructor
  · rintro ⟨i', hi', j', hj', heq⟩
    cases heq
    omega
  · rintro ⟨h1, h2, h3⟩
    exact ⟨i, by omega, j, by omega, rfl⟩

/-! ### Claim C1 -/

/-- **C1.**  For every candidate cluster of size ≥ 2 and threshold `t`, the
Verification Grapher builds an undirected graph with an edge between members
`i` and `j` iff their pairwise score is ≥ `t`, and the verified groups it
emits are exactly the connected components of that graph having size ≥ 2;
every member lying in a size-1 component receives no group label. -/
theorem c1_grapher_components_exact (score : String → String → ℚ) (t : ℚ)
    (ts : List String) (hsize : 2 ≤ ts.length) : C1Conclusion score t ts := by
  refine ⟨?_, ?_, ?_, ?_, ?_⟩
  · intro i j
    unfold Adjacent adjFull
    rw [Bool.and_eq_true, decide_eq_true_eq, decide_eq_true_eq]
  · intro v w
    exact mem_reachSet _ v w
  · intro c hc
    obtain ⟨_, _, v, hv, hcard⟩ :=
      verifyComponents_spec _ (adjFull_symm score t ts) true c hc
    exact ⟨v, hv, hcard⟩
  · intro v hcard
    exact verifyComponents_complete _ (adjFull_symm score t ts) true v hcard
  · intro v hcard
    exact verifyComponents_small_not_mem _ (adjFull_symm score t ts) true v (by omega)

theorem c1_grapher_components_exact_witness :
    2 ≤ (["a", "b", "c"] : List String).length ∧
      C1Conclusion (fun _ _ => 1) 0 ["a", "b", "c"] :=
  ⟨by decide, c1_grapher_components_exact (fun _ _ => 1) 0 ["a", "b", "c"] (by decide)⟩

/-! ### Claim C6 -/

/-- **C6.**  For a fixed candidate cluster and fixed pairwise scores, raising
the verification threshold never increases the size of any resulting verified
group: every group produced at the higher threshold is a subset of some group
produced at the lower threshold. -/
theorem c6_threshold_monotone (score : String → String → ℚ) (ts : List String)
    (t t' : ℚ) (hle : t ≤ t') :
    ∀ c' ∈ clusterComponents score t' ts,
      ∃ c ∈ clusterComponents score t ts, c' ⊆ c := by
  intro c' hc'
  obtain ⟨hnd, hlen, v, hv, hcard⟩ :=
    verifyComponents_spec _ (adjFull_symm score t' ts) true c' hc'
  have hsub := reachSet_mono _ _ (adjFull_mono score ts t t' hle) v
  have hcard2 : 2 ≤ (reachSet (adjFull score t ts) v).card :=
    le_trans hcard (Finset.card_le_card hsub)
  obtain ⟨c, hc, hcfin⟩ :=
    verifyComponents_complete _ (adjFull_symm score t ts) true v hcard2
  refine ⟨c, hc, ?_⟩
  intro x hx
  have hx1 : x ∈ c'.toFinset := List.mem_toFinset.mpr hx
  rw [hv] at hx1
  have hx2 := hsub hx1
  rw [← hcfin] at hx2
  exact List.mem_toFinset.mp hx2

theorem c6_threshold_monotone_witness :
    ((0 : ℚ) ≤ 1) ∧
      ∀ c' ∈ clusterComponents (fun _ _ => 1) 1 ["a", "b"],
        ∃ c ∈ clusterComponents (fun _ _ => 1) 0 ["a", "b"], c' ⊆ c :=
  ⟨by decide, c6_threshold_monotone (fun _ _ => 1) ["a", "b"] 0 1 (by decide)⟩

/-! ### Claim C7 -/

/-- **C7.**  In Stage 2's bounded verification pass over a fine-grained
cluster of size ≥ 2, each member at position `i` is paired only with the
members at positions `i+1` through `i+50`; no pair whose positions differ by
more than 50 is ever scored, and the connected components of size ≥ 2 of the
resulting graph become the sub-groups. -/
theorem c7_bounded_pass (score : String → String → ℚ) (t : ℚ) (ts : List String)
    (hsize : 2 ≤ ts.length) : C7Conclusion score t ts := by
  refine ⟨fun i j => mem_boundedPairList ts.length i j, ?_, ?_, ?_, ?_⟩
  · intro i j
    have hi := i.isLt
    have hj := j.isLt
    unfold Adjacent adjBounded
    rw [Bool.and_eq_true, Bool.or_eq_true, Bool.and_eq_true, Bool.and_eq_true]
    simp only [decide_eq_true_eq, mem_boundedPairList]
    constructor
    · rintro ⟨h, hsc⟩
      exact ⟨by omega, hsc⟩
    · rintro ⟨h, hsc⟩
      exact ⟨by omega, hsc⟩
  · intro c hc
    obtain ⟨_, _, v, hv, hcard⟩ :=
      verifyComponents_spec _ (adjBounded_symm score t ts) false c hc
    exact ⟨v, hv, hcard⟩
  · intro v hcard
    exact verifyComponents_complete _ (adjBounded_symm score t ts) false v hcard
  · intro v hcard
    exact verifyComponents_small_not_mem _ (adjBounded_symm score t ts) false v (by omega)

theorem c7_bounded_pass_witness :
    2 ≤ (["a", "b", "c"] : List String).length ∧
      C7Conclusion (fun _ _ => 1) 0 ["a", "b", "c"] :=
  ⟨by decide, c7_bounded_pass (fun _ _ => 1) 0 ["a", "b", "c"] (by decide)⟩

end SimilarQuestions

namespace SimilarQuestions

/-! ### Dictionary-fold lemmas -/

theorem dinsert_fresh {α : Type} (m : List (Nat × α)) (k : Nat) (v : α)
    (h : ∀ q ∈ m, q.1 ≠ k) : dinsert m k v = m ++ [(k, v)] := by
  unfold dinsert
  have hcond : ¬ (m.any fun p => decide (p.1 = k)) = true := by
    rw [List.any_eq_true]
    rintro ⟨p, hp, hpk⟩
    exact h p hp (of_decide_eq_true hpk)
  rw [if_neg hcond]

theorem foldl_dinsert_eq {α β : Type} (ps : List α) (f : α → Nat) (g : α → β)
    (acc : List (Nat × β)) (hdisj : ∀ p ∈ ps, ∀ q ∈ acc, q.1 ≠ f p)
    (hnd : (ps.map f).Nodup) :
    ps.foldl (fun d p => dinsert d (f p) (g p)) acc =
      acc ++ ps.map fun p => (f p, g p) := by
  induction ps generalizing acc with
  | nil => simp
  | cons p ps ih =>
    simp only [List.foldl_cons, List.map_cons]
    rw [dinsert_fresh acc (f p) (g p)
      (fun q hq => hdisj p (List.mem_cons_self p ps) q hq)]
    rw [List.map_cons] at hnd
    have hnd' := List.nodup_cons.mp hnd
    have hdisj2 : ∀ r ∈ ps, ∀ q ∈ acc ++ [(f p, g p)], q.1 ≠ f r := by
      intro r hr q hq
      rcases List.mem_append.mp hq with h1 | h2
      · exact hdisj r (List.mem_cons_of_mem p hr) q h1
      · rw [List.mem_singleton] at h2
        subst h2
        intro he
        apply hnd'.1
        have he2 : f p = f r := he
        rw [he2]
        exact List.mem_map_of_mem f hr
    rw [ih (acc ++ [(f p, g p)]) hdisj2 hnd'.2, List.append_assoc,
      List.singleton_append]

theorem map_getD_range {α : Type} (l : List α) (d : α) :
    (List.range l.length).map (fun i => l.getD i d) = l := by
  induction l with
  | nil => rfl
  | cons a l ih =>
    rw [List.length_cons, List.range_succ_eq_map, List.map_cons, List.map_map]
    have htail : (List.range l.length).map
        ((fun i => (a :: l).getD i d) ∘ Nat.succ) = l := by
      show (List.range l.length).map (fun i => l.getD i d) = l
      exact ih
    rw [htail]
    rfl

theorem map_filter_snd {β : Type} [DecidableEq β] (A : List (Nat × β)) (q : β → Bool) :
    (A.filter fun p => q p.2).map Prod.snd = (A.map Prod.snd).filter q := by
  induction A with
  | nil => rfl
  | cons a A ih =>
    simp only [List.filter_cons, List.map_cons]
    by_cases h : q a.2
    · simp [h, ih]
    · simp [h, ih]

/-! ### Claim C3 -/

/-- **C3, counterexample.**  With a dendrogram cut labelling the five members
`[1, 1, 2, 3, 3]`, the singleton cluster `2` is discarded, but the surviving
clusters are NOT renumbered contiguously: the Hierarchical Fallback returns
sub-group numbers `{1, 3}` — while a contiguous renumbering `1..k` of the
`k = 2` surviving clusters would have to be `{1, 2}`. -/
theorem c3_counterexample :
    trySplitWithCrossEncoder (fun _ _ => [1, 1, 2, 3, 3]) (fun _ _ => 0)
        [0, 1, 2, 3, 4] ["a", "b", "c", "d", "e"] (17 / 20) =
      some [(0, 1), (1, 1), (3, 3), (4, 3)] ∧
    ¬ ((([(0, 1), (1, 1), (3, 3), (4, 3)] : List (Nat × Nat)).map Prod.snd).toFinset =
        Finset.image (fun i => i + 1)
          (Finset.range
            ((([(0, 1), (1, 1), (3, 3), (4, 3)] : List (Nat × Nat)).map
              Prod.snd).dedup.length))) :=
  ⟨by decide, by decide⟩

theorem fallback_assignments_eq (hcut : List (List ℚ) → ℚ → List Nat)
    (score : String → String → ℚ) (indices : List Nat) (texts : List String)
    (t : ℚ) (hnd : indices.Nodup)
    (hlen : (fallbackLabels hcut score indices texts t).length = indices.length) :
    ((fallbackLabels hcut score indices texts t).enum).foldl
        (fun d p => dinsert d (indices.getD p.1 0) p.2) [] =
      fallbackAssignments indices (fallbackLabels hcut score indices texts t) := by
  have hkeys : (((fallbackLabels hcut score indices texts t).enum).map
      fun p => indices.getD p.1 0).Nodup := by
    have h1 : (((fallbackLabels hcut score indices texts t).enum).map
        fun p => indices.getD p.1 0) =
        (((fallbackLabels hcut score indices texts t).enum).map Prod.fst).map
          fun i => indices.getD i 0 := by
      rw [List.map_map]
      rfl
    rw [h1, List.enum_map_fst, hlen, map_getD_range]
    exact hnd
  have h2 := foldl_dinsert_eq ((fallbackLabels hcut score indices texts t).enum)
    (fun p => indices.getD p.1 0) Prod.snd [] (by intro p hp q hq; cases hq) hkeys
  simpa [fallbackAssignments] using h2

theorem fallback_assignments_vals (indices : List Nat) (labels : List Nat) :
    (fallbackAssignments indices labels).map Prod.snd = labels := by
  unfold fallbackAssignments
  rw [List.map_map]
  show labels.enum.map Prod.snd = labels
  exact List.enum_map_snd labels

theorem toFinset_filter_mem_valid (labels : List Nat) :
    (labels.filter fun l => decide (l ∈ validFallback labels)).toFinset =
      (validFallback labels).toFinset := by
  ext l
  unfold validFallback
  simp only [List.mem_toFinset, List.mem_filter, List.mem_dedup,
    decide_eq_true_eq]
  constructor
  · rintro ⟨h1, h2⟩
    exact h2
  · rintro ⟨h1, h2⟩
    exact ⟨h1, h1, h2⟩

/-- **C3, amended.**  In the Hierarchical Fallback, after cutting the
dendrogram, clusters with fewer than 2 members are discarded, but the
surviving clusters KEEP their original cut numbers (no contiguous
renumbering, so the surviving sub-group numbers may have gaps); if fewer than
2 clusters survive the filtering, the fallback reports no split possible. -/
theorem c3_amended_fallback_filtering (hcut : List (List ℚ) → ℚ → List Nat)
    (score : String → String → ℚ) (indices : List Nat) (texts : List String)
    (t : ℚ) (hnd : indices.Nodup)
    (hlen : (fallbackLabels hcut score indices texts t).length = indices.length) :
    (∀ m, trySplitWithCrossEncoder hcut score indices texts t = some m →
        m = (fallbackAssignments indices
              (fallbackLabels hcut score indices texts t)).filter
            (fun p => decide (p.2 ∈ validFallback
              (fallbackLabels hcut score indices texts t))) ∧
        (m.map Prod.snd).toFinset =
          (validFallback (fallbackLabels hcut score indices texts t)).toFinset ∧
        2 ≤ (validFallback (fallbackLabels hcut score indices texts t)).length) ∧
    ((validFallback (fallbackLabels hcut score indices texts t)).length ≤ 1 →
      trySplitWithCrossEncoder hcut score indices texts t = none) := by
  have hA := fallback_assignments_eq hcut score indices texts t hnd hlen
  have hvals := fallback_assignments_vals indices
    (fallbackLabels hcut score indices texts t)
  have hdef : validFallback (fallbackLabels hcut score indices texts t) =
      (fallbackLabels hcut score indices texts t).dedup.filter
        (fun l => decide
          (2 ≤ (fallbackLabels hcut score indices texts t).count l)) := rfl
  constructor
  · intro m hm
    simp only [trySplitWithCrossEncoder] at hm
    rw [hA, hvals, ← hdef] at hm
    split_ifs at hm with h1 h2 h3 h4
    have hmeq : m = (fallbackAssignments indices
        (fallbackLabels hcut score indices texts t)).filter
          (fun p => decide (p.2 ∈ validFallback
            (fallbackLabels hcut score indices texts t))) := by
      injection hm with h5
      exact h5.symm
    subst hmeq
    refine ⟨rfl, ?_, ?_⟩
    · have e1 : ((fallbackAssignments indices
            (fallbackLabels hcut score indices texts t)).filter
            (fun p => decide (p.2 ∈ validFallback
              (fallbackLabels hcut score indices texts t)))).map Prod.snd =
          ((fallbackAssignments indices
            (fallbackLabels hcut score indices texts t)).map Prod.snd).filter
            (fun l => decide (l ∈ validFallback
              (fallbackLabels hcut score indices texts t))) :=
        map_filter_snd
          (fallbackAssignments indices (fallbackLabels hcut score indices texts t))
          (fun l => decide (l ∈ validFallback
            (fallbackLabels hcut score indices texts t)))
      rw [e1, hvals]
      exact toFinset_filter_mem_valid (fallbackLabels hcut score indices texts t)
    · omega
  · intro hle
    simp only [trySplitWithCrossEncoder]
    rw [hA, hvals, ← hdef]
    split_ifs with h1 h2
    any_goals rfl

theorem c3_amended_fallback_filtering_witness :
    ([0, 1, 2, 3, 4] : List Nat).Nodup ∧
      (fallbackLabels (fun _ _ => [1, 1, 2, 3, 3]) (fun _ _ => 0)
        [0, 1, 2, 3, 4] ["a", "b", "c", "d", "e"] (17 / 20)).length =
        ([0, 1, 2, 3, 4] : List Nat).length ∧
      (∀ m, trySplitWithCrossEncoder (fun _ _ => [1, 1, 2, 3, 3]) (fun _ _ => 0)
          [0, 1, 2, 3, 4] ["a", "b", "c", "d", "e"] (17 / 20) = some m →
          m = (fallbackAssignments [0, 1, 2, 3, 4]
                (fallbackLabels (fun _ _ => [1, 1, 2, 3, 3]) (fun _ _ => 0)
                  [0, 1, 2, 3, 4] ["a", "b", "c", "d", "e"] (17 / 20))).filter
              (fun p => decide (p.2 ∈ validFallback
                (fallbackLabels (fun _ _ => [1, 1, 2, 3, 3]) (fun _ _ => 0)
                  [0, 1, 2, 3, 4] ["a", "b", "c", "d", "e"] (17 / 20)))) ∧
          (m.map Prod.snd).toFinset =
            (validFallback (fallbackLabels (fun _ _ => [1, 1, 2, 3, 3])
              (fun _ _ => 0) [0, 1, 2, 3, 4] ["a", "b", "c", "d", "e"]
              (17 / 20))).toFinset ∧
          2 ≤ (validFallback (fallbackLabels (fun _ _ => [1, 1, 2, 3, 3])
            (fun _ _ => 0) [0, 1, 2, 3, 4] ["a", "b", "c", "d", "e"]
            (17 / 20))).length) ∧
      ((validFallback (fallbackLabels (fun _ _ => [1, 1, 2, 3, 3])
          (fun _ _ => 0) [0, 1, 2, 3, 4] ["a", "b", "c", "d", "e"]
          (17 / 20))).length ≤ 1 →
        trySplitWithCrossEncoder (fun _ _ => [1, 1, 2, 3, 3]) (fun _ _ => 0)
          [0, 1, 2, 3, 4] ["a", "b", "c", "d", "e"] (17 / 20) = none) :=
  ⟨by decide, by decide,
    c3_amended_fallback_filtering (fun _ _ => [1, 1, 2, 3, 3]) (fun _ _ => 0)
      [0, 1, 2, 3, 4] ["a", "b", "c", "d", "e"] (17 / 20) (by decide) (by decide)⟩

end SimilarQuestions

namespace SimilarQuestions

/-! ### Claim C10 -/

/-- **C10.**  In Stage 2, the Hierarchical Fallback is attempted only when the
fine density pass yields at most one non-noise cluster; if the fine pass
yields two or more clusters but the bounded verification then produces at
most one distinct sub-group, the group is kept unchanged and the fallback is
never invoked for it. -/
theorem c10_fallback_gating (cluster2 : List String → List Int)
    (hcut hcut2 : List (List ℚ) → ℚ → List Nat) (score : String → String → ℚ)
    (t : ℚ) (qs : List Question) (indices : List Nat)
    (hn : ¬ indices.length < 4) :
    C10Conclusion cluster2 hcut hcut2 score t qs indices := by
  refine ⟨?_, ?_, ?_⟩
  · intro hle
    simp only [trySplitGroup]
    rw [if_neg hn, if_pos hle]
  · intro h2
    have hcond : ¬ ((cluster2
        ((groupTexts qs indices).map prepareE5)).dedup.filter
          fun l => decide (l ≠ -1)).length ≤ 1 := by omega
    simp only [trySplitGroup, if_neg hn, if_neg hcond]
  · intro h2 hva
    have hcond : ¬ ((cluster2
        ((groupTexts qs indices).map prepareE5)).dedup.filter
          fun l => decide (l ≠ -1)).length ≤ 1 := by omega
    have hcond2 : ¬ 1 < ((boundedVerifyAssignments score t indices
        (groupTexts qs indices)
        (cluster2 ((groupTexts qs indices).map prepareE5))).map
          Prod.snd).dedup.length := by omega
    simp only [trySplitGroup, if_neg hn, if_neg hcond, if_neg hcond2]

theorem c10_fallback_gating_witness :
    ¬ ([0, 1, 2, 3] : List Nat).length < 4 ∧
      C10Conclusion (fun ts => ts.map fun _ => 0) (fun _ _ => [1, 1, 2, 2])
        (fun _ _ => [1, 2, 1, 2]) (fun _ _ => 0) 0 [] [0, 1, 2, 3] :=
  ⟨by decide, c10_fallback_gating (fun ts => ts.map fun _ => 0)
    (fun _ _ => [1, 1, 2, 2]) (fun _ _ => [1, 2, 1, 2]) (fun _ _ => 0) 0 []
    [0, 1, 2, 3] (by decide)⟩

end SimilarQuestions

namespace SimilarQuestions

/-! ### Grouping-fold lemmas -/

theorem addEntry_describe {κ : Type} [DecidableEq κ] (ps : List (κ × Nat))
    (acc : List (κ × List Nat)) (q : κ × Nat) (h : GroupsDescribe ps acc) :
    GroupsDescribe (ps ++ [q]) (addEntry acc q.1 q.2) := by
  obtain ⟨hnd, hval, hkey⟩ := h
  have hfq : ∀ (k : κ), k ≠ q.1 →
      ([q].filter fun p => decide (p.1 = k)) = [] := by
    intro k hk
    rw [List.filter_eq_nil_iff]
    intro p hp
    rw [List.mem_singleton] at hp
    subst hp
    simp only [decide_eq_true_eq]
    exact fun hh => hk (hh.symm)
  have hfq2 : ([q].filter fun p => decide (p.1 = q.1)) = [q] := by
    simp
  unfold addEntry
  by_cases hmem : (acc.any fun e => decide (e.1 = q.1)) = true
  · rw [if_pos hmem]
    have hkeysEq : (acc.map fun e =>
        if e.1 = q.1 then (e.1, e.2 ++ [q.2]) else e).map Prod.fst =
        acc.map Prod.fst := by
      rw [List.map_map]
      apply List.map_congr_left
      intro e he
      by_cases h1 : e.1 = q.1 <;> simp [h1]
    refine ⟨?_, ?_, ?_⟩
    · rw [hkeysEq]
      exact hnd
    · intro e' he'
      rw [List.mem_map] at he'
      obtain ⟨e, he, heq⟩ := he'
      by_cases h1 : e.1 = q.1
      · rw [if_pos h1] at heq
        subst heq
        simp only [List.filter_append, List.map_append]
        rw [← hval e he]
        congr 1
        show [q.2] = ([q].filter fun p => decide (p.1 = e.1)).map Prod.snd
        rw [h1, hfq2]
        rfl
      · rw [if_neg h1] at heq
        subst heq
        rw [List.filter_append, hfq e.1 h1, List.append_nil]
        exact hval e he
    · intro k
      rw [hkeysEq, ← hkey k]
      constructor
      · rintro ⟨v, hv⟩
        rcases List.mem_append.mp hv with h1 | h2
        · exact ⟨v, h1⟩
        · rw [List.mem_singleton] at h2
          have hk : k = q.1 := congrArg Prod.fst h2
          rw [List.any_eq_true] at hmem
          obtain ⟨e, he, heq⟩ := hmem
          have hink : q.1 ∈ acc.map Prod.fst := by
            rw [List.mem_map]
            exact ⟨e, he, of_decide_eq_true heq⟩
          rw [hk]
          exact (hkey q.1).mpr hink
      · rintro ⟨v, hv⟩
        exact ⟨v, List.mem_append_left _ hv⟩
  · rw [if_neg hmem]
    have hqfresh : q.1 ∉ acc.map Prod.fst := by
      intro hk
      rw [List.mem_map] at hk
      obtain ⟨e, he, heq⟩ := hk
      apply hmem
      rw [List.any_eq_true]
      exact ⟨e, he, decide_eq_true heq⟩
    have hnops : ¬ ∃ v, (q.1, v) ∈ ps := fun hv => hqfresh ((hkey q.1).mp hv)
    refine ⟨?_, ?_, ?_⟩
    · rw [List.map_append, List.nodup_append]
      refine ⟨hnd, List.nodup_singleton _, ?_⟩
      intro a ha hb
      simp only [List.map_cons, List.map_nil, List.mem_singleton] at hb
      subst hb
      exact hqfresh ha
    · intro e' he'
      rcases List.mem_append.mp he' with hold | hnew
      · have he'1 : e'.1 ∈ acc.map Prod.fst := List.mem_map_of_mem Prod.fst hold
        have hqne : e'.1 ≠ q.1 := fun hh => hqfresh (hh ▸ he'1)
        rw [List.filter_append, hfq e'.1 hqne, List.append_nil]
        exact hval e' hold
      · rw [List.mem_singleton] at hnew
        subst hnew
        show [q.2] = ((ps ++ [q]).filter fun p => decide (p.1 = q.1)).map Prod.snd
        have hps : (ps.filter fun p => decide (p.1 = q.1)) = [] := by
          rw [List.filter_eq_nil_iff]
          intro p hp hdec
          have hp1 : p.1 = q.1 := of_decide_eq_true hdec
          exact hnops ⟨p.2, by rw [← hp1]; exact hp⟩
        rw [List.filter_append, hps, hfq2]
        rfl
    · intro k
      rw [List.map_append]
      constructor
      · rintro ⟨v, hv⟩
        rcases List.mem_append.mp hv with h1 | h2
        · exact List.mem_append_left _ ((hkey k).mp ⟨v, h1⟩)
        · rw [List.mem_singleton] at h2
          have hk : k = q.1 := congrArg Prod.fst h2
          subst hk
          apply List.mem_append_right
          simp
      · intro hk
        rcases List.mem_append.mp hk with h1 | h2
        · obtain ⟨v, hv⟩ := (hkey k).mpr h1
          exact ⟨v, List.mem_append_left _ hv⟩
        · simp only [List.map_cons, List.map_nil, List.mem_singleton] at h2
          subst h2
          exact ⟨q.2, List.mem_append_right _ (by simp)⟩

theorem groupPairs_describe {κ : Type} [DecidableEq κ] (ps : List (κ × Nat)) :
    GroupsDescribe ps (groupPairs ps) := by
  induction ps using List.reverseRecOn with
  | nil =>
    refine ⟨by simp [groupPairs], by simp [groupPairs], ?_⟩
    intro k
    simp [groupPairs]
  | append_singleton ps q ih =>
    have hstep : groupPairs (ps ++ [q]) = addEntry (groupPairs ps) q.1 q.2 := by
      unfold groupPairs
      rw [List.foldl_append]
      rfl
    rw [hstep]
    exact addEntry_describe ps (groupPairs ps) q ih

end SimilarQuestions

namespace SimilarQuestions

/-! ### Characterisation of `groupByLabel` and `findLargeGroups` -/

theorem groupByLabel_eq_groupPairs (labels : List Int) :
    groupByLabel labels =
      groupPairs ((labels.enum.filter fun p => decide (0 ≤ p.2)).map
        fun p => (p.2, p.1)) := by
  unfold groupByLabel groupPairs
  suffices h : ∀ (L : List (Nat × Int)) (acc : List (Int × List Nat)),
      L.foldl (fun acc p => if 0 ≤ p.2 then addEntry acc p.2 p.1 else acc) acc =
        ((L.filter fun p => decide (0 ≤ p.2)).map fun p => (p.2, p.1)).foldl
          (fun acc r => addEntry acc r.1 r.2) acc by
    exact h labels.enum []
  intro L
  induction L with
  | nil => intro acc; rfl
  | cons p L ih =>
    intro acc
    by_cases hp : (0 : Int) ≤ p.2
    · rw [List.filter_cons, if_pos (decide_eq_true hp)]
      simp only [List.map_cons, List.foldl_cons]
      rw [if_pos hp]
      exact ih _
    · rw [List.filter_cons, if_neg (by simpa using hp)]
      simp only [List.foldl_cons]
      rw [if_neg hp]
      exact ih _

theorem groupByLabel_spec (labels : List Int) :
    ((groupByLabel labels).map Prod.fst).Nodup ∧
    (∀ e ∈ groupByLabel labels, 0 ≤ e.1 ∧ e.2.Nodup ∧
      (∀ i, i ∈ e.2 ↔ labels.get? i = some e.1 ∧ 0 ≤ e.1)) ∧
    (∀ i l, labels.get? i = some l → 0 ≤ l →
      ∃ e ∈ groupByLabel labels, e.1 = l) := by
  have hd := groupPairs_describe ((labels.enum.filter fun p => decide (0 ≤ p.2)).map
    fun p => (p.2, p.1))
  obtain ⟨hnd, hval, hkey⟩ := hd
  rw [← groupByLabel_eq_groupPairs] at hnd hval hkey
  refine ⟨hnd, ?_, ?_⟩
  · intro e he
    have hv := hval e he
    have hkmem : e.1 ∈ (groupByLabel labels).map Prod.fst :=
      List.mem_map_of_mem Prod.fst he
    obtain ⟨v, hvmem⟩ := (hkey e.1).mpr hkmem
    rw [List.mem_map] at hvmem
    obtain ⟨p, hp, hpeq⟩ := hvmem
    rw [List.mem_filter] at hp
    have h0 : 0 ≤ e.1 := by
      have h2 := of_decide_eq_true hp.2
      have h3 : p.2 = e.1 := congrArg Prod.fst hpeq
      rw [← h3]
      exact h2
    refine ⟨h0, ?_, ?_⟩
    · rw [hv]
      apply List.Sublist.nodup
        ((List.filter_sublist _).map Prod.snd)
      rw [List.map_map]
      show ((labels.enum.filter fun p => decide (0 ≤ p.2)).map Prod.fst).Nodup
      apply List.Sublist.nodup ((List.filter_sublist _).map Prod.fst)
      rw [List.enum_map_fst]
      exact List.nodup_range _
    · intro i
      rw [hv]
      constructor
      · intro hi
        rw [List.mem_map] at hi
        obtain ⟨r, hr, hri⟩ := hi
        rw [List.mem_filter] at hr
        obtain ⟨hr1, hr2⟩ := hr
        rw [List.mem_map] at hr1
        obtain ⟨pp, hpp, hppr⟩ := hr1
        rw [List.mem_filter] at hpp
        obtain ⟨hpe, hp0⟩ := hpp
        have hre : r.1 = e.1 := of_decide_eq_true hr2
        subst hppr
        have hpp2 : pp.2 = e.1 := hre
        have hpp1 : pp.1 = i := hri
        rw [← Prod.mk.eta (p := pp), List.mk_mem_enum_iff_get?] at hpe
        rw [← hpp1, hpe, hpp2]
        exact ⟨rfl, h0⟩
      · rintro ⟨hget, _⟩
        rw [List.mem_map]
        refine ⟨(e.1, i), ?_, rfl⟩
        rw [List.mem_filter]
        refine ⟨?_, by simp⟩
        rw [List.mem_map]
        refine ⟨(i, e.1), ?_, rfl⟩
        rw [List.mem_filter]
        exact ⟨List.mk_mem_enum_iff_get?.mpr hget, decide_eq_true h0⟩
  · intro i l hget h0
    have hexists : ∃ v, (l, v) ∈ ((labels.enum.filter fun p =>
        decide (0 ≤ p.2)).map fun p => (p.2, p.1)) := by
      refine ⟨i, ?_⟩
      rw [List.mem_map]
      refine ⟨(i, l), ?_, rfl⟩
      rw [List.mem_filter]
      exact ⟨List.mk_mem_enum_iff_get?.mpr hget, decide_eq_true h0⟩
    have hk := (hkey l).mp hexists
    rw [List.mem_map] at hk
    obtain ⟨e, he, heq⟩ := hk
    exact ⟨e, he, heq⟩

theorem filterMap_simVal_snd_sublist (L : List (Nat × Question)) :
    ((L.filterMap fun p => (simVal p.2).map fun g => (g, p.1)).map
      Prod.snd).Sublist (L.map Prod.fst) := by
  induction L with
  | nil => simp
  | cons p L ih =>
    rw [List.filterMap_cons]
    cases h : simVal p.2 with
    | none =>
      simp only [Option.map_none', List.map_cons]
      exact ih.cons _
    | some g =>
      simp only [Option.map_some', List.map_cons]
      exact ih.cons₂ _

theorem findLargeGroups_fold_eq (qs : List Question) :
    ((qs.enum).foldl (fun acc p =>
        match simVal p.2 with
        | some gid => addEntry acc gid p.1
        | none => acc) []) =
      groupPairs (qs.enum.filterMap fun p => (simVal p.2).map fun g => (g, p.1)) := by
  unfold groupPairs
  suffices h : ∀ (L : List (Nat × Question)) (acc : List (GroupLabel × List Nat)),
      L.foldl (fun acc p =>
        match simVal p.2 with
        | some gid => addEntry acc gid p.1
        | none => acc) acc =
      (L.filterMap fun p => (simVal p.2).map fun g => (g, p.1)).foldl
        (fun acc r => addEntry acc r.1 r.2) acc by
    exact h qs.enum []
  intro L
  induction L with
  | nil => intro acc; rfl
  | cons p L ih =>
    intro acc
    rw [List.filterMap_cons]
    cases h : simVal p.2 with
    | none =>
      simp only [Option.map_none', List.foldl_cons, h]
      exact ih _
    | some g =>
      simp only [Option.map_some', List.foldl_cons, h]
      exact ih _

theorem findLargeGroups_spec (qs : List Question) (minSize : Nat) :
    ((findLargeGroups qs minSize).map Prod.fst).Nodup ∧
    ∀ e ∈ findLargeGroups qs minSize,
      minSize < e.2.length ∧ e.2.Nodup ∧
      (∀ i, i ∈ e.2 ↔ ∃ q, qs.get? i = some q ∧ simVal q = some e.1) := by
  have hd := groupPairs_describe (qs.enum.filterMap fun p =>
    (simVal p.2).map fun g => (g, p.1))
  obtain ⟨hnd, hval, hkey⟩ := hd
  have heq : findLargeGroups qs minSize =
      (groupPairs (qs.enum.filterMap fun p =>
        (simVal p.2).map fun g => (g, p.1))).filter
        fun g => decide (minSize < g.2.length) := by
    unfold findLargeGroups
    rw [findLargeGroups_fold_eq]
  constructor
  · rw [heq]
    exact List.Sublist.nodup ((List.filter_sublist _).map Prod.fst) hnd
  · intro e he
    rw [heq, List.mem_filter] at he
    obtain ⟨he1, he2⟩ := he
    refine ⟨of_decide_eq_true he2, ?_, ?_⟩
    · rw [hval e he1]
      apply List.Sublist.nodup ((List.filter_sublist _).map Prod.snd)
      exact List.Sublist.nodup (filterMap_simVal_snd_sublist qs.enum)
        (by rw [List.enum_map_fst]; exact List.nodup_range _)
    · intro i
      rw [hval e he1]
      constructor
      · intro hi
        rw [List.mem_map] at hi
        obtain ⟨r, hr, hri⟩ := hi
        rw [List.mem_filter] at hr
        obtain ⟨hr1, hr2⟩ := hr
        rw [List.mem_filterMap] at hr1
        obtain ⟨p, hp, hpr⟩ := hr1
        cases hsv : simVal p.2 with
        | none => rw [hsv] at hpr; cases hpr
        | some g =>
          rw [hsv] at hpr
          simp only [Option.map_some', Option.some.injEq] at hpr
          have hre : r.1 = e.1 := of_decide_eq_true hr2
          have hg : g = e.1 := by
            have h9 := congrArg Prod.fst hpr
            simp only at h9
            rw [h9]; exact hre
          have hp1 : p.1 = i := by
            have h9 := congrArg Prod.snd hpr
            simp only at h9
            rw [h9]; exact hri
          rw [← Prod.mk.eta (p := p), List.mk_mem_enum_iff_get?] at hp
          refine ⟨p.2, ?_, ?_⟩
          · rw [← hp1]; exact hp
          · rw [hsv, hg]
      · rintro ⟨q, hq, hsv⟩
        rw [List.mem_map]
        refine ⟨(e.1, i), ?_, rfl⟩
        rw [List.mem_filter]
        refine ⟨?_, by simp⟩
        rw [List.mem_filterMap]
        refine ⟨(i, q), ?_, ?_⟩
        · rw [List.mk_mem_enum_iff_get?]
          exact hq
        · rw [show simVal (i, q).2 = some e.1 from hsv]
          rfl

end SimilarQuestions

namespace SimilarQuestions

/-! ### Stage-1 counting and claim C8 -/

theorem fsgValid_length (qwi : List (Nat × Question)) :
    (fsgValid qwi).length = qwi.countP fun p => !(getText p.2).trim.isEmpty := by
  unfold fsgValid
  rw [List.zip_map' Prod.fst (fun p => getText p.2) qwi,
    ← List.countP_eq_length_filter]
  have h1 : ∀ (X : List (Nat × String)),
      (X.enum.countP fun p => !p.2.2.trim.isEmpty) =
        X.countP fun x => !x.2.trim.isEmpty := by
    intro X
    have h2 : X.countP (fun x => !x.2.trim.isEmpty) =
        (X.enum.map Prod.snd).countP fun x => !x.2.trim.isEmpty := by
      rw [List.enum_map_snd]
    rw [h2, List.countP_map]
    rfl
  rw [h1, List.countP_map]
  rfl

theorem stage1_valid_length (qs : List Question) :
    (fsgValid ((qs.enum).filter fun p => p.2.success && p.2.data.isSome)).length =
      qs.countP eligibleRecord := by
  rw [fsgValid_length, List.countP_filter]
  have h2 : (qs.enum.countP fun p =>
      (!(getText p.2).trim.isEmpty) && (p.2.success && p.2.data.isSome)) =
      qs.countP fun q =>
        (!(getText q).trim.isEmpty) && (q.success && q.data.isSome) := by
    have h3 : qs.countP (fun q =>
        (!(getText q).trim.isEmpty) && (q.success && q.data.isSome)) =
        (qs.enum.map Prod.snd).countP fun q =>
          (!(getText q).trim.isEmpty) && (q.success && q.data.isSome) := by
      rw [List.enum_map_snd]
    rw [h3, List.countP_map]
    rfl
  rw [h2]
  apply List.countP_congr
  intro q _
  unfold eligibleRecord
  rw [Bool.and_comm]

/-- **C8.**  With fewer than 2 eligible records (truthy success and data and a
non-empty stripped text), Stage 1 produces the empty assignment: no index is
mapped to a label, and every record ends with its similarity field written as
the absent value. -/
theorem c8_insufficient_data (cluster1 : List String → List Int)
    (score : String → String → ℚ) (useCE : Bool) (t : ℚ) (qs : List Question)
    (h : qs.countP eligibleRecord < 2) :
    (∀ i, stage1Assignment cluster1 score useCE t qs i = none) ∧
    ∀ q ∈ runStage1 cluster1 score useCE t qs, q.simField = some none := by
  have hmap : ∀ i, stage1Assignment cluster1 score useCE t qs i = none := by
    intro i
    unfold stage1Assignment findSimilarityGroups
    by_cases he : ((qs.enum).filter fun p => p.2.success && p.2.data.isSome).isEmpty = true
    · rw [if_pos he]
    · rw [if_neg he, if_pos (by rw [stage1_valid_length]; omega)]
  refine ⟨hmap, ?_⟩
  intro q hq
  unfold runStage1 at hq
  rw [List.mem_map] at hq
  obtain ⟨p, hp, hpq⟩ := hq
  rw [← hpq]
  show some (stage1Assignment cluster1 score useCE t qs p.1) = some none
  rw [hmap p.1]

theorem c8_insufficient_data_witness :
    ([⟨false, none, none⟩] : List Question).countP eligibleRecord < 2 ∧
      ((∀ i, stage1Assignment (fun ts => ts.map fun _ => 0) (fun _ _ => 1)
          true 0 [⟨false, none, none⟩] i = none) ∧
        ∀ q ∈ runStage1 (fun ts => ts.map fun _ => 0) (fun _ _ => 1) true 0
            [⟨false, none, none⟩], q.simField = some none) :=
  ⟨by decide, c8_insufficient_data (fun ts => ts.map fun _ => 0) (fun _ _ => 1)
    true 0 [⟨false, none, none⟩] (by decide)⟩

end SimilarQuestions

namespace SimilarQuestions

/-! ### Support of the Stage-1 assignment -/

theorem updateFn_fold_support {γ : Type} (c : List γ) (key : γ → Nat)
    (lab : GroupLabel) :
    ∀ (f : Nat → Option GroupLabel) (S : List Nat),
      (∀ x ∈ c, key x ∈ S) → (∀ idx, f idx ≠ none → idx ∈ S) →
      ∀ idx, (c.foldl (fun g x => updateFn g (key x) lab) f) idx ≠ none →
        idx ∈ S := by
  induction c with
  | nil =>
    intro f S _ hf
    exact hf
  | cons x c ih =>
    intro f S hk hf
    rw [List.foldl_cons]
    apply ih _ S (fun y hy => hk y (List.mem_cons_of_mem _ hy))
    intro idx hne
    unfold updateFn at hne
    by_cases hxe : idx = key x
    · rw [hxe]
      exact hk x (List.mem_cons_self _ _)
    · rw [if_neg hxe] at hne
      exact hf idx hne

theorem ce_comps_fold_support {m : Nat} (orig members : List Nat)
    (hcl : ∀ p ∈ members, p < orig.length) (hm : m = members.length)
    (comps : List (List (Fin m))) :
    ∀ acc : Nat × (Nat → Option GroupLabel),
      (∀ idx, acc.2 idx ≠ none → idx ∈ orig) →
      ∀ idx, ((comps.foldl (fun acc2 c =>
          (acc2.1 + 1,
           c.foldl (fun f loc =>
             updateFn f (orig.getD (members.getD (loc : Nat) 0) 0)
               (.simGroup (acc2.1 + 1))) acc2.2)) acc).2) idx ≠ none →
        idx ∈ orig := by
  induction comps with
  | nil =>
    intro acc hacc
    exact hacc
  | cons c comps ih =>
    intro acc hacc
    rw [List.foldl_cons]
    apply ih
    intro idx hne
    apply updateFn_fold_support _
      (fun loc => orig.getD (members.getD loc 0) 0)
      (GroupLabel.simGroup (acc.1 + 1)) acc.2 orig ?_ hacc idx hne
    intro x hx
    have hex : ∃ a : Fin m, a ∈ c ∧ x = (a : Nat) := by
      simpa using hx
    obtain ⟨a, _, hax⟩ := hex
    show orig.getD (members.getD x 0) 0 ∈ orig
    have hlt : x < members.length := by
      rw [hax, ← hm]
      exact a.isLt
    have hmem : members.getD x 0 ∈ members := by
      rw [List.getD_eq_getElem _ _ hlt]
      exact List.getElem_mem hlt
    have hlt2 := hcl _ hmem
    rw [List.getD_eq_getElem _ _ hlt2]
    exact List.getElem_mem hlt2

theorem ce_fold_support (score : String → String → ℚ) (t : ℚ)
    (orig : List Nat) (vtexts : List String) :
    ∀ (L : List (Int × List Nat)),
      (∀ cl ∈ L, ∀ p ∈ cl.2, p < orig.length) →
      ∀ acc : Nat × (Nat → Option GroupLabel),
        (∀ idx, acc.2 idx ≠ none → idx ∈ orig) →
        ∀ idx, ((L.foldl (ceStep score t orig vtexts) acc).2) idx ≠ none →
          idx ∈ orig := by
  intro L
  induction L with
  | nil =>
    intro _ acc hacc
    exact hacc
  | cons cl L ih =>
    intro hL acc hacc
    rw [List.foldl_cons]
    apply ih (fun cl' h => hL cl' (List.mem_cons_of_mem _ h))
    unfold ceStep
    by_cases h2 : cl.2.length < 2
    · rw [if_pos h2]
      exact hacc
    · rw [if_neg h2]
      exact ce_comps_fold_support orig cl.2
        (hL cl (List.mem_cons_self _ _))
        (by rw [List.length_map]) _ acc hacc

theorem nce_fold_support (orig : List Nat) :
    ∀ (L : List (Int × List Nat)),
      (∀ cl ∈ L, ∀ p ∈ cl.2, p < orig.length) →
      ∀ acc : Nat × (Nat → Option GroupLabel),
        (∀ idx, acc.2 idx ≠ none → idx ∈ orig) →
        ∀ idx, ((L.foldl (nceStep orig) acc).2) idx ≠ none → idx ∈ orig := by
  intro L
  induction L with
  | nil =>
    intro _ acc hacc
    exact hacc
  | cons cl L ih =>
    intro hL acc hacc
    rw [List.foldl_cons]
    apply ih (fun cl' h => hL cl' (List.mem_cons_of_mem _ h))
    unfold nceStep
    by_cases h2 : 2 ≤ cl.2.length
    · rw [if_pos h2]
      intro idx hne
      apply updateFn_fold_support cl.2 (fun p => orig.getD p 0)
        (GroupLabel.simGroup (acc.1 + 1)) acc.2 orig ?_ hacc idx hne
      intro p hp
      show orig.getD p 0 ∈ orig
      have hlt := hL cl (List.mem_cons_self _ _) p hp
      rw [List.getD_eq_getElem _ _ hlt]
      exact List.getElem_mem hlt
    · rw [if_neg h2]
      exact hacc

theorem findSimilarityGroups_support (cluster1 : List String → List Int)
    (score : String → String → ℚ) (useCE : Bool) (t : ℚ)
    (qwi : List (Nat × Question))
    (hlen1 : (cluster1 ((fsgTexts qwi).map prepareE5)).length =
      ((fsgTexts qwi).map prepareE5).length) :
    ∀ idx, findSimilarityGroups cluster1 score useCE t qwi idx ≠ none →
      idx ∈ fsgOrig qwi := by
  intro idx hne
  unfold findSimilarityGroups at hne
  by_cases he : qwi.isEmpty = true
  · rw [if_pos he] at hne
    exact absurd rfl hne
  · rw [if_neg he] at hne
    by_cases hv : (fsgValid qwi).length < 2
    · rw [if_pos hv] at hne
      exact absurd rfl hne
    · rw [if_neg hv] at hne
      have hpos : ∀ cl ∈ groupByLabel (cluster1 ((fsgTexts qwi).map prepareE5)),
          ∀ p ∈ cl.2, p < (fsgOrig qwi).length := by
        intro cl hcl p hp
        have hspec := (groupByLabel_spec _).2.1 cl hcl
        obtain ⟨hget, _⟩ := (hspec.2.2 p).mp hp
        have hlt : p < (cluster1 ((fsgTexts qwi).map prepareE5)).length :=
          (List.get?_eq_some.mp hget).choose
        rw [hlen1, List.length_map] at hlt
        unfold fsgTexts at hlt
        unfold fsgOrig
        rw [List.length_map]
        rw [List.length_map] at hlt
        exact hlt
      by_cases hce : useCE = true
      · rw [if_pos hce] at hne
        exact ce_fold_support score t _ _ _ hpos _
          (fun _ h => absurd rfl h) idx hne
      · rw [if_neg hce] at hne
        exact nce_fold_support _ _ hpos _ (fun _ h => absurd rfl h) idx hne

theorem fsgOrig_subset (qwi : List (Nat × Question)) :
    ∀ i ∈ fsgOrig qwi, i ∈ qwi.map Prod.fst := by
  intro i hi
  unfold fsgOrig fsgValid at hi
  rw [List.mem_map] at hi
  obtain ⟨p, hp, hpi⟩ := hi
  rw [List.mem_filter] at hp
  have hp2 := hp.1
  rw [← Prod.mk.eta (p := p), List.mk_mem_enum_iff_get?] at hp2
  have hmem := List.get?_mem hp2
  rw [List.zip_map' Prod.fst (fun a => getText a.2) qwi, List.mem_map] at hmem
  obtain ⟨a, ha, hap⟩ := hmem
  have ha1 : a.1 = p.2.1 := congrArg Prod.fst hap
  rw [← hpi, ← ha1]
  exact List.mem_map_of_mem Prod.fst ha

end SimilarQuestions

namespace SimilarQuestions

/-! ### Stage 1: per-index view of the written list, and frame lemmas -/

theorem runStage1_get? (cluster1 : List String → List Int)
    (score : String → String → ℚ) (useCE : Bool) (t : ℚ) (qs : List Question)
    (i : Nat) :
    (runStage1 cluster1 score useCE t qs).get? i =
      (qs.get? i).map fun q =>
        { q with
            simField := some (stage1Assignment cluster1 score useCE t qs i) } := by
  have h1 : runStage1 cluster1 score useCE t qs =
      (qs.enum).map fun p =>
        { p.2 with
            simField := some (stage1Assignment cluster1 score useCE t qs p.1) } := rfl
  rw [h1, List.get?_map, List.enum_get?]
  cases qs.get? i <;> rfl

theorem fsgValid_map_relabel (f : Question → Option (Option GroupLabel))
    (qwi : List (Nat × Question)) :
    fsgValid (qwi.map (Prod.map id fun q => { q with simField := f q })) =
      fsgValid qwi := by
  unfold fsgValid
  have h1 : (qwi.map (Prod.map id fun q => { q with simField := f q })).map
      Prod.fst = qwi.map Prod.fst := by
    rw [List.map_map]
    apply List.map_congr_left
    intro a _
    rfl
  have h2 : (qwi.map (Prod.map id fun q => { q with simField := f q })).map
      (fun p => getText p.2) = qwi.map fun p => getText p.2 := by
    rw [List.map_map]
    apply List.map_congr_left
    intro a _
    rfl
  rw [h1, h2]

theorem findSimilarityGroups_map_relabel (cluster1 : List String → List Int)
    (score : String → String → ℚ) (useCE : Bool) (t : ℚ)
    (f : Question → Option (Option GroupLabel)) (qwi : List (Nat × Question)) :
    findSimilarityGroups cluster1 score useCE t
        (qwi.map (Prod.map id fun q => { q with simField := f q })) =
      findSimilarityGroups cluster1 score useCE t qwi := by
  have hv := fsgValid_map_relabel f qwi
  have ho : fsgOrig (qwi.map (Prod.map id fun q => { q with simField := f q })) =
      fsgOrig qwi := by
    unfold fsgOrig
    rw [hv]
  have ht : fsgTexts (qwi.map (Prod.map id fun q => { q with simField := f q })) =
      fsgTexts qwi := by
    unfold fsgTexts
    rw [hv]
  have he : (qwi.map (Prod.map id fun q => { q with simField := f q })).isEmpty =
      qwi.isEmpty := by
    cases qwi <;> rfl
  unfold findSimilarityGroups
  rw [hv, ho, ht, he]

theorem stage1Assignment_relabel (cluster1 : List String → List Int)
    (score : String → String → ℚ) (useCE : Bool) (t : ℚ)
    (f : Question → Option (Option GroupLabel)) (qs : List Question) :
    stage1Assignment cluster1 score useCE t
        (qs.map fun q => { q with simField := f q }) =
      stage1Assignment cluster1 score useCE t qs := by
  unfold stage1Assignment
  have hq : (((qs.map fun q => { q with simField := f q }).enum).filter
        fun p => p.2.success && p.2.data.isSome) =
      ((qs.enum.filter fun p => p.2.success && p.2.data.isSome).map
        (Prod.map id fun q => { q with simField := f q })) := by
    rw [List.enum_map, List.map_filter]
    congr 1
  rw [hq, findSimilarityGroups_map_relabel]

theorem runStage1_relabel (cluster1 : List String → List Int)
    (score : String → String → ℚ) (useCE : Bool) (t : ℚ)
    (f : Question → Option (Option GroupLabel)) (qs : List Question) :
    runStage1 cluster1 score useCE t (qs.map fun q => { q with simField := f q }) =
      runStage1 cluster1 score useCE t qs := by
  apply List.ext_get?
  intro i
  rw [runStage1_get?, runStage1_get?, stage1Assignment_relabel, List.get?_map]
  cases qs.get? i <;> rfl

end SimilarQuestions

namespace SimilarQuestions

/-- **C9.**  After Stage 1 every record carries the similarity field
explicitly: position `i` of the output is record `i` of the input with
`simField` overwritten by `some` of the computed assignment (so the field is
present even when the assignment is the absent value `none`), and a record
whose `success` flag or `data` payload is falsy is never placed in a group:
its assignment is `none`, hence its field is written as the explicit absent
value. -/
theorem c9_field_written_explicitly (cluster1 : List String → List Int)
    (score : String → String → ℚ) (useCE : Bool) (t : ℚ) (qs : List Question)
    (hlen1 : ∀ ts : List String, (cluster1 ts).length = ts.length)
    (i : Nat) (q : Question) (hq : qs.get? i = some q) :
    (runStage1 cluster1 score useCE t qs).get? i =
      some { q with
        simField := some (stage1Assignment cluster1 score useCE t qs i) } ∧
    ((q.success && q.data.isSome) = false →
      stage1Assignment cluster1 score useCE t qs i = none) := by
  have h1 := runStage1_get? cluster1 score useCE t qs i
  rw [hq] at h1
  refine ⟨h1, ?_⟩
  intro hinel
  by_contra hne
  have hsup := findSimilarityGroups_support cluster1 score useCE t
    ((qs.enum).filter fun p => p.2.success && p.2.data.isSome) (hlen1 _) i hne
  have hfst := fsgOrig_subset _ i hsup
  rw [List.mem_map] at hfst
  obtain ⟨p, hp, hpi⟩ := hfst
  rw [List.mem_filter] at hp
  have hpe := hp.1
  rw [← Prod.mk.eta (p := p), List.mk_mem_enum_iff_get?] at hpe
  rw [hpi] at hpe
  rw [hq] at hpe
  injection hpe with hq2
  have hpt : (p.2.success && p.2.data.isSome) = true := hp.2
  rw [hq2, hpt] at hinel
  cases hinel

theorem c9_field_written_explicitly_witness :
    (runStage1 (fun ts => ts.map fun _ => 0) (fun _ _ => 1) true 0
        [⟨false, none, none⟩]).get? 0 =
      some { Question.mk false none none with
        simField := some (stage1Assignment (fun ts => ts.map fun _ => 0)
          (fun _ _ => 1) true 0 [⟨false, none, none⟩] 0) } ∧
    (((Question.mk false none none).success &&
        (Question.mk false none none).data.isSome) = false →
      stage1Assignment (fun ts => ts.map fun _ => 0) (fun _ _ => 1) true 0
        [⟨false, none, none⟩] 0 = none) :=
  c9_field_written_explicitly (fun ts => ts.map fun _ => 0) (fun _ _ => 1)
    true 0 [⟨false, none, none⟩] (fun ts => by rw [List.length_map]) 0
    ⟨false, none, none⟩ rfl

/-- **C5.**  Stage 1 fully recomputes all assignments: each output record is
its input record with `simField` overwritten by exactly one value (the `some`
of this run's assignment, so at most one label), a record not placed in a
verified group by this run has its label written as the absent value, and the
whole output is unchanged if every input record's prior label is first
rewritten arbitrarily (in particular cleared): the stage does not read the
prior labels at all. -/
theorem c5_stage1_full_recompute (cluster1 : List String → List Int)
    (score : String → String → ℚ) (useCE : Bool) (t : ℚ)
    (f : Question → Option (Option GroupLabel)) (qs : List Question)
    (i : Nat) (q : Question) (hq : qs.get? i = some q) :
    (runStage1 cluster1 score useCE t qs).get? i =
      some { q with
        simField := some (stage1Assignment cluster1 score useCE t qs i) } ∧
    (stage1Assignment cluster1 score useCE t qs i = none →
      (runStage1 cluster1 score useCE t qs).get? i =
        some { q with simField := some none }) ∧
    runStage1 cluster1 score useCE t
        (qs.map fun q' => { q' with simField := f q' }) =
      runStage1 cluster1 score useCE t qs := by
  refine ⟨?_, ?_, runStage1_relabel cluster1 score useCE t f qs⟩
  · rw [runStage1_get? cluster1 score useCE t qs i, hq]
    rfl
  · intro hnone
    rw [runStage1_get? cluster1 score useCE t qs i, hq, hnone]
    rfl

theorem c5_stage1_full_recompute_witness :
    (runStage1 (fun ts => ts.map fun _ => 0) (fun _ _ => 1) true 0
        [⟨false, none, none⟩]).get? 0 =
      some { Question.mk false none none with
        simField := some (stage1Assignment (fun ts => ts.map fun _ => 0)
          (fun _ _ => 1) true 0 [⟨false, none, none⟩] 0) } ∧
    ((stage1Assignment (fun ts => ts.map fun _ => 0) (fun _ _ => 1) true 0
        [⟨false, none, none⟩] 0 = none) →
      (runStage1 (fun ts => ts.map fun _ => 0) (fun _ _ => 1) true 0
          [⟨false, none, none⟩]).get? 0 =
        some { Question.mk false none none with simField := some none }) ∧
    runStage1 (fun ts => ts.map fun _ => 0) (fun _ _ => 1) true 0
        (([⟨false, none, none⟩] : List Question).map
          fun q' => { q' with simField := none }) =
      runStage1 (fun ts => ts.map fun _ => 0) (fun _ _ => 1) true 0
        [⟨false, none, none⟩] :=
  c5_stage1_full_recompute (fun ts => ts.map fun _ => 0) (fun _ _ => 1) true 0
    (fun _ => none) [⟨false, none, none⟩] 0 ⟨false, none, none⟩ rfl

end SimilarQuestions

namespace SimilarQuestions

/-! ### Stage 2: generic fold invariants and write locality -/

theorem foldl_preserve {α β : Type} (P : β → Prop) (f : β → α → β) :
    ∀ (L : List α) (b : β), (∀ b' x, x ∈ L → P b' → P (f b' x)) → P b →
      P (L.foldl f b) := by
  intro L
  induction L with
  | nil =>
    intro b _ hb
    exact hb
  | cons x L ih =>
    intro b hstep hb
    rw [List.foldl_cons]
    exact ih _ (fun b' y hy => hstep b' y (List.mem_cons_of_mem _ hy))
      (hstep b x (List.mem_cons_self _ _) hb)

theorem foldl_count {α β : Type} (f : β → α → β) (c : β → Nat)
    (h : ∀ b x, c (f b x) = c b + 1) :
    ∀ (L : List α) (b : β), c (L.foldl f b) = c b + L.length := by
  intro L
  induction L with
  | nil =>
    intro b
    rfl
  | cons x L ih =>
    intro b
    rw [List.foldl_cons, ih, h]
    rw [List.length_cons]
    omega

theorem setSim_get?_ne (qs : List Question) (j : Nat) (v : Option GroupLabel)
    (i : Nat) (h : j ≠ i) : (setSim qs j v).get? i = qs.get? i := by
  unfold setSim
  cases hq : qs.get? j with
  | none => rfl
  | some q => exact List.get?_set_ne _ _ h

theorem dinsert_keys {β : Type} (d : List (Nat × β)) (k : Nat) (v : β)
    (S : List Nat) (hd : ∀ p ∈ d, p.1 ∈ S) (hk : k ∈ S) :
    ∀ p ∈ dinsert d k v, p.1 ∈ S := by
  intro p hp
  unfold dinsert at hp
  by_cases h : (d.any fun p => decide (p.1 = k)) = true
  · rw [if_pos h] at hp
    rw [List.mem_map] at hp
    obtain ⟨a, ha, hap⟩ := hp
    by_cases hak : a.1 = k
    · rw [if_pos hak] at hap
      rw [← hap]
      exact hk
    · rw [if_neg hak] at hap
      rw [← hap]
      exact hd a ha
  · rw [if_neg h] at hp
    rw [List.mem_append] at hp
    cases hp with
    | inl h1 => exact hd _ h1
    | inr h2 =>
      rw [List.mem_singleton] at h2
      rw [h2]
      exact hk

theorem dinsert_fold_keys {α β : Type} (key : α → Nat) (val : α → β)
    (S : List Nat) :
    ∀ (L : List α), (∀ x ∈ L, key x ∈ S) →
      ∀ d : List (Nat × β), (∀ p ∈ d, p.1 ∈ S) →
      ∀ p ∈ L.foldl (fun d x => dinsert d (key x) (val x)) d, p.1 ∈ S := by
  intro L
  induction L with
  | nil =>
    intro _ d hd
    exact hd
  | cons x L ih =>
    intro hL d hd
    rw [List.foldl_cons]
    exact ih (fun y hy => hL y (List.mem_cons_of_mem _ hy)) _
      (dinsert_keys d (key x) (val x) S hd (hL x (List.mem_cons_self _ _)))

theorem bva_comps_keys {m : Nat} (indices members : List Nat)
    (hcl : ∀ p ∈ members, p < indices.length) (hm : m = members.length)
    (comps : List (List (Fin m))) :
    ∀ acc : Nat × List (Nat × Nat),
      (∀ p ∈ acc.2, p.1 ∈ indices) →
      ∀ p ∈ ((comps.foldl (fun acc2 c =>
          (acc2.1 + 1,
           c.foldl (fun d loc =>
             dinsert d (indices.getD (members.getD (loc : Nat) 0) 0)
               (acc2.1 + 1)) acc2.2)) acc).2),
        p.1 ∈ indices := by
  induction comps with
  | nil =>
    intro acc hacc
    exact hacc
  | cons c comps ih =>
    intro acc hacc
    rw [List.foldl_cons]
    apply ih
    intro p hp
    refine dinsert_fold_keys (fun loc => indices.getD (members.getD loc 0) 0)
      (fun _ => acc.1 + 1) indices _ ?_ acc.2 hacc p hp
    intro x hx
    have hex : ∃ a : Fin m, a ∈ c ∧ x = (a : Nat) := by
      simpa using hx
    obtain ⟨a, _, hax⟩ := hex
    show indices.getD (members.getD x 0) 0 ∈ indices
    have hlt : x < members.length := by
      rw [hax, ← hm]
      exact a.isLt
    have hmem : members.getD x 0 ∈ members := by
      rw [List.getD_eq_getElem _ _ hlt]
      exact List.getElem_mem hlt
    have hlt2 := hcl _ hmem
    rw [List.getD_eq_getElem _ _ hlt2]
    exact List.getElem_mem hlt2

theorem bva_keys (score : String → String → ℚ) (t : ℚ) (indices : List Nat)
    (texts : List String) (labels : List Int)
    (hll : labels.length ≤ indices.length) :
    ∀ p ∈ boundedVerifyAssignments score t indices texts labels,
      p.1 ∈ indices := by
  unfold boundedVerifyAssignments
  have hpos : ∀ cl ∈ groupByLabel labels, ∀ p ∈ cl.2, p < indices.length := by
    intro cl hcl p hp
    have hspec := (groupByLabel_spec labels).2.1 cl hcl
    obtain ⟨hget, _⟩ := (hspec.2.2 p).mp hp
    have hlt : p < labels.length := (List.get?_eq_some.mp hget).choose
    omega
  suffices h : ∀ (L : List (Int × List Nat)),
      (∀ cl ∈ L, ∀ p ∈ cl.2, p < indices.length) →
      ∀ acc : Nat × List (Nat × Nat), (∀ p ∈ acc.2, p.1 ∈ indices) →
      ∀ p ∈ ((L.foldl (fun acc cl =>
          if cl.2.length < 2 then acc else
          (boundedClusterComponents score t
              (cl.2.map fun p => texts.getD p "")).foldl
            (fun acc2 c =>
              (acc2.1 + 1,
               c.foldl (fun d loc =>
                 dinsert d (indices.getD (cl.2.getD (loc : Nat) 0) 0)
                   (acc2.1 + 1)) acc2.2)) acc) acc).2), p.1 ∈ indices by
    exact h (groupByLabel labels) hpos ((0 : Nat), [])
      (by intro p hp; cases hp)
  intro L
  induction L with
  | nil =>
    intro _ acc hacc
    exact hacc
  | cons cl L ih =>
    intro hL acc hacc
    rw [List.foldl_cons]
    apply ih (fun cl' h' => hL cl' (List.mem_cons_of_mem _ h'))
    by_cases h2 : cl.2.length < 2
    · rw [if_pos h2]
      exact hacc
    · rw [if_neg h2]
      exact bva_comps_keys indices cl.2 (hL cl (List.mem_cons_self _ _))
        (by rw [List.length_map]) _ acc hacc

end SimilarQuestions

namespace SimilarQuestions

theorem tswce_keys (hcut : List (List ℚ) → ℚ → List Nat)
    (score : String → String → ℚ) (indices : List Nat) (texts : List String)
    (t : ℚ)
    (hfl : (fallbackLabels hcut score indices texts t).length = indices.length)
    (m : List (Nat × Nat))
    (hm : trySplitWithCrossEncoder hcut score indices texts t = some m) :
    ∀ p ∈ m, p.1 ∈ indices := by
  unfold trySplitWithCrossEncoder at hm
  by_cases h1 : indices.length < 4
  · rw [if_pos h1] at hm
    exact Option.noConfusion hm
  · rw [if_neg h1] at hm
    by_cases h2 : (fallbackLabels hcut score indices texts t).dedup.length ≤ 1
    · rw [if_pos h2] at hm
      exact Option.noConfusion hm
    · rw [if_neg h2] at hm
      set A := ((fallbackLabels hcut score indices texts t).enum).foldl
        (fun d p => dinsert d (indices.getD p.1 0) p.2)
        ([] : List (Nat × Nat)) with hA
      by_cases h3 : ((fallbackLabels hcut score indices texts t).dedup.filter
          fun l => 2 ≤ (A.map Prod.snd).count l).length ≤ 1
      · rw [if_pos h3] at hm
        exact Option.noConfusion hm
      · rw [if_neg h3] at hm
        by_cases h4 : 1 < ((A.filter fun p =>
            decide (p.2 ∈ (fallbackLabels hcut score indices texts t).dedup.filter
              fun l => 2 ≤ (A.map Prod.snd).count l)).map Prod.snd).dedup.length
        · rw [if_pos h4] at hm
          injection hm with hm2
          intro p hp
          rw [← hm2] at hp
          have hpA : p ∈ A := List.mem_of_mem_filter hp
          rw [hA] at hpA
          refine dinsert_fold_keys (fun p => indices.getD p.1 0) Prod.snd
            indices ((fallbackLabels hcut score indices texts t).enum) ?_
            [] (by intro r hr; cases hr) p hpA
          intro x hx
          show indices.getD x.1 0 ∈ indices
          rw [← Prod.mk.eta (p := x), List.mk_mem_enum_iff_get?] at hx
          have hlt : x.1 < (fallbackLabels hcut score indices texts t).length :=
            (List.get?_eq_some.mp hx).choose
          rw [hfl] at hlt
          rw [List.getD_eq_getElem _ _ hlt]
          exact List.getElem_mem hlt
        · rw [if_neg h4] at hm
          exact Option.noConfusion hm

theorem trySplitGroup_keys (cluster2 : List String → List Int)
    (hcut : List (List ℚ) → ℚ → List Nat) (score : String → String → ℚ)
    (t : ℚ) (qs : List Question) (indices : List Nat)
    (hlen2 : ∀ ts : List String, (cluster2 ts).length = ts.length)
    (hh : ∀ (d : List (List ℚ)) (c : ℚ), (hcut d c).length = d.length)
    (m : List (Nat × Nat))
    (hm : trySplitGroup cluster2 hcut score t qs indices = some m) :
    ∀ p ∈ m, p.1 ∈ indices := by
  unfold trySplitGroup at hm
  by_cases h1 : indices.length < 4
  · rw [if_pos h1] at hm
    exact Option.noConfusion hm
  · rw [if_neg h1] at hm
    by_cases h2 : ((cluster2 ((groupTexts qs indices).map prepareE5)).dedup.filter
        fun l => decide (l ≠ -1)).length ≤ 1
    · rw [if_pos h2] at hm
      refine tswce_keys hcut score indices (groupTexts qs indices) t ?_ m hm
      unfold fallbackLabels
      rw [hh]
      unfold distMatrix
      rw [List.length_map, List.length_range]
    · rw [if_neg h2] at hm
      by_cases h3 : 1 < ((boundedVerifyAssignments score t indices
          (groupTexts qs indices)
          (cluster2 ((groupTexts qs indices).map prepareE5))).map
          Prod.snd).dedup.length
      · rw [if_pos h3] at hm
        injection hm with hm2
        intro p hp
        rw [← hm2] at hp
        refine bva_keys score t indices (groupTexts qs indices) _ ?_ p hp
        rw [hlen2, List.length_map]
        unfold groupTexts
        rw [List.length_map]
      · rw [if_neg h3] at hm
        exact Option.noConfusion hm

theorem nodup_length_le_countP (qs : List Question) (pred : Question → Bool)
    (xs : List Nat) (hnd : xs.Nodup)
    (hx : ∀ i ∈ xs, ∃ q, qs.get? i = some q ∧ pred q = true) :
    xs.length ≤ qs.countP pred := by
  have he : ((qs.enum.filter fun p => pred p.2).length) = qs.countP pred := by
    rw [← List.countP_eq_length_filter]
    show qs.enum.countP (pred ∘ Prod.snd) = qs.countP pred
    rw [← List.countP_map, List.enum_map_snd]
  rw [← he]
  have hsub : ∀ i ∈ xs, i ∈ (qs.enum.filter fun p => pred p.2).map Prod.fst := by
    intro i hi
    obtain ⟨q, hq, hpq⟩ := hx i hi
    rw [List.mem_map]
    refine ⟨(i, q), ?_, rfl⟩
    rw [List.mem_filter]
    constructor
    · rw [List.mk_mem_enum_iff_get?]
      exact hq
    · exact hpq
  calc xs.length = xs.toFinset.card := (List.toFinset_card_of_nodup hnd).symm
    _ ≤ ((qs.enum.filter fun p => pred p.2).map Prod.fst).toFinset.card := by
        apply Finset.card_le_card
        intro a ha
        rw [List.mem_toFinset] at ha ⊢
        exact hsub a ha
    _ ≤ ((qs.enum.filter fun p => pred p.2).map Prod.fst).length :=
        List.toFinset_card_le _
    _ = (qs.enum.filter fun p => pred p.2).length := List.length_map _ _

end SimilarQuestions

namespace SimilarQuestions

theorem setSimIf_get? (m : List (Nat × Nat)) (a : List Question) (idx i : Nat)
    (hne : idx ≠ i) :
    (if m.any fun p => decide (p.1 = idx) then a
     else setSim a idx none).get? i = a.get? i := by
  by_cases hany : (m.any fun p => decide (p.1 = idx)) = true
  · rw [if_pos hany]
  · rw [if_neg hany]
    exact setSim_get?_ne a idx none i hne

theorem fold_setSim1_get? (g1 : GroupLabel) (m : List (Nat × Nat)) (i : Nat)
    (hkeys : ∀ p ∈ m, p.1 ≠ i) :
    ∀ a : List Question,
      (m.foldl (fun a p => setSim a p.1 (some (.sub g1 p.2))) a).get? i =
        a.get? i := by
  induction m with
  | nil =>
    intro a
    rfl
  | cons p m ih =>
    intro a
    rw [List.foldl_cons,
      ih (fun p' h' => hkeys p' (List.mem_cons_of_mem _ h')),
      setSim_get?_ne a p.1 _ i (hkeys p (List.mem_cons_self _ _))]

theorem fold_setSim2_get? (m : List (Nat × Nat)) (idxs : List Nat) (i : Nat)
    (hks : ∀ x ∈ idxs, x ≠ i) :
    ∀ a : List Question,
      (idxs.foldl (fun a idx =>
        if m.any fun p => decide (p.1 = idx) then a
        else setSim a idx none) a).get? i = a.get? i := by
  induction idxs with
  | nil =>
    intro a
    rfl
  | cons x idxs ih =>
    intro a
    rw [List.foldl_cons,
      ih (fun y hy => hks y (List.mem_cons_of_mem _ hy)),
      setSimIf_get? m a x i (hks x (List.mem_cons_self _ _))]

theorem runStage2_outside_untouched (cluster2 : List String → List Int)
    (hcut : List (List ℚ) → ℚ → List Nat) (score : String → String → ℚ)
    (refineThr : Nat) (t : ℚ) (qs : List Question)
    (hlen2 : ∀ ts : List String, (cluster2 ts).length = ts.length)
    (hh : ∀ (d : List (List ℚ)) (c : ℚ), (hcut d c).length = d.length)
    (i : Nat) (hi : ∀ g ∈ findLargeGroups qs refineThr, i ∉ g.2) :
    (runStage2 cluster2 hcut score refineThr t qs).1.get? i = qs.get? i := by
  unfold runStage2
  apply foldl_preserve
    (fun st : List Question × Nat × Nat => st.1.get? i = qs.get? i)
  · intro st g hg hst
    beta_reduce
    split
    next m heq =>
      have hkeys := trySplitGroup_keys cluster2 hcut score t st.1 g.2
        hlen2 hh m heq
      split_ifs with hc
      · show (g.2.foldl (fun a idx =>
            if m.any fun p => decide (p.1 = idx) then a
            else setSim a idx none)
          (m.foldl (fun a p => setSim a p.1 (some (.sub g.1 p.2))) st.1)).get? i
          = qs.get? i
        rw [fold_setSim2_get? m g.2 i (fun x hx he => hi g hg (he ▸ hx)),
          fold_setSim1_get? g.1 m i (fun p hp he => hi g hg (he ▸ hkeys p hp))]
        exact hst
      · exact hst
    next heq =>
      exact hst
  · rfl

theorem runStage2_counts (cluster2 : List String → List Int)
    (hcut : List (List ℚ) → ℚ → List Nat) (score : String → String → ℚ)
    (refineThr : Nat) (t : ℚ) (qs : List Question) :
    (runStage2 cluster2 hcut score refineThr t qs).2.1 +
        (runStage2 cluster2 hcut score refineThr t qs).2.2 =
      (findLargeGroups qs refineThr).length := by
  unfold runStage2
  have hcnt := foldl_count
    (fun (st : List Question × Nat × Nat) (g : GroupLabel × List Nat) =>
      match trySplitGroup cluster2 hcut score t st.1 g.2 with
      | some m =>
        if m ≠ [] ∧ 1 < (m.map Prod.snd).dedup.length then
          let qs1 := m.foldl (fun a p => setSim a p.1 (some (.sub g.1 p.2))) st.1
          let qs2 := g.2.foldl (fun a idx =>
            if m.any fun p => decide (p.1 = idx) then a
            else setSim a idx none) qs1
          (qs2, st.2.1 + 1, st.2.2)
        else (st.1, st.2.1, st.2.2 + 1)
      | none => (st.1, st.2.1, st.2.2 + 1))
    (fun st => st.2.1 + st.2.2) ?_ (findLargeGroups qs refineThr) (qs, 0, 0)
  · exact hcnt.trans (by
      show 0 + 0 + (findLargeGroups qs refineThr).length =
        (findLargeGroups qs refineThr).length
      omega)
  · intro b x
    beta_reduce
    split
    next m heq =>
      split_ifs with hc
      · show b.2.1 + 1 + b.2.2 = b.2.1 + b.2.2 + 1
        omega
      · show b.2.1 + (b.2.2 + 1) = b.2.1 + b.2.2 + 1
        omega
    next heq =>
      show b.2.1 + (b.2.2 + 1) = b.2.1 + b.2.2 + 1
      omega

end SimilarQuestions

namespace SimilarQuestions

/-- **C4.**  The Stage-2 refinement reports one unit per oversized group: the
returned `groups_split` and `groups_kept` counters always sum to the number of
large groups (so every degradation — skip when there are none, keep, split —
is observable from the returned counts), the no-large-groups skip returns the
records unchanged with both counters zero, and a record whose group has at
most `size_threshold` current members is never rewritten by the stage. -/
theorem c4_stage2_counts_and_threshold (cluster2 : List String → List Int)
    (hcut : List (List ℚ) → ℚ → List Nat) (score : String → String → ℚ)
    (refineThr : Nat) (t : ℚ) (qs : List Question)
    (hlen2 : ∀ ts : List String, (cluster2 ts).length = ts.length)
    (hh : ∀ (d : List (List ℚ)) (c : ℚ), (hcut d c).length = d.length)
    (l : GroupLabel) (i : Nat) (q : Question)
    (hle : labelCount qs l ≤ refineThr) (hq : qs.get? i = some q)
    (hsim : simVal q = some l) :
    (runStage2 cluster2 hcut score refineThr t qs).2.1 +
        (runStage2 cluster2 hcut score refineThr t qs).2.2 =
      (findLargeGroups qs refineThr).length ∧
    (findLargeGroups qs refineThr = [] →
      runStage2 cluster2 hcut score refineThr t qs = (qs, 0, 0)) ∧
    (runStage2 cluster2 hcut score refineThr t qs).1.get? i = qs.get? i := by
  refine ⟨runStage2_counts cluster2 hcut score refineThr t qs, ?_, ?_⟩
  · intro hLG
    unfold runStage2
    rw [hLG]
    rfl
  · apply runStage2_outside_untouched cluster2 hcut score refineThr t qs
      hlen2 hh i
    intro g hg hig
    obtain ⟨hlen, hnd, hmem⟩ := (findLargeGroups_spec qs refineThr).2 g hg
    obtain ⟨q', hq', hsim'⟩ := (hmem i).mp hig
    rw [hq] at hq'
    injection hq' with hqq
    rw [← hqq] at hsim'
    rw [hsim] at hsim'
    injection hsim' with hgl
    have hcount : g.2.length ≤ labelCount qs l := by
      apply nodup_length_le_countP qs (fun q => decide (simVal q = some l))
        g.2 hnd
      intro j hj
      obtain ⟨qj, hqj, hsj⟩ := (hmem j).mp hj
      refine ⟨qj, hqj, ?_⟩
      rw [hsj, hgl]
      exact decide_eq_true rfl
    omega

theorem c4_stage2_counts_and_threshold_witness :
    (runStage2 (fun ts => ts.map fun _ => 0) (fun d _ => d.map fun _ => 0)
        (fun _ _ => 1) 5 0 [⟨true, some "", some (some (.simGroup 1))⟩]).2.1 +
        (runStage2 (fun ts => ts.map fun _ => 0) (fun d _ => d.map fun _ => 0)
          (fun _ _ => 1) 5 0 [⟨true, some "", some (some (.simGroup 1))⟩]).2.2 =
      (findLargeGroups [⟨true, some "", some (some (.simGroup 1))⟩] 5).length ∧
    (findLargeGroups ([⟨true, some "", some (some (.simGroup 1))⟩] :
        List Question) 5 = [] →
      runStage2 (fun ts => ts.map fun _ => 0) (fun d _ => d.map fun _ => 0)
          (fun _ _ => 1) 5 0 [⟨true, some "", some (some (.simGroup 1))⟩] =
        ([⟨true, some "", some (some (.simGroup 1))⟩], 0, 0)) ∧
    (runStage2 (fun ts => ts.map fun _ => 0) (fun d _ => d.map fun _ => 0)
        (fun _ _ => 1) 5 0
        [⟨true, some "", some (some (.simGroup 1))⟩]).1.get? 0 =
      ([⟨true, some "", some (some (.simGroup 1))⟩] :
        List Question).get? 0 :=
  c4_stage2_counts_and_threshold (fun ts => ts.map fun _ => 0)
    (fun d _ => d.map fun _ => 0) (fun _ _ => 1) 5 0
    [⟨true, some "", some (some (.simGroup 1))⟩]
    (by intro ts; rw [List.length_map])
    (by intro d c; rw [List.length_map])
    (.simGroup 1) 0 ⟨true, some "", some (some (.simGroup 1))⟩
    (by decide) rfl rfl

end SimilarQuestions

namespace SimilarQuestions

/-! ### Minimum group size: Stage-1 assignment batches -/

theorem coe_list_eq {m : Nat} : ∀ c : List (Fin m),
    (do let a ← c; pure ((a : Nat)) : List Nat) = c.map Fin.val := by
  intro c
  induction c with
  | nil => rfl
  | cons a c ih =>
    have h1 : (do let x ← a :: c; pure ((x : Nat)) : List Nat) =
        ((a : Nat) :: (do let x ← c; pure ((x : Nat)) : List Nat) : List Nat) :=
      List.cons_bind _ _ _
    rw [h1, ih]
    rfl

theorem getD_ne_of_nodup (orig : List Nat) (hnd : orig.Nodup) (p p' : Nat)
    (hp : p < orig.length) (hp' : p' < orig.length) (hne : p ≠ p') :
    orig.getD p 0 ≠ orig.getD p' 0 := by
  rw [List.getD_eq_getElem _ _ hp, List.getD_eq_getElem _ _ hp']
  intro he
  exact hne ((List.Nodup.getElem_inj_iff hnd).mp he)

theorem getD_inj_of_nodup (orig : List Nat) (hnd : orig.Nodup) (p p' : Nat)
    (hp : p < orig.length) (hp' : p' < orig.length)
    (he : orig.getD p 0 = orig.getD p' 0) : p = p' := by
  by_contra hne
  exact getD_ne_of_nodup orig hnd p p' hp hp' hne he

theorem exists_two_cons {α : Type} (L : List α) (h : 2 ≤ L.length) :
    ∃ a b t, L = a :: b :: t := by
  cases L with
  | nil => simp at h
  | cons a L' =>
    cases L' with
    | nil => simp at h
    | cons b t => exact ⟨a, b, t, rfl⟩

theorem updateFn_fold_apply {γ : Type} (key : γ → Nat) (lab : GroupLabel) :
    ∀ (c : List γ) (f : Nat → Option GroupLabel) (x : Nat),
      (c.foldl (fun g y => updateFn g (key y) lab) f) x =
        if c.any (fun y => decide (key y = x)) then some lab else f x := by
  intro c
  induction c with
  | nil =>
    intro f x
    rfl
  | cons y c ih =>
    intro f x
    rw [List.foldl_cons, ih]
    by_cases hxy : x = key y
    · have h1 : ((y :: c).any fun z => decide (key z = x)) = true := by
        rw [List.any_cons, decide_eq_true hxy.symm, Bool.true_or]
      rw [if_pos h1]
      by_cases hc : (c.any fun z => decide (key z = x)) = true
      · rw [if_pos hc]
      · rw [if_neg hc]
        unfold updateFn
        rw [if_pos hxy]
    · have h2 : ((y :: c).any fun z => decide (key z = x)) =
          (c.any fun z => decide (key z = x)) := by
        rw [List.any_cons, decide_eq_false (fun h => hxy h.symm), Bool.false_or]
      rw [h2]
      by_cases hc : (c.any fun z => decide (key z = x)) = true
      · rw [if_pos hc, if_pos hc]
      · rw [if_neg hc, if_neg hc]
        unfold updateFn
        rw [if_neg hxy]

theorem minTwoFn_batch {γ : Type} (key : γ → Nat) (lab : GroupLabel)
    (c : List γ) (f : Nat → Option GroupLabel)
    (hm : MinTwoFn f)
    (hfresh : ∀ y ∈ c, f (key y) = none)
    (hpair : ∃ y1 ∈ c, ∃ y2 ∈ c, key y1 ≠ key y2) :
    MinTwoFn (c.foldl (fun g y => updateFn g (key y) lab) f) := by
  intro l hl
  obtain ⟨k, hk⟩ := hl
  rw [updateFn_fold_apply key lab c f k] at hk
  by_cases hany : (c.any fun y => decide (key y = k)) = true
  · rw [if_pos hany] at hk
    injection hk with hlab
    obtain ⟨y1, hy1, y2, hy2, hne⟩ := hpair
    refine ⟨key y1, key y2, hne, ?_, ?_⟩
    · rw [updateFn_fold_apply key lab c f (key y1),
        if_pos (List.any_eq_true.mpr ⟨y1, hy1, decide_eq_true rfl⟩), hlab]
    · rw [updateFn_fold_apply key lab c f (key y2),
        if_pos (List.any_eq_true.mpr ⟨y2, hy2, decide_eq_true rfl⟩), hlab]
  · rw [if_neg hany] at hk
    obtain ⟨k1, k2, hk12, h1, h2⟩ := hm l ⟨k, hk⟩
    have hnone : ∀ kk, f kk = some l →
        ¬ (c.any fun y => decide (key y = kk)) = true := by
      intro kk hkk hco
      obtain ⟨y, hy, hky⟩ := List.any_eq_true.mp hco
      have hf := hfresh y hy
      rw [of_decide_eq_true hky, hkk] at hf
      exact Option.noConfusion hf
    refine ⟨k1, k2, hk12, ?_, ?_⟩
    · rw [updateFn_fold_apply key lab c f k1, if_neg (hnone k1 h1)]
      exact h1
    · rw [updateFn_fold_apply key lab c f k2, if_neg (hnone k2 h2)]
      exact h2

theorem verifyComponents_disjoint {n : Nat} (adj : Fin n → Fin n → Bool)
    (hs : ∀ a b : Fin n, adj a b = adj b a) (skipIso : Bool) :
    (verifyComponents adj skipIso).Pairwise fun c d => ∀ x ∈ c, x ∉ d := by
  have hinv := scanComponents_inv adj hs skipIso
  unfold verifyComponents
  exact List.Pairwise.sublist (List.filter_sublist _) hinv.disj

theorem nce_fold_min_two (orig : List Nat) (hnd : orig.Nodup) :
    ∀ (L : List (Int × List Nat)),
      (∀ cl ∈ L, cl.2.Nodup ∧ ∀ p ∈ cl.2, p < orig.length) →
      L.Pairwise (fun c d => ∀ p ∈ c.2, p ∉ d.2) →
      ∀ acc : Nat × (Nat → Option GroupLabel),
        MinTwoFn acc.2 →
        (∀ k, acc.2 k ≠ none → ∀ cl ∈ L, ∀ p ∈ cl.2, orig.getD p 0 ≠ k) →
        MinTwoFn (L.foldl (nceStep orig) acc).2 := by
  intro L
  induction L with
  | nil =>
    intro _ _ acc hm _
    exact hm
  | cons cl L ih =>
    intro hcl hpw acc hm hfresh
    obtain ⟨hclnd, hclb⟩ := hcl cl (List.mem_cons_self _ _)
    have hpw2 := List.pairwise_cons.mp hpw
    rw [List.foldl_cons]
    by_cases h2 : 2 ≤ cl.2.length
    · have hstep : nceStep orig acc cl =
          (acc.1 + 1, cl.2.foldl (fun f p =>
            updateFn f (orig.getD p 0) (.simGroup (acc.1 + 1))) acc.2) := by
        unfold nceStep
        rw [if_pos h2]
      rw [hstep]
      have happ : ∀ x, (cl.2.foldl (fun f p =>
          updateFn f (orig.getD p 0) (.simGroup (acc.1 + 1))) acc.2) x =
          if cl.2.any (fun p => decide (orig.getD p 0 = x)) then
            some (.simGroup (acc.1 + 1)) else acc.2 x :=
        fun x => updateFn_fold_apply (fun p => orig.getD p 0) _ cl.2 acc.2 x
      apply ih (fun c h => hcl c (List.mem_cons_of_mem _ h)) hpw2.2
      · show MinTwoFn (cl.2.foldl (fun f p =>
          updateFn f (orig.getD p 0) (.simGroup (acc.1 + 1))) acc.2)
        apply minTwoFn_batch (fun p => orig.getD p 0) _ cl.2 acc.2 hm
        · intro p hp
          by_contra hne2
          exact hfresh _ hne2 cl (List.mem_cons_self _ _) p hp rfl
        · obtain ⟨a, b, tl, hab⟩ := exists_two_cons cl.2 h2
          have hamem : a ∈ cl.2 := by
            rw [hab]
            exact List.mem_cons_self _ _
          have hbmem : b ∈ cl.2 := by
            rw [hab]
            exact List.mem_cons_of_mem _ (List.mem_cons_self _ _)
          have hanb : a ≠ b := by
            rw [hab] at hclnd
            have hcc := List.nodup_cons.mp hclnd
            intro he
            exact hcc.1 (he ▸ List.mem_cons_self b tl)
          exact ⟨a, hamem, b, hbmem,
            getD_ne_of_nodup orig hnd a b (hclb a hamem) (hclb b hbmem) hanb⟩
      · intro k hkne cl' hcl' p' hp' he
        have hkne2 : (cl.2.foldl (fun f p =>
            updateFn f (orig.getD p 0) (.simGroup (acc.1 + 1))) acc.2) k ≠
            none := hkne
        rw [happ k] at hkne2
        by_cases hany : (cl.2.any fun p => decide (orig.getD p 0 = k)) = true
        · obtain ⟨p, hp, hpk⟩ := List.any_eq_true.mp hany
          have hkey : orig.getD p 0 = k := of_decide_eq_true hpk
          have hpp' : p = p' := by
            apply getD_inj_of_nodup orig hnd p p' (hclb p hp)
              ((hcl cl' (List.mem_cons_of_mem _ hcl')).2 p' hp')
            rw [hkey]
            exact he.symm
          refine hpw2.1 cl' hcl' p hp ?_
          rw [hpp']
          exact hp'
        · rw [if_neg hany] at hkne2
          exact hfresh k hkne2 cl' (List.mem_cons_of_mem _ hcl') p' hp' he
    · have hstep : nceStep orig acc cl = acc := by
        unfold nceStep
        rw [if_neg h2]
      rw [hstep]
      exact ih (fun c h => hcl c (List.mem_cons_of_mem _ h)) hpw2.2 acc hm
        (fun k hk cl' h' => hfresh k hk cl' (List.mem_cons_of_mem _ h'))

end SimilarQuestions


namespace SimilarQuestions

theorem ce_comps_min_two {m : Nat} (orig members : List Nat)
    (hnd : orig.Nodup) (hmnd : members.Nodup)
    (hmb : ∀ p ∈ members, p < orig.length) (hm : m = members.length) :
    ∀ (comps : List (List (Fin m))),
      (∀ c ∈ comps, c.Nodup ∧ 2 ≤ c.length) →
      comps.Pairwise (fun c d => ∀ x ∈ c, x ∉ d) →
      ∀ acc2 : Nat × (Nat → Option GroupLabel),
        MinTwoFn acc2.2 →
        (∀ k, acc2.2 k ≠ none → ∀ c ∈ comps, ∀ loc ∈ c,
          orig.getD (members.getD ((loc : Fin m) : Nat) 0) 0 ≠ k) →
        MinTwoFn ((comps.foldl (fun acc2 c =>
            (acc2.1 + 1,
             c.foldl (fun f loc =>
               updateFn f (orig.getD (members.getD (loc : Nat) 0) 0)
                 (.simGroup (acc2.1 + 1))) acc2.2)) acc2).2) ∧
        ∀ k, ((comps.foldl (fun acc2 c =>
            (acc2.1 + 1,
             c.foldl (fun f loc =>
               updateFn f (orig.getD (members.getD (loc : Nat) 0) 0)
                 (.simGroup (acc2.1 + 1))) acc2.2)) acc2).2) k ≠ none →
          acc2.2 k ≠ none ∨
            ∃ p ∈ members, orig.getD p 0 = k := by
  intro comps
  induction comps with
  | nil =>
    intro _ _ acc2 hm2 _
    exact ⟨hm2, fun k hk => Or.inl hk⟩
  | cons c comps ih =>
    intro hc hpw acc2 hm2 hfresh
    obtain ⟨hcnd, hclen⟩ := hc c (List.mem_cons_self _ _)
    have hpw2 := List.pairwise_cons.mp hpw
    rw [List.foldl_cons]
    have hkey_mem : ∀ x ∈ (do let a ← c; pure ((a : Nat)) : List Nat),
        ∃ a ∈ c, x = (a : Nat) := by
      intro x hx
      rw [coe_list_eq] at hx
      obtain ⟨a, ha, hax⟩ := List.mem_map.mp hx
      exact ⟨a, ha, hax.symm⟩
    have happ : ∀ x, ((do let a ← c; pure ((a : Nat)) : List Nat).foldl (fun f y =>
        updateFn f (orig.getD (members.getD y 0) 0)
          (.simGroup (acc2.1 + 1))) acc2.2) x =
        if (do let a ← c; pure ((a : Nat)) : List Nat).any
            (fun y => decide (orig.getD (members.getD y 0) 0 = x)) then
          some (.simGroup (acc2.1 + 1)) else acc2.2 x :=
      fun x => updateFn_fold_apply (fun y => orig.getD (members.getD y 0) 0) _ _
        acc2.2 x
    have hgdmem : ∀ a : Fin m, members.getD ((a : Fin m) : Nat) 0 ∈ members := by
      intro a
      have hlt : (a : Nat) < members.length := by
        have := a.isLt
        omega
      rw [List.getD_eq_getElem _ _ hlt]
      exact List.getElem_mem hlt
    have hbmin : MinTwoFn ((do let a ← c; pure ((a : Nat)) : List Nat).foldl
        (fun f y => updateFn f (orig.getD (members.getD y 0) 0)
          (.simGroup (acc2.1 + 1))) acc2.2) := by
      apply minTwoFn_batch (fun y => orig.getD (members.getD y 0) 0) _ _ acc2.2 hm2
      · intro y hy
        obtain ⟨a, ha, hay⟩ := hkey_mem y hy
        by_contra hne2
        refine hfresh _ hne2 c (List.mem_cons_self _ _) a ha ?_
        rw [hay]
      · obtain ⟨a1, a2, tl, hab⟩ := exists_two_cons c hclen
        have ha1 : a1 ∈ c := by
          rw [hab]
          exact List.mem_cons_self _ _
        have ha2 : a2 ∈ c := by
          rw [hab]
          exact List.mem_cons_of_mem _ (List.mem_cons_self _ _)
        have h12 : a1 ≠ a2 := by
          rw [hab] at hcnd
          have hcc := List.nodup_cons.mp hcnd
          intro he
          exact hcc.1 (he ▸ List.mem_cons_self a2 tl)
        have hlt1 : (a1 : Nat) < members.length := by
          have := a1.isLt
          omega
        have hlt2 : (a2 : Nat) < members.length := by
          have := a2.isLt
          omega
        have hv12 : (a1 : Nat) ≠ (a2 : Nat) := fun he => h12 (Fin.val_injective he)
        have hpne : members.getD (a1 : Nat) 0 ≠ members.getD (a2 : Nat) 0 :=
          getD_ne_of_nodup members hmnd _ _ hlt1 hlt2 hv12
        refine ⟨(a1 : Nat), ?_, (a2 : Nat), ?_, ?_⟩
        · rw [coe_list_eq]
          exact List.mem_map_of_mem Fin.val ha1
        · rw [coe_list_eq]
          exact List.mem_map_of_mem Fin.val ha2
        · exact getD_ne_of_nodup orig hnd _ _ (hmb _ (hgdmem a1))
            (hmb _ (hgdmem a2)) hpne
    have hbsupp : ∀ k, ((do let a ← c; pure ((a : Nat)) : List Nat).foldl
        (fun f y => updateFn f (orig.getD (members.getD y 0) 0)
          (.simGroup (acc2.1 + 1))) acc2.2) k ≠ none →
        acc2.2 k ≠ none ∨
          ∃ a ∈ c, orig.getD (members.getD ((a : Fin m) : Nat) 0) 0 = k := by
      intro k hk
      rw [happ k] at hk
      by_cases hany : ((do let a ← c; pure ((a : Nat)) : List Nat).any
          (fun y => decide (orig.getD (members.getD y 0) 0 = k))) = true
      · obtain ⟨y, hy, hky⟩ := List.any_eq_true.mp hany
        obtain ⟨a, ha, hay⟩ := hkey_mem y hy
        refine Or.inr ⟨a, ha, ?_⟩
        rw [← hay]
        exact of_decide_eq_true hky
      · rw [if_neg hany] at hk
        exact Or.inl hk
    have hres := ih (fun c' h' => hc c' (List.mem_cons_of_mem _ h')) hpw2.2
      ((acc2.1 + 1, (do let a ← c; pure ((a : Nat)) : List Nat).foldl
        (fun f y => updateFn f (orig.getD (members.getD y 0) 0)
          (.simGroup (acc2.1 + 1))) acc2.2)) hbmin ?_
    · refine ⟨hres.1, ?_⟩
      intro k hk
      rcases hres.2 k hk with hold | hnew
      · rcases hbsupp k hold with h1 | ⟨a, _, hkey⟩
        · exact Or.inl h1
        · exact Or.inr ⟨members.getD ((a : Fin m) : Nat) 0, hgdmem a, hkey⟩
      · exact Or.inr hnew
    · intro k hk c' hc' loc hloc he
      rcases hbsupp k hk with hold | ⟨a, ha, hkey⟩
      · exact hfresh k hold c' (List.mem_cons_of_mem _ hc') loc hloc he
      · have hpe : members.getD ((a : Fin m) : Nat) 0 =
            members.getD ((loc : Fin m) : Nat) 0 := by
          apply getD_inj_of_nodup orig hnd _ _ (hmb _ (hgdmem a))
            (hmb _ (hgdmem loc))
          rw [hkey]
          exact he.symm
        have hlta : (a : Nat) < members.length := by
          have := a.isLt
          omega
        have hltl : (loc : Nat) < members.length := by
          have := loc.isLt
          omega
        have hval : (a : Nat) = (loc : Nat) :=
          getD_inj_of_nodup members hmnd _ _ hlta hltl hpe
        have hal : a = loc := Fin.val_injective hval
        exact hpw2.1 c' hc' a ha (hal ▸ hloc)

end SimilarQuestions

namespace SimilarQuestions

theorem ce_fold_min_two (score : String → String → ℚ) (t : ℚ)
    (orig : List Nat) (hnd : orig.Nodup) (vtexts : List String) :
    ∀ (L : List (Int × List Nat)),
      (∀ cl ∈ L, cl.2.Nodup ∧ ∀ p ∈ cl.2, p < orig.length) →
      L.Pairwise (fun c d => ∀ p ∈ c.2, p ∉ d.2) →
      ∀ acc : Nat × (Nat → Option GroupLabel),
        MinTwoFn acc.2 →
        (∀ k, acc.2 k ≠ none → ∀ cl ∈ L, ∀ p ∈ cl.2, orig.getD p 0 ≠ k) →
        MinTwoFn (L.foldl (ceStep score t orig vtexts) acc).2 := by
  intro L
  induction L with
  | nil =>
    intro _ _ acc hm _
    exact hm
  | cons cl L ih =>
    intro hcl hpw acc hm hfresh
    obtain ⟨hclnd, hclb⟩ := hcl cl (List.mem_cons_self _ _)
    have hpw2 := List.pairwise_cons.mp hpw
    rw [List.foldl_cons]
    by_cases h2 : cl.2.length < 2
    · have hstep : ceStep score t orig vtexts acc cl = acc := by
        unfold ceStep
        rw [if_pos h2]
      rw [hstep]
      exact ih (fun c h => hcl c (List.mem_cons_of_mem _ h)) hpw2.2 acc hm
        (fun k hk c' h' => hfresh k hk c' (List.mem_cons_of_mem _ h'))
    · have hstep : ceStep score t orig vtexts acc cl =
          (clusterComponents score t (cl.2.map fun p => vtexts.getD p "")).foldl
            (fun acc2 c =>
              (acc2.1 + 1,
               c.foldl (fun f loc =>
                 updateFn f (orig.getD (cl.2.getD (loc : Nat) 0) 0)
                   (.simGroup (acc2.1 + 1))) acc2.2)) acc := by
        unfold ceStep
        rw [if_neg h2]
      rw [hstep]
      have hcprops : ∀ c ∈ clusterComponents score t
          (cl.2.map fun p => vtexts.getD p ""), c.Nodup ∧ 2 ≤ c.length := by
        intro c hc
        obtain ⟨h1, h3, _⟩ := verifyComponents_spec
          (adjFull score t (cl.2.map fun p => vtexts.getD p ""))
          (adjFull_symm score t _) true c hc
        exact ⟨h1, h3⟩
      have hcdisj := verifyComponents_disjoint
        (adjFull score t (cl.2.map fun p => vtexts.getD p ""))
        (adjFull_symm score t _) true
      have hfreshc : ∀ k, acc.2 k ≠ none →
          ∀ c ∈ clusterComponents score t (cl.2.map fun p => vtexts.getD p ""),
          ∀ loc ∈ c,
            orig.getD (cl.2.getD ((loc :
              Fin (cl.2.map fun p => vtexts.getD p "").length) : Nat) 0) 0 ≠
              k := by
        intro k hk c hc loc hloc
        have hlt : (loc : Nat) < cl.2.length := by
          have h9 := loc.isLt
          have hlen : (List.map (fun p => vtexts.getD p "") cl.2).length =
              cl.2.length := List.length_map _ _
          omega
        have hmem : cl.2.getD ((loc :
            Fin (cl.2.map fun p => vtexts.getD p "").length) : Nat) 0 ∈ cl.2 := by
          rw [List.getD_eq_getElem _ _ hlt]
          exact List.getElem_mem hlt
        exact hfresh k hk cl (List.mem_cons_self _ _) _ hmem
      obtain ⟨hmin2, hsupp⟩ := ce_comps_min_two orig cl.2 hnd hclnd hclb
        (by rw [List.length_map])
        (clusterComponents score t (cl.2.map fun p => vtexts.getD p ""))
        hcprops hcdisj acc hm hfreshc
      apply ih (fun c h => hcl c (List.mem_cons_of_mem _ h)) hpw2.2 _ hmin2
      intro k hk cl' hcl' p' hp' he
      rcases hsupp k hk with hold | ⟨p, hp, hkey⟩
      · exact hfresh k hold cl' (List.mem_cons_of_mem _ hcl') p' hp' he
      · have hpp' : p = p' := by
          apply getD_inj_of_nodup orig hnd p p' (hclb p hp)
            ((hcl cl' (List.mem_cons_of_mem _ hcl')).2 p' hp')
          rw [hkey]
          exact he.symm
        refine hpw2.1 cl' hcl' p hp ?_
        rw [hpp']
        exact hp'

end SimilarQuestions

namespace SimilarQuestions

theorem fsgOrig_nodup (qwi : List (Nat × Question))
    (hq : (qwi.map Prod.fst).Nodup) : (fsgOrig qwi).Nodup := by
  have hsub : List.Sublist (fsgOrig qwi) (qwi.map Prod.fst) := by
    unfold fsgOrig fsgValid
    have h1 : List.Sublist
        ((((qwi.map Prod.fst).zip (qwi.map fun p => getText p.2)).enum.filter
          fun p => !p.2.2.trim.isEmpty).map fun p => p.2.1)
        ((((qwi.map Prod.fst).zip (qwi.map fun p => getText p.2)).enum).map
          fun p => p.2.1) :=
      List.Sublist.map _ (List.filter_sublist _)
    have h2 : ((((qwi.map Prod.fst).zip (qwi.map fun p => getText p.2)).enum).map
        fun p => p.2.1) = qwi.map Prod.fst := by
      have h3 : ((((qwi.map Prod.fst).zip (qwi.map fun p => getText p.2)).enum).map
          fun p => p.2.1) =
          ((((qwi.map Prod.fst).zip (qwi.map fun p => getText p.2)).enum.map
            Prod.snd).map Prod.fst) := by
        rw [List.map_map]
        rfl
      rw [h3, List.enum_map_snd]
      apply List.map_fst_zip
      rw [List.length_map, List.length_map]
    have h4 := h1
    rw [h2] at h4
    exact h4
  exact List.Sublist.nodup hsub hq

theorem groupByLabel_disjoint (labels : List Int) :
    (groupByLabel labels).Pairwise fun c d => ∀ p ∈ c.2, p ∉ d.2 := by
  obtain ⟨hnd, hmem, _⟩ := groupByLabel_spec labels
  have hp : (groupByLabel labels).Pairwise fun c d => c.1 ≠ d.1 :=
    List.pairwise_map.mp hnd
  refine List.Pairwise.imp_of_mem ?_ hp
  intro c d hcm hdm hne p hpc hpd
  have h1 := ((hmem c hcm).2.2 p).mp hpc
  have h2 := ((hmem d hdm).2.2 p).mp hpd
  apply hne
  have h3 := h1.1.symm.trans h2.1
  injection h3

theorem findSimilarityGroups_min_two (cluster1 : List String → List Int)
    (score : String → String → ℚ) (useCE : Bool) (t : ℚ)
    (qwi : List (Nat × Question))
    (hlen1 : (cluster1 ((fsgTexts qwi).map prepareE5)).length =
      ((fsgTexts qwi).map prepareE5).length)
    (hq : (qwi.map Prod.fst).Nodup) :
    MinTwoFn (findSimilarityGroups cluster1 score useCE t qwi) := by
  unfold findSimilarityGroups
  by_cases he : qwi.isEmpty = true
  · rw [if_pos he]
    intro l hl
    obtain ⟨k, hk⟩ := hl
    exact Option.noConfusion hk
  · rw [if_neg he]
    by_cases hv : (fsgValid qwi).length < 2
    · rw [if_pos hv]
      intro l hl
      obtain ⟨k, hk⟩ := hl
      exact Option.noConfusion hk
    · rw [if_neg hv]
      have horignd := fsgOrig_nodup qwi hq
      have hclf : ∀ cl ∈ groupByLabel (cluster1 ((fsgTexts qwi).map prepareE5)),
          cl.2.Nodup ∧ ∀ p ∈ cl.2, p < (fsgOrig qwi).length := by
        intro cl hcl
        have hspec := (groupByLabel_spec _).2.1 cl hcl
        refine ⟨hspec.2.1, ?_⟩
        intro p hp
        obtain ⟨hget, _⟩ := (hspec.2.2 p).mp hp
        have hlt : p < (cluster1 ((fsgTexts qwi).map prepareE5)).length :=
          (List.get?_eq_some.mp hget).choose
        rw [hlen1, List.length_map] at hlt
        unfold fsgTexts at hlt
        unfold fsgOrig
        rw [List.length_map]
        rw [List.length_map] at hlt
        exact hlt
      have hdisj := groupByLabel_disjoint (cluster1 ((fsgTexts qwi).map prepareE5))
      have hinit : MinTwoFn (((0 : Nat), fun _ => (none : Option GroupLabel))).2 := by
        intro l hl
        obtain ⟨k, hk⟩ := hl
        exact Option.noConfusion hk
      by_cases hce : useCE = true
      · rw [if_pos hce]
        exact ce_fold_min_two score t (fsgOrig qwi) horignd (fsgTexts qwi) _
          hclf hdisj ((0 : Nat), fun _ => none) hinit (fun k hk => absurd rfl hk)
      · rw [if_neg hce]
        exact nce_fold_min_two (fsgOrig qwi) horignd _ hclf hdisj
          ((0 : Nat), fun _ => none) hinit (fun k hk => absurd rfl hk)

end SimilarQuestions

namespace SimilarQuestions

theorem runStage1_min_two (cluster1 : List String → List Int)
    (score : String → String → ℚ) (useCE : Bool) (t : ℚ) (qs : List Question)
    (hlen1 : ∀ ts : List String, (cluster1 ts).length = ts.length) :
    MinTwo (runStage1 cluster1 score useCE t qs) := by
  intro l
  by_cases hl : ∃ k, stage1Assignment cluster1 score useCE t qs k = some l
  · right
    have hqnd : (((qs.enum).filter fun p =>
        p.2.success && p.2.data.isSome).map Prod.fst).Nodup := by
      have hsub : List.Sublist (((qs.enum).filter fun p =>
          p.2.success && p.2.data.isSome).map Prod.fst)
          ((qs.enum).map Prod.fst) :=
        List.Sublist.map _ (List.filter_sublist _)
      rw [List.enum_map_fst] at hsub
      exact List.Sublist.nodup hsub (List.nodup_range _)
    have hmt := findSimilarityGroups_min_two cluster1 score useCE t
      ((qs.enum).filter fun p => p.2.success && p.2.data.isSome)
      (hlen1 _) hqnd
    obtain ⟨k1, k2, hne, h1, h2⟩ := hmt l hl
    have hex : ∀ k, findSimilarityGroups cluster1 score useCE t
        ((qs.enum).filter fun p => p.2.success && p.2.data.isSome) k = some l →
        ∃ q, qs.get? k = some q := by
      intro k hk
      have hsup := findSimilarityGroups_support cluster1 score useCE t
        ((qs.enum).filter fun p => p.2.success && p.2.data.isSome) (hlen1 _) k
        (by rw [hk]; exact fun h => Option.noConfusion h)
      have hfst := fsgOrig_subset _ k hsup
      rw [List.mem_map] at hfst
      obtain ⟨p, hp, hpi⟩ := hfst
      rw [List.mem_filter] at hp
      have hpe := hp.1
      rw [← Prod.mk.eta (p := p), List.mk_mem_enum_iff_get?] at hpe
      rw [hpi] at hpe
      exact ⟨p.2, hpe⟩
    obtain ⟨q1, hq1⟩ := hex k1 h1
    obtain ⟨q2, hq2⟩ := hex k2 h2
    have h1x : stage1Assignment cluster1 score useCE t qs k1 = some l := h1
    have h2x : stage1Assignment cluster1 score useCE t qs k2 = some l := h2
    have ho1 : (runStage1 cluster1 score useCE t qs).get? k1 =
        some { q1 with simField := some (some l) } := by
      rw [runStage1_get? cluster1 score useCE t qs k1, hq1, h1x]
      rfl
    have ho2 : (runStage1 cluster1 score useCE t qs).get? k2 =
        some { q2 with simField := some (some l) } := by
      rw [runStage1_get? cluster1 score useCE t qs k2, hq2, h2x]
      rfl
    have hfin := nodup_length_le_countP (runStage1 cluster1 score useCE t qs)
      (fun q => decide (simVal q = some l)) [k1, k2] ?_ ?_
    · exact hfin
    · simp [hne]
    · intro i hi
      rcases List.mem_cons.mp hi with hik | hi2
      · subst hik
        exact ⟨{ q1 with simField := some (some l) }, ho1, decide_eq_true rfl⟩
      · rw [List.mem_singleton] at hi2
        subst hi2
        exact ⟨{ q2 with simField := some (some l) }, ho2, decide_eq_true rfl⟩
  · left
    rw [show labelCount (runStage1 cluster1 score useCE t qs) l =
        List.countP (fun q => decide (simVal q = some l))
          (runStage1 cluster1 score useCE t qs) from rfl]
    rw [List.countP_eq_zero]
    intro q hq hsim
    unfold runStage1 at hq
    rw [List.mem_map] at hq
    obtain ⟨p, _, hpq⟩ := hq
    apply hl
    refine ⟨p.1, ?_⟩
    have h3 : simVal q = stage1Assignment cluster1 score useCE t qs p.1 := by
      rw [← hpq]
      rfl
    rw [← h3]
    exact of_decide_eq_true hsim

theorem updateFn_fold_values {γ : Type} (key : γ → Nat) (lab : GroupLabel)
    (Q : GroupLabel → Prop) (hQ : Q lab) (c : List γ)
    (f : Nat → Option GroupLabel) (hf : ∀ k l, f k = some l → Q l) :
    ∀ k l, (c.foldl (fun g y => updateFn g (key y) lab) f) k = some l → Q l := by
  intro k l hk
  rw [updateFn_fold_apply key lab c f k] at hk
  by_cases hany : (c.any fun y => decide (key y = k)) = true
  · rw [if_pos hany] at hk
    injection hk with h
    rw [← h]
    exact hQ
  · rw [if_neg hany] at hk
    exact hf k l hk

theorem nce_fold_values (orig : List Nat) (Q : GroupLabel → Prop)
    (hQ : ∀ n, Q (.simGroup n)) :
    ∀ (L : List (Int × List Nat)) (acc : Nat × (Nat → Option GroupLabel)),
      (∀ k l, acc.2 k = some l → Q l) →
      ∀ k l, (L.foldl (nceStep orig) acc).2 k = some l → Q l := by
  intro L
  induction L with
  | nil =>
    intro acc hacc
    exact hacc
  | cons cl L ih =>
    intro acc hacc
    rw [List.foldl_cons]
    apply ih
    unfold nceStep
    by_cases h2 : 2 ≤ cl.2.length
    · rw [if_pos h2]
      intro k l hk
      exact updateFn_fold_values (fun p => orig.getD p 0) _ Q (hQ _) cl.2 acc.2
        hacc k l hk
    · rw [if_neg h2]
      exact hacc

theorem ce_comps_values {m : Nat} (orig members : List Nat)
    (Q : GroupLabel → Prop) (hQ : ∀ n, Q (.simGroup n)) :
    ∀ (comps : List (List (Fin m))) (acc2 : Nat × (Nat → Option GroupLabel)),
      (∀ k l, acc2.2 k = some l → Q l) →
      ∀ k l, ((comps.foldl (fun acc2 c =>
          (acc2.1 + 1,
           c.foldl (fun f loc =>
             updateFn f (orig.getD (members.getD (loc : Nat) 0) 0)
               (.simGroup (acc2.1 + 1))) acc2.2)) acc2).2) k = some l → Q l := by
  intro comps
  induction comps with
  | nil =>
    intro acc2 hacc
    exact hacc
  | cons c comps ih =>
    intro acc2 hacc
    rw [List.foldl_cons]
    apply ih
    intro k l hk
    exact updateFn_fold_values (fun y => orig.getD (members.getD y 0) 0) _ Q
      (hQ _) _ acc2.2 hacc k l hk

theorem ce_fold_values (score : String → String → ℚ) (t : ℚ)
    (orig : List Nat) (vtexts : List String) (Q : GroupLabel → Prop)
    (hQ : ∀ n, Q (.simGroup n)) :
    ∀ (L : List (Int × List Nat)) (acc : Nat × (Nat → Option GroupLabel)),
      (∀ k l, acc.2 k = some l → Q l) →
      ∀ k l, (L.foldl (ceStep score t orig vtexts) acc).2 k = some l → Q l := by
  intro L
  induction L with
  | nil =>
    intro acc hacc
    exact hacc
  | cons cl L ih =>
    intro acc hacc
    rw [List.foldl_cons]
    apply ih
    unfold ceStep
    by_cases h2 : cl.2.length < 2
    · rw [if_pos h2]
      exact hacc
    · rw [if_neg h2]
      exact ce_comps_values orig cl.2 Q hQ _ acc hacc

theorem findSimilarityGroups_values (cluster1 : List String → List Int)
    (score : String → String → ℚ) (useCE : Bool) (t : ℚ)
    (qwi : List (Nat × Question)) (Q : GroupLabel → Prop)
    (hQ : ∀ n, Q (.simGroup n)) :
    ∀ k l, findSimilarityGroups cluster1 score useCE t qwi k = some l → Q l := by
  intro k l hk
  unfold findSimilarityGroups at hk
  by_cases he : qwi.isEmpty = true
  · rw [if_pos he] at hk
    exact Option.noConfusion hk
  · rw [if_neg he] at hk
    by_cases hv : (fsgValid qwi).length < 2
    · rw [if_pos hv] at hk
      exact Option.noConfusion hk
    · rw [if_neg hv] at hk
      by_cases hce : useCE = true
      · rw [if_pos hce] at hk
        exact ce_fold_values score t _ _ Q hQ _ _
          (fun k2 l2 h => Option.noConfusion h) k l hk
      · rw [if_neg hce] at hk
        exact nce_fold_values _ Q hQ _ _
          (fun k2 l2 h => Option.noConfusion h) k l hk

theorem runStage1_values (cluster1 : List String → List Int)
    (score : String → String → ℚ) (useCE : Bool) (t : ℚ) (qs : List Question) :
    ∀ q ∈ runStage1 cluster1 score useCE t qs, ∀ g n,
      simVal q = some (GroupLabel.sub g n) → False := by
  intro q hq g n hsim
  unfold runStage1 at hq
  rw [List.mem_map] at hq
  obtain ⟨p, _, hpq⟩ := hq
  have h2 : simVal q = stage1Assignment cluster1 score useCE t qs p.1 := by
    rw [← hpq]
    rfl
  rw [h2] at hsim
  obtain ⟨j, hj⟩ := findSimilarityGroups_values cluster1 score useCE t _
    (fun l => ∃ j, l = .simGroup j) (fun n2 => ⟨n2, rfl⟩) p.1 _ hsim
  exact GroupLabel.noConfusion hj

end SimilarQuestions

namespace SimilarQuestions

theorem countP_two_positions (qs : List Question) (P : Question → Bool)
    (h : 2 ≤ qs.countP P) :
    ∃ i j q1 q2, i ≠ j ∧ qs.get? i = some q1 ∧ P q1 = true ∧
      qs.get? j = some q2 ∧ P q2 = true := by
  have he : (qs.enum.filter fun p => P p.2).length = qs.countP P := by
    rw [← List.countP_eq_length_filter]
    show qs.enum.countP (P ∘ Prod.snd) = qs.countP P
    rw [← List.countP_map, List.enum_map_snd]
  have hlen : 2 ≤ (qs.enum.filter fun p => P p.2).length := by omega
  obtain ⟨a, b, tl, hab⟩ := exists_two_cons _ hlen
  have hnd : ((qs.enum.filter fun p => P p.2).map Prod.fst).Nodup := by
    have hsub : List.Sublist ((qs.enum.filter fun p => P p.2).map Prod.fst)
        (qs.enum.map Prod.fst) := List.Sublist.map _ (List.filter_sublist _)
    rw [List.enum_map_fst] at hsub
    exact List.Sublist.nodup hsub (List.nodup_range _)
  have hamem : a ∈ qs.enum.filter fun p => P p.2 := by
    rw [hab]
    exact List.mem_cons_self _ _
  have hbmem : b ∈ qs.enum.filter fun p => P p.2 := by
    rw [hab]
    exact List.mem_cons_of_mem _ (List.mem_cons_self _ _)
  have hane : a.1 ≠ b.1 := by
    rw [hab, List.map_cons, List.map_cons] at hnd
    have hcc := List.nodup_cons.mp hnd
    intro he2
    exact hcc.1 (he2 ▸ List.mem_cons_self b.1 (tl.map Prod.fst))
  have hfa := List.mem_filter.mp hamem
  have hfb := List.mem_filter.mp hbmem
  have hga : qs.get? a.1 = some a.2 := by
    have h9 := hfa.1
    rw [← Prod.mk.eta (p := a), List.mk_mem_enum_iff_get?] at h9
    exact h9
  have hgb : qs.get? b.1 = some b.2 := by
    have h9 := hfb.1
    rw [← Prod.mk.eta (p := b), List.mk_mem_enum_iff_get?] at h9
    exact h9
  exact ⟨a.1, b.1, a.2, b.2, hane, hga, hfa.2, hgb, hfb.2⟩

theorem setSim_get?_self (a : List Question) (i : Nat) (v : Option GroupLabel) :
    (setSim a i v).get? i =
      (a.get? i).map fun q => { q with simField := some v } := by
  unfold setSim
  cases hq : a.get? i with
  | none =>
    rw [hq]
    rfl
  | some q =>
    have h2 := List.get?_set_eq ({ q with simField := some v }) i a
    rw [hq] at h2
    rw [h2]
    rfl

theorem fold_setSim1_write (g1 : GroupLabel) :
    ∀ (m : List (Nat × Nat)), (m.map Prod.fst).Nodup →
      ∀ p ∈ m, ∀ a : List Question,
      (m.foldl (fun a r => setSim a r.1 (some (.sub g1 r.2))) a).get? p.1 =
        (a.get? p.1).map fun q =>
          { q with simField := some (some (.sub g1 p.2)) } := by
  intro m
  induction m with
  | nil =>
    intro _ p hp
    cases hp
  | cons r m ih =>
    intro hnd p hp a
    rw [List.foldl_cons]
    have hcc := List.nodup_cons.mp (by rw [List.map_cons] at hnd; exact hnd)
    rcases List.mem_cons.mp hp with hpr | hpm
    · subst hpr
      rw [fold_setSim1_get? g1 m p.1 ?_ (setSim a p.1 (some (.sub g1 p.2))),
        setSim_get?_self]
      intro r' hr' he
      exact hcc.1 (he ▸ List.mem_map_of_mem Prod.fst hr')
    · have hrp : r.1 ≠ p.1 := by
        intro he
        exact hcc.1 (he ▸ List.mem_map_of_mem Prod.fst hpm)
      rw [ih hcc.2 p hpm (setSim a r.1 (some (.sub g1 r.2))),
        setSim_get?_ne a r.1 _ p.1 hrp]

theorem fold_setSim2_write (m : List (Nat × Nat)) :
    ∀ (idxs : List Nat), idxs.Nodup → ∀ i ∈ idxs,
      (m.any fun p => decide (p.1 = i)) = false →
      ∀ a : List Question,
      (idxs.foldl (fun a idx =>
        if m.any fun p => decide (p.1 = idx) then a
        else setSim a idx none) a).get? i =
        (a.get? i).map fun q => { q with simField := some none } := by
  intro idxs
  induction idxs with
  | nil =>
    intro _ i hi
    cases hi
  | cons x idxs ih =>
    intro hnd i hi hany a
    rw [List.foldl_cons]
    have hcc := List.nodup_cons.mp hnd
    rcases List.mem_cons.mp hi with hix | him
    · subst hix
      have hcond : ¬ ((m.any fun p => decide (p.1 = i)) = true) := by
        rw [hany]
        exact Bool.false_ne_true
      rw [fold_setSim2_get? m idxs i (fun y hy he => hcc.1 (he ▸ hy)) _,
        if_neg hcond, setSim_get?_self]
    · have hxi : x ≠ i := by
        intro he
        exact hcc.1 (he ▸ him)
      rw [ih hcc.2 i him hany _, setSimIf_get? m a x i hxi]

end SimilarQuestions

namespace SimilarQuestions

theorem fallbackAssignments_fst_nodup (indices : List Nat) (labels : List Nat)
    (hnd : indices.Nodup) (hfl : labels.length = indices.length) :
    ((fallbackAssignments indices labels).map Prod.fst).Nodup := by
  unfold fallbackAssignments
  rw [List.map_map]
  have h2 : (labels.enum.map (Prod.fst ∘
      fun p : Nat × Nat => (indices.getD p.1 0, p.2))) =
      ((labels.enum.map Prod.fst).map fun i => indices.getD i 0) := by
    rw [List.map_map]
    rfl
  show (labels.enum.map (Prod.fst ∘
      fun p : Nat × Nat => (indices.getD p.1 0, p.2))).Nodup
  rw [h2, List.enum_map_fst]
  apply List.Nodup.map_on ?_ (List.nodup_range _)
  intro x hx y hy he
  rw [List.mem_range] at hx hy
  exact getD_inj_of_nodup indices hnd x y (by omega) (by omega) he

theorem tswce_m_facts (hcut : List (List ℚ) → ℚ → List Nat)
    (score : String → String → ℚ) (indices : List Nat) (texts : List String)
    (t : ℚ) (hnd : indices.Nodup)
    (hfl : (fallbackLabels hcut score indices texts t).length = indices.length)
    (m : List (Nat × Nat))
    (hm : trySplitWithCrossEncoder hcut score indices texts t = some m) :
    (m.map Prod.fst).Nodup ∧ PairUp m := by
  unfold trySplitWithCrossEncoder at hm
  by_cases h1 : indices.length < 4
  · rw [if_pos h1] at hm
    exact Option.noConfusion hm
  · rw [if_neg h1] at hm
    by_cases h2 : (fallbackLabels hcut score indices texts t).dedup.length ≤ 1
    · rw [if_pos h2] at hm
      exact Option.noConfusion hm
    · rw [if_neg h2] at hm
      set A := ((fallbackLabels hcut score indices texts t).enum).foldl
        (fun d p => dinsert d (indices.getD p.1 0) p.2)
        ([] : List (Nat × Nat)) with hA
      have hAeq : A = fallbackAssignments indices
          (fallbackLabels hcut score indices texts t) := by
        rw [hA]
        exact fallback_assignments_eq hcut score indices texts t hnd hfl
      have hAnd : (A.map Prod.fst).Nodup := by
        rw [hAeq]
        exact fallbackAssignments_fst_nodup indices _ hnd hfl
      have hAvals : A.map Prod.snd = fallbackLabels hcut score indices texts t := by
        rw [hAeq]
        exact fallback_assignments_vals indices _
      by_cases h3 : ((fallbackLabels hcut score indices texts t).dedup.filter
          fun l => 2 ≤ (A.map Prod.snd).count l).length ≤ 1
      · rw [if_pos h3] at hm
        exact Option.noConfusion hm
      · rw [if_neg h3] at hm
        by_cases h4 : 1 < ((A.filter fun p =>
            decide (p.2 ∈ (fallbackLabels hcut score indices texts t).dedup.filter
              fun l => 2 ≤ (A.map Prod.snd).count l)).map Prod.snd).dedup.length
        · rw [if_pos h4] at hm
          injection hm with hm2
          constructor
          · rw [← hm2]
            exact List.Sublist.nodup
              (List.Sublist.map _ (List.filter_sublist _)) hAnd
          · intro p hp
            rw [← hm2] at hp
            have hpf := List.mem_filter.mp hp
            have hvg : p.2 ∈ (fallbackLabels hcut score indices texts t).dedup.filter
                fun l => 2 ≤ (A.map Prod.snd).count l :=
              of_decide_eq_true hpf.2
            have hcnt : 2 ≤ (A.map Prod.snd).count p.2 :=
              of_decide_eq_true (List.mem_filter.mp hvg).2
            have hcnt2 : 2 ≤ (A.filter fun r => r.2 == p.2).length := by
              have he1 : (A.map Prod.snd).count p.2 =
                  List.countP (fun x => x == p.2) (A.map Prod.snd) := rfl
              have he2 : List.countP (fun x => x == p.2) (A.map Prod.snd) =
                  List.countP ((fun x => x == p.2) ∘ Prod.snd) A :=
                List.countP_map _ _ _
              have he3 : List.countP ((fun x => x == p.2) ∘ Prod.snd) A =
                  (A.filter fun r => r.2 == p.2).length := by
                rw [← List.countP_eq_length_filter]
                rfl
              omega
            obtain ⟨e1, e2, tl, hab⟩ := exists_two_cons _ hcnt2
            have he1m : e1 ∈ A.filter fun r => r.2 == p.2 := by
              rw [hab]
              exact List.mem_cons_self _ _
            have he2m : e2 ∈ A.filter fun r => r.2 == p.2 := by
              rw [hab]
              exact List.mem_cons_of_mem _ (List.mem_cons_self _ _)
            have hFnd : ((A.filter fun r => r.2 == p.2).map Prod.fst).Nodup :=
              List.Sublist.nodup
                (List.Sublist.map _ (List.filter_sublist _)) hAnd
            have hkne : e1.1 ≠ e2.1 := by
              rw [hab, List.map_cons, List.map_cons] at hFnd
              have hcc := List.nodup_cons.mp hFnd
              intro he
              exact hcc.1 (he ▸ List.mem_cons_self e2.1 (tl.map Prod.fst))
            have hval : ∀ e ∈ A.filter fun r => r.2 == p.2, e.2 = p.2 := by
              intro e he
              exact eq_of_beq (List.mem_filter.mp he).2
            have hmemm : ∀ e ∈ A.filter fun r => r.2 == p.2, e ∈ m := by
              intro e he
              rw [← hm2]
              refine List.mem_filter.mpr ⟨(List.mem_filter.mp he).1, ?_⟩
              apply decide_eq_true
              rw [hval e he]
              exact hvg
            by_cases hc1 : e1.1 = p.1
            · refine ⟨e2, hmemm e2 he2m, ?_, hval e2 he2m⟩
              rw [← hc1]
              exact fun he => hkne he.symm
            · exact ⟨e1, hmemm e1 he1m, hc1, hval e1 he1m⟩
        · rw [if_neg h4] at hm
          exact Option.noConfusion hm

end SimilarQuestions


namespace SimilarQuestions

theorem bva_comps_facts {m : Nat} (indices members : List Nat)
    (hnd : indices.Nodup) (hmnd : members.Nodup)
    (hmb : ∀ p ∈ members, p < indices.length) (hm : m = members.length) :
    ∀ (comps : List (List (Fin m))),
      (∀ c ∈ comps, c.Nodup ∧ 2 ≤ c.length) →
      comps.Pairwise (fun c d => ∀ x ∈ c, x ∉ d) →
      ∀ acc2 : Nat × List (Nat × Nat),
        (acc2.2.map Prod.fst).Nodup → PairUp acc2.2 →
        (∀ r ∈ acc2.2, ∀ c ∈ comps, ∀ loc ∈ c,
          indices.getD (members.getD ((loc : Fin m) : Nat) 0) 0 ≠ r.1) →
        (((comps.foldl (fun acc2 c =>
            (acc2.1 + 1,
             c.foldl (fun d loc =>
               dinsert d (indices.getD (members.getD (loc : Nat) 0) 0)
                 (acc2.1 + 1)) acc2.2)) acc2).2).map Prod.fst).Nodup ∧
        PairUp ((comps.foldl (fun acc2 c =>
            (acc2.1 + 1,
             c.foldl (fun d loc =>
               dinsert d (indices.getD (members.getD (loc : Nat) 0) 0)
                 (acc2.1 + 1)) acc2.2)) acc2).2) ∧
        ∀ r ∈ ((comps.foldl (fun acc2 c =>
            (acc2.1 + 1,
             c.foldl (fun d loc =>
               dinsert d (indices.getD (members.getD (loc : Nat) 0) 0)
                 (acc2.1 + 1)) acc2.2)) acc2).2),
          r ∈ acc2.2 ∨ ∃ p ∈ members, indices.getD p 0 = r.1 := by
  intro comps
  induction comps with
  | nil =>
    intro _ _ acc2 hand hpair _
    exact ⟨hand, hpair, fun r hr => Or.inl hr⟩
  | cons c comps ih =>
    intro hc hpw acc2 hand hpair hfresh
    obtain ⟨hcnd, hclen⟩ := hc c (List.mem_cons_self _ _)
    have hpw2 := List.pairwise_cons.mp hpw
    rw [List.foldl_cons]
    have hgdmem : ∀ a : Fin m, members.getD ((a : Fin m) : Nat) 0 ∈ members := by
      intro a
      have hlt : (a : Nat) < members.length := by
        have := a.isLt
        omega
      rw [List.getD_eq_getElem _ _ hlt]
      exact List.getElem_mem hlt
    have hkinj : ∀ a b : Fin m, a ≠ b →
        indices.getD (members.getD ((a : Fin m) : Nat) 0) 0 ≠
          indices.getD (members.getD ((b : Fin m) : Nat) 0) 0 := by
      intro a b hab
      have hlta : (a : Nat) < members.length := by
        have := a.isLt
        omega
      have hltb : (b : Nat) < members.length := by
        have := b.isLt
        omega
      have hvab : (a : Nat) ≠ (b : Nat) := fun he => hab (Fin.val_injective he)
      exact getD_ne_of_nodup indices hnd _ _ (hmb _ (hgdmem a)) (hmb _ (hgdmem b))
        (getD_ne_of_nodup members hmnd _ _ hlta hltb hvab)
    have hknd : ((do let a ← c; pure ((a : Nat)) : List Nat).map
        (fun y => indices.getD (members.getD y 0) 0)).Nodup := by
      rw [coe_list_eq, List.map_map]
      apply List.Nodup.map_on ?_ hcnd
      intro x hx y hy he
      by_contra hxy
      exact hkinj x y hxy he
    have heq : ((do let a ← c; pure ((a : Nat)) : List Nat).foldl (fun d loc =>
        dinsert d (indices.getD (members.getD loc 0) 0) (acc2.1 + 1)) acc2.2) =
        acc2.2 ++ (do let a ← c; pure ((a : Nat)) : List Nat).map
          (fun y => (indices.getD (members.getD y 0) 0, acc2.1 + 1)) := by
      apply foldl_dinsert_eq _ (fun y => indices.getD (members.getD y 0) 0)
        (fun _ => acc2.1 + 1) acc2.2 ?_ hknd
      intro y hy q hq
      rw [coe_list_eq] at hy
      obtain ⟨a, ha, hay⟩ := List.mem_map.mp hy
      rw [← hay]
      intro he
      exact hfresh q hq c (List.mem_cons_self _ _) a ha he.symm
    have hbatch_mem : ∀ r ∈ (do let a ← c; pure ((a : Nat)) : List Nat).map
        (fun y => (indices.getD (members.getD y 0) 0, acc2.1 + 1)),
        ∃ a ∈ c, r = (indices.getD (members.getD ((a : Fin m) : Nat) 0) 0,
          acc2.1 + 1) := by
      intro r hr
      obtain ⟨y, hy, hyr⟩ := List.mem_map.mp hr
      rw [coe_list_eq] at hy
      obtain ⟨a, ha, hay⟩ := List.mem_map.mp hy
      refine ⟨a, ha, ?_⟩
      rw [← hyr, ← hay]
    have hbsuppC : ∀ r ∈ ((do let a ← c; pure ((a : Nat)) : List Nat).foldl
        (fun d loc =>
          dinsert d (indices.getD (members.getD loc 0) 0) (acc2.1 + 1))
        acc2.2),
        r ∈ acc2.2 ∨ ∃ a ∈ c,
          r = (indices.getD (members.getD ((a : Fin m) : Nat) 0) 0,
            acc2.1 + 1) := by
      intro r hr
      rw [heq] at hr
      rcases List.mem_append.mp hr with hro | hrb
      · exact Or.inl hro
      · exact Or.inr (hbatch_mem r hrb)
    have hnewnd : (((do let a ← c; pure ((a : Nat)) : List Nat).foldl
        (fun d loc =>
          dinsert d (indices.getD (members.getD loc 0) 0) (acc2.1 + 1))
        acc2.2).map Prod.fst).Nodup := by
      rw [heq, List.map_append, List.nodup_append]
      refine ⟨hand, ?_, ?_⟩
      · rw [List.map_map]
        rw [show (Prod.fst ∘
            (fun y => (indices.getD (members.getD y 0) 0, acc2.1 + 1))) =
            (fun y => indices.getD (members.getD y 0) 0) from rfl]
        exact hknd
      · intro x hx hx2
        obtain ⟨q, hq, hqx⟩ := List.mem_map.mp hx
        obtain ⟨r, hr, hrx⟩ := List.mem_map.mp hx2
        obtain ⟨a, ha, hra⟩ := hbatch_mem r hr
        refine hfresh q hq c (List.mem_cons_self _ _) a ha ?_
        have hr1 : r.1 = indices.getD (members.getD ((a : Fin m) : Nat) 0) 0 := by
          rw [hra]
        rw [← hr1, hrx, ← hqx]
    have hnewpair : PairUp ((do let a ← c; pure ((a : Nat)) : List Nat).foldl
        (fun d loc =>
          dinsert d (indices.getD (members.getD loc 0) 0) (acc2.1 + 1))
        acc2.2) := by
      intro r hr
      rcases hbsuppC r hr with hro | ⟨a, ha, hra⟩
      · obtain ⟨r2, hr2, hr2ne, hr2v⟩ := hpair r hro
        refine ⟨r2, ?_, hr2ne, hr2v⟩
        rw [heq]
        exact List.mem_append_left _ hr2
      · obtain ⟨a1, a2, tl, hab⟩ := exists_two_cons c hclen
        have ha1 : a1 ∈ c := by
          rw [hab]
          exact List.mem_cons_self _ _
        have ha2 : a2 ∈ c := by
          rw [hab]
          exact List.mem_cons_of_mem _ (List.mem_cons_self _ _)
        have h12 : a1 ≠ a2 := by
          rw [hab] at hcnd
          have hcc := List.nodup_cons.mp hcnd
          intro he
          exact hcc.1 (he ▸ List.mem_cons_self a2 tl)
        have hmem2 : ∀ a' : Fin m, a' ∈ c →
            (indices.getD (members.getD ((a' : Fin m) : Nat) 0) 0, acc2.1 + 1) ∈
            ((do let a ← c; pure ((a : Nat)) : List Nat).foldl (fun d loc =>
              dinsert d (indices.getD (members.getD loc 0) 0) (acc2.1 + 1))
              acc2.2) := by
          intro a' ha'
          rw [heq]
          apply List.mem_append_right
          rw [coe_list_eq, List.map_map]
          exact List.mem_map_of_mem _ ha'
        have hr1 : r.1 = indices.getD (members.getD ((a : Fin m) : Nat) 0) 0 := by
          rw [hra]
        have hr2 : r.2 = acc2.1 + 1 := by
          rw [hra]
        by_cases hc1 : a = a1
        · refine ⟨(indices.getD (members.getD ((a2 : Fin m) : Nat) 0) 0,
            acc2.1 + 1), hmem2 a2 ha2, ?_, ?_⟩
          · show indices.getD (members.getD ((a2 : Fin m) : Nat) 0) 0 ≠ r.1
            rw [hr1, hc1]
            exact hkinj a2 a1 (fun he => h12 he.symm)
          · show acc2.1 + 1 = r.2
            rw [hr2]
        · refine ⟨(indices.getD (members.getD ((a1 : Fin m) : Nat) 0) 0,
            acc2.1 + 1), hmem2 a1 ha1, ?_, ?_⟩
          · show indices.getD (members.getD ((a1 : Fin m) : Nat) 0) 0 ≠ r.1
            rw [hr1]
            exact hkinj a1 a (fun he => hc1 he.symm)
          · show acc2.1 + 1 = r.2
            rw [hr2]
    have hres := ih (fun c' h' => hc c' (List.mem_cons_of_mem _ h')) hpw2.2
      ((acc2.1 + 1, (do let a ← c; pure ((a : Nat)) : List Nat).foldl
        (fun d loc =>
          dinsert d (indices.getD (members.getD loc 0) 0) (acc2.1 + 1))
        acc2.2)) hnewnd hnewpair ?_
    · refine ⟨hres.1, hres.2.1, ?_⟩
      intro r hr
      rcases hres.2.2 r hr with hold | hnew
      · rcases hbsuppC r hold with h9 | ⟨a, _, hra⟩
        · exact Or.inl h9
        · refine Or.inr ⟨members.getD ((a : Fin m) : Nat) 0, hgdmem a, ?_⟩
          rw [hra]
      · exact Or.inr hnew
    · intro r hr c' hc' loc hloc he
      rcases hbsuppC r hr with hold | ⟨a, ha, hra⟩
      · exact hfresh r hold c' (List.mem_cons_of_mem _ hc') loc hloc he
      · have hr1 : r.1 = indices.getD (members.getD ((a : Fin m) : Nat) 0) 0 := by
          rw [hra]
        rw [hr1] at he
        have hpe : members.getD ((loc : Fin m) : Nat) 0 =
            members.getD ((a : Fin m) : Nat) 0 := by
          apply getD_inj_of_nodup indices hnd _ _ (hmb _ (hgdmem loc))
            (hmb _ (hgdmem a)) he
        have hlta : (a : Nat) < members.length := by
          have := a.isLt
          omega
        have hltl : (loc : Nat) < members.length := by
          have := loc.isLt
          omega
        have hval : (loc : Nat) = (a : Nat) :=
          getD_inj_of_nodup members hmnd _ _ hltl hlta hpe
        have hal : loc = a := Fin.val_injective hval
        exact hpw2.1 c' hc' a ha (hal ▸ hloc)

end SimilarQuestions

namespace SimilarQuestions

theorem bva_facts (score : String → String → ℚ) (t : ℚ) (indices : List Nat)
    (texts : List String) (labels : List Int) (hnd : indices.Nodup)
    (hll : labels.length ≤ indices.length) :
    ((boundedVerifyAssignments score t indices texts labels).map
      Prod.fst).Nodup ∧
    PairUp (boundedVerifyAssignments score t indices texts labels) := by
  unfold boundedVerifyAssignments
  have hclf : ∀ cl ∈ groupByLabel labels,
      cl.2.Nodup ∧ ∀ p ∈ cl.2, p < indices.length := by
    intro cl hcl
    have hspec := (groupByLabel_spec labels).2.1 cl hcl
    refine ⟨hspec.2.1, ?_⟩
    intro p hp
    obtain ⟨hget, _⟩ := (hspec.2.2 p).mp hp
    have hlt : p < labels.length := (List.get?_eq_some.mp hget).choose
    omega
  have hdisj := groupByLabel_disjoint labels
  suffices h : ∀ (L : List (Int × List Nat)),
      (∀ cl ∈ L, cl.2.Nodup ∧ ∀ p ∈ cl.2, p < indices.length) →
      L.Pairwise (fun c d => ∀ p ∈ c.2, p ∉ d.2) →
      ∀ acc : Nat × List (Nat × Nat),
        (acc.2.map Prod.fst).Nodup → PairUp acc.2 →
        (∀ r ∈ acc.2, ∀ cl ∈ L, ∀ p ∈ cl.2, indices.getD p 0 ≠ r.1) →
        (((L.foldl (fun acc cl =>
            if cl.2.length < 2 then acc else
            (boundedClusterComponents score t
                (cl.2.map fun p => texts.getD p "")).foldl
              (fun acc2 c =>
                (acc2.1 + 1,
                 c.foldl (fun d loc =>
                   dinsert d (indices.getD (cl.2.getD (loc : Nat) 0) 0)
                     (acc2.1 + 1)) acc2.2)) acc) acc).2).map Prod.fst).Nodup ∧
        PairUp ((L.foldl (fun acc cl =>
            if cl.2.length < 2 then acc else
            (boundedClusterComponents score t
                (cl.2.map fun p => texts.getD p "")).foldl
              (fun acc2 c =>
                (acc2.1 + 1,
                 c.foldl (fun d loc =>
                   dinsert d (indices.getD (cl.2.getD (loc : Nat) 0) 0)
                     (acc2.1 + 1)) acc2.2)) acc) acc).2) by
    obtain ⟨h1, h2⟩ := h (groupByLabel labels) hclf hdisj ((0 : Nat), []) (by simp)
      (fun r hr => absurd hr (List.not_mem_nil r)) (fun r hr => absurd hr (List.not_mem_nil r))
    exact ⟨h1, h2⟩
  intro L
  induction L with
  | nil =>
    intro _ _ acc hand hpair _
    exact ⟨hand, hpair⟩
  | cons cl L ih =>
    intro hcl hpw acc hand hpair hfresh
    obtain ⟨hclnd, hclb⟩ := hcl cl (List.mem_cons_self _ _)
    have hpw2 := List.pairwise_cons.mp hpw
    rw [List.foldl_cons]
    by_cases h2 : cl.2.length < 2
    · rw [if_pos h2]
      exact ih (fun c h => hcl c (List.mem_cons_of_mem _ h)) hpw2.2 acc hand hpair
        (fun r hr cl' h' => hfresh r hr cl' (List.mem_cons_of_mem _ h'))
    · rw [if_neg h2]
      have hcprops : ∀ c ∈ boundedClusterComponents score t
          (cl.2.map fun p => texts.getD p ""), c.Nodup ∧ 2 ≤ c.length := by
        intro c hc
        obtain ⟨hh1, hh3, _⟩ := verifyComponents_spec
          (adjBounded score t (cl.2.map fun p => texts.getD p ""))
          (adjBounded_symm score t _) false c hc
        exact ⟨hh1, hh3⟩
      have hcdisj := verifyComponents_disjoint
        (adjBounded score t (cl.2.map fun p => texts.getD p ""))
        (adjBounded_symm score t _) false
      have hfreshc : ∀ r ∈ acc.2,
          ∀ c ∈ boundedClusterComponents score t
            (cl.2.map fun p => texts.getD p ""),
          ∀ loc ∈ c,
            indices.getD (cl.2.getD ((loc :
              Fin (cl.2.map fun p => texts.getD p "").length) : Nat) 0) 0 ≠
              r.1 := by
        intro r hr c hc loc hloc
        have hlt : (loc : Nat) < cl.2.length := by
          have h9 := loc.isLt
          have hlen : (List.map (fun p => texts.getD p "") cl.2).length =
              cl.2.length := List.length_map _ _
          omega
        have hmem : cl.2.getD ((loc :
            Fin (cl.2.map fun p => texts.getD p "").length) : Nat) 0 ∈ cl.2 := by
          rw [List.getD_eq_getElem _ _ hlt]
          exact List.getElem_mem hlt
        exact hfresh r hr cl (List.mem_cons_self _ _) _ hmem
      obtain ⟨hf1, hf2, hf3⟩ := bva_comps_facts indices cl.2 hnd hclnd hclb
        (by rw [List.length_map])
        (boundedClusterComponents score t (cl.2.map fun p => texts.getD p ""))
        hcprops hcdisj acc hand hpair hfreshc
      apply ih (fun c h => hcl c (List.mem_cons_of_mem _ h)) hpw2.2 _ hf1 hf2
      intro r hr cl' hcl' p' hp' he
      rcases hf3 r hr with hold | ⟨p, hp, hkey⟩
      · exact hfresh r hold cl' (List.mem_cons_of_mem _ hcl') p' hp' he
      · have hpp' : p = p' := by
          apply getD_inj_of_nodup indices hnd p p' (hclb p hp)
            ((hcl cl' (List.mem_cons_of_mem _ hcl')).2 p' hp')
          rw [hkey, he]
        refine hpw2.1 cl' hcl' p hp ?_
        rw [hpp']
        exact hp'

end SimilarQuestions

namespace SimilarQuestions

theorem trySplitGroup_m_facts (cluster2 : List String → List Int)
    (hcut : List (List ℚ) → ℚ → List Nat) (score : String → String → ℚ)
    (t : ℚ) (qs : List Question) (indices : List Nat)
    (hlen2 : ∀ ts : List String, (cluster2 ts).length = ts.length)
    (hh : ∀ (d : List (List ℚ)) (c : ℚ), (hcut d c).length = d.length)
    (hnd : indices.Nodup) (m : List (Nat × Nat))
    (hm : trySplitGroup cluster2 hcut score t qs indices = some m) :
    (m.map Prod.fst).Nodup ∧ PairUp m := by
  unfold trySplitGroup at hm
  by_cases h1 : indices.length < 4
  · rw [if_pos h1] at hm
    exact Option.noConfusion hm
  · rw [if_neg h1] at hm
    by_cases h2 : ((cluster2 ((groupTexts qs indices).map prepareE5)).dedup.filter
        fun l => decide (l ≠ -1)).length ≤ 1
    · rw [if_pos h2] at hm
      refine tswce_m_facts hcut score indices (groupTexts qs indices) t hnd ?_ m hm
      unfold fallbackLabels
      rw [hh]
      unfold distMatrix
      rw [List.length_map, List.length_range]
    · rw [if_neg h2] at hm
      by_cases h3 : 1 < ((boundedVerifyAssignments score t indices
          (groupTexts qs indices)
          (cluster2 ((groupTexts qs indices).map prepareE5))).map
          Prod.snd).dedup.length
      · rw [if_pos h3] at hm
        injection hm with hm2
        have hll : (cluster2 ((groupTexts qs indices).map prepareE5)).length ≤
            indices.length := by
          rw [hlen2, List.length_map]
          unfold groupTexts
          rw [List.length_map]
        obtain ⟨hf1, hf2⟩ := bva_facts score t indices (groupTexts qs indices)
          (cluster2 ((groupTexts qs indices).map prepareE5)) hnd hll
        rw [← hm2]
        exact ⟨hf1, hf2⟩
      · rw [if_neg h3] at hm
        exact Option.noConfusion hm

end SimilarQuestions

namespace SimilarQuestions

theorem fold_setSim2_keep (m : List (Nat × Nat)) (i : Nat)
    (hany : (m.any fun p => decide (p.1 = i)) = true) :
    ∀ (idxs : List Nat) (a : List Question),
      (idxs.foldl (fun a idx =>
        if m.any fun p => decide (p.1 = idx) then a
        else setSim a idx none) a).get? i = a.get? i := by
  intro idxs
  induction idxs with
  | nil =>
    intro a
    rfl
  | cons x idxs ih =>
    intro a
    rw [List.foldl_cons, ih]
    by_cases hxi : x = i
    · subst hxi
      rw [if_pos hany]
    · rw [setSimIf_get? m a x i hxi]

end SimilarQuestions

namespace SimilarQuestions

theorem runStage2_min_two (cluster2 : List String → List Int)
    (hcut : List (List ℚ) → ℚ → List Nat) (score : String → String → ℚ)
    (refineThr : Nat) (t : ℚ) (qs : List Question)
    (hlen2 : ∀ ts : List String, (cluster2 ts).length = ts.length)
    (hh : ∀ (d : List (List ℚ)) (c : ℚ), (hcut d c).length = d.length)
    (hmin : MinTwo qs)
    (hform : ∀ q ∈ qs, ∀ g2 n2, simVal q = some (GroupLabel.sub g2 n2) → False) :
    MinTwo (runStage2 cluster2 hcut score refineThr t qs).1 := by
  have hspec := findLargeGroups_spec qs refineThr
  have hLGnd := hspec.1
  have hgfacts := hspec.2
  have hnodups : ∀ g ∈ findLargeGroups qs refineThr, g.2.Nodup :=
    fun g hg => (hgfacts g hg).2.1
  have hfibers : ∀ g ∈ findLargeGroups qs refineThr, FiberIs qs g :=
    fun g hg i => (hgfacts g hg).2.2 i
  have hnotsub : ∀ g ∈ findLargeGroups qs refineThr,
      ∀ g2 n2, g.1 ≠ GroupLabel.sub g2 n2 := by
    intro g hg g2 n2 he
    have hlen := (hgfacts g hg).1
    cases hg2 : g.2 with
    | nil =>
      rw [hg2] at hlen
      simp at hlen
    | cons a tl =>
      have ha : a ∈ g.2 := by
        rw [hg2]
        exact List.mem_cons_self _ _
      obtain ⟨q, hq, hsim⟩ := ((hgfacts g hg).2.2 a).mp ha
      rw [he] at hsim
      exact hform q (List.get?_mem hq) g2 n2 hsim
  suffices h : ∀ (L : List (GroupLabel × List Nat)),
      (L.map Prod.fst).Nodup →
      (∀ g ∈ L, g.2.Nodup) →
      (∀ g ∈ L, ∀ g2 n2, g.1 ≠ GroupLabel.sub g2 n2) →
      ∀ st : List Question × Nat × Nat,
        MinTwo st.1 →
        (∀ g ∈ L, FiberIs st.1 g) →
        MinTwo ((L.foldl (fun st g =>
          match trySplitGroup cluster2 hcut score t st.1 g.2 with
          | some m =>
            if m ≠ [] ∧ 1 < (m.map Prod.snd).dedup.length then
              let qs1 := m.foldl (fun a p =>
                setSim a p.1 (some (.sub g.1 p.2))) st.1
              let qs2 := g.2.foldl (fun a idx =>
                if m.any fun p => decide (p.1 = idx) then a
                else setSim a idx none) qs1
              (qs2, st.2.1 + 1, st.2.2)
            else (st.1, st.2.1, st.2.2 + 1)
          | none => (st.1, st.2.1, st.2.2 + 1)) st).1) by
    exact h (findLargeGroups qs refineThr) hLGnd hnodups hnotsub (qs, 0, 0)
      hmin hfibers
  intro L
  induction L with
  | nil =>
    intro _ _ _ st hm _
    exact hm
  | cons g L ih =>
    intro hnd hnodups2 hnotsub2 st hm hfib
    rw [List.map_cons] at hnd
    have hcc := List.nodup_cons.mp hnd
    have hfibg := hfib g (List.mem_cons_self _ _)
    have hgnd := hnodups2 g (List.mem_cons_self _ _)
    rw [List.foldl_cons]
    cases htr : trySplitGroup cluster2 hcut score t st.1 g.2 with
    | none =>
      exact ih hcc.2 (fun g' h' => hnodups2 g' (List.mem_cons_of_mem _ h'))
        (fun g' h' => hnotsub2 g' (List.mem_cons_of_mem _ h'))
        _ hm (fun g' h' => hfib g' (List.mem_cons_of_mem _ h'))
    | some m =>
      show MinTwo ((L.foldl (fun st g =>
          match trySplitGroup cluster2 hcut score t st.1 g.2 with
          | some m =>
            if m ≠ [] ∧ 1 < (m.map Prod.snd).dedup.length then
              let qs1 := m.foldl (fun a p =>
                setSim a p.1 (some (.sub g.1 p.2))) st.1
              let qs2 := g.2.foldl (fun a idx =>
                if m.any fun p => decide (p.1 = idx) then a
                else setSim a idx none) qs1
              (qs2, st.2.1 + 1, st.2.2)
            else (st.1, st.2.1, st.2.2 + 1)
          | none => (st.1, st.2.1, st.2.2 + 1))
        (if m ≠ [] ∧ 1 < (m.map Prod.snd).dedup.length then
          (g.2.foldl (fun a idx =>
              if m.any fun p => decide (p.1 = idx) then a
              else setSim a idx none)
            (m.foldl (fun a p => setSim a p.1 (some (.sub g.1 p.2))) st.1),
           st.2.1 + 1, st.2.2)
        else (st.1, st.2.1, st.2.2 + 1))).1)
      by_cases hc : m ≠ [] ∧ 1 < (m.map Prod.snd).dedup.length
      · rw [if_pos hc]
        set BIG := g.2.foldl (fun a idx =>
            if m.any fun p => decide (p.1 = idx) then a
            else setSim a idx none)
          (m.foldl (fun a p => setSim a p.1 (some (.sub g.1 p.2))) st.1)
          with hBIG
        have hkeys := trySplitGroup_keys cluster2 hcut score t st.1 g.2
          hlen2 hh m htr
        obtain ⟨hmnd, hmpair⟩ := trySplitGroup_m_facts cluster2 hcut score t
          st.1 g.2 hlen2 hh hgnd m htr
        have hwrite : ∀ p ∈ m, ∀ q0, st.1.get? p.1 = some q0 →
            BIG.get? p.1 =
              some { q0 with simField := some (some (.sub g.1 p.2)) } := by
          intro p hp q0 hq0
          rw [hBIG, fold_setSim2_keep m p.1
              (List.any_eq_true.mpr ⟨p, hp, decide_eq_true rfl⟩) g.2,
            fold_setSim1_write g.1 m hmnd p hp st.1, hq0]
          rfl
        have hclear : ∀ i ∈ g.2, (m.any fun p => decide (p.1 = i)) = false →
            ∀ q0, st.1.get? i = some q0 →
            BIG.get? i = some { q0 with simField := some none } := by
          intro i hig hanyf q0 hq0
          have hk1 : ∀ p ∈ m, p.1 ≠ i := by
            intro p hp he
            have h9 : (m.any fun p => decide (p.1 = i)) = true :=
              List.any_eq_true.mpr ⟨p, hp, decide_eq_true he⟩
            rw [hanyf] at h9
            exact Bool.false_ne_true h9
          rw [hBIG, fold_setSim2_write m g.2 hgnd i hig hanyf,
            fold_setSim1_get? g.1 m i hk1 st.1, hq0]
          rfl
        have hout : ∀ i, i ∉ g.2 → BIG.get? i = st.1.get? i := by
          intro i hig
          have hk1 : ∀ p ∈ m, p.1 ≠ i := fun p hp he => hig (he ▸ hkeys p hp)
          rw [hBIG, fold_setSim2_get? m g.2 i (fun x hx he => hig (he ▸ hx)),
            fold_setSim1_get? g.1 m i hk1 st.1]
        have hmin2 : MinTwo BIG := by
          intro l
          by_cases hpres : ∃ i q, BIG.get? i = some q ∧ simVal q = some l
          · right
            obtain ⟨i, q, hq, hsim⟩ := hpres
            by_cases hig : i ∈ g.2
            · by_cases hany : (m.any fun p => decide (p.1 = i)) = true
              · obtain ⟨p, hp, hpi0⟩ := List.any_eq_true.mp hany
                have hpi : p.1 = i := of_decide_eq_true hpi0
                obtain ⟨q0, hq0, hsim0⟩ := (hfibg p.1).mp (hkeys p hp)
                have hio1 := hwrite p hp q0 hq0
                have hql : q =
                    { q0 with simField := some (some (.sub g.1 p.2)) } := by
                  rw [hpi] at hio1
                  rw [hio1] at hq
                  injection hq with h9
                  exact h9.symm
                have hl : l = .sub g.1 p.2 := by
                  rw [hql] at hsim
                  injection hsim with h9
                  exact h9.symm
                obtain ⟨p2, hp2, hp2ne, hp2v⟩ := hmpair p hp
                obtain ⟨q02, hq02, _⟩ := (hfibg p2.1).mp (hkeys p2 hp2)
                have hio2 := hwrite p2 hp2 q02 hq02
                have hne12 : p.1 ≠ p2.1 := Ne.symm hp2ne
                show 2 ≤ BIG.countP fun q2 => decide (simVal q2 = some l)
                apply nodup_length_le_countP BIG _ [p.1, p2.1] ?_ ?_
                · simp [hne12]
                · intro j hj
                  rcases List.mem_cons.mp hj with hj1 | hj2
                  · subst hj1
                    refine ⟨_, hio1, ?_⟩
                    apply decide_eq_true
                    show some (GroupLabel.sub g.1 p.2) = some l
                    rw [hl]
                  · rw [List.mem_singleton] at hj2
                    subst hj2
                    refine ⟨_, hio2, ?_⟩
                    apply decide_eq_true
                    show some (GroupLabel.sub g.1 p2.2) = some l
                    rw [hp2v, hl]
              · have hanyf : (m.any fun p => decide (p.1 = i)) = false :=
                  Bool.eq_false_iff.mpr hany
                obtain ⟨q0, hq0, _⟩ := (hfibg i).mp hig
                have hio := hclear i hig hanyf q0 hq0
                rw [hio] at hq
                injection hq with h9
                rw [← h9] at hsim
                exact Option.noConfusion hsim
            · have hout_i := hout i hig
              rw [hout_i] at hq
              have hlneg : l ≠ g.1 := by
                intro he
                apply hig
                refine (hfibg i).mpr ⟨q, hq, ?_⟩
                rw [← he]
                exact hsim
              have hc2 : 2 ≤ st.1.countP fun q2 => decide (simVal q2 = some l) := by
                have hpos : 0 < st.1.countP fun q2 =>
                    decide (simVal q2 = some l) := by
                  rw [List.countP_pos]
                  exact ⟨q, List.get?_mem hq, decide_eq_true hsim⟩
                rcases hm l with h0 | h2x
                · have h00 : st.1.countP (fun q2 =>
                      decide (simVal q2 = some l)) = 0 := h0
                  omega
                · exact h2x
              obtain ⟨i1, i2, qa, qb, hne12, hga, hpa, hgb, hpb⟩ :=
                countP_two_positions st.1 _ hc2
              have hnotin : ∀ j qj, st.1.get? j = some qj →
                  (decide (simVal qj = some l)) = true → j ∉ g.2 := by
                intro j qj hgj hpj hjg
                obtain ⟨qj2, hgj2, hsj2⟩ := (hfibg j).mp hjg
                rw [hgj] at hgj2
                injection hgj2 with h9
                apply hlneg
                have hsj : simVal qj = some l := of_decide_eq_true hpj
                rw [← h9] at hsj2
                rw [hsj] at hsj2
                injection hsj2 with h8
              show 2 ≤ BIG.countP fun q2 => decide (simVal q2 = some l)
              apply nodup_length_le_countP BIG _ [i1, i2] ?_ ?_
              · simp [hne12]
              · intro j hj
                rcases List.mem_cons.mp hj with hj1 | hj2
                · rw [hj1]
                  refine ⟨qa, ?_, hpa⟩
                  rw [hout i1 (hnotin i1 qa hga hpa)]
                  exact hga
                · rw [List.mem_singleton] at hj2
                  rw [hj2]
                  refine ⟨qb, ?_, hpb⟩
                  rw [hout i2 (hnotin i2 qb hgb hpb)]
                  exact hgb
          · left
            show BIG.countP (fun q2 => decide (simVal q2 = some l)) = 0
            rw [List.countP_eq_zero]
            intro q2 hq2 hp2
            obtain ⟨n, hn⟩ := List.mem_iff_get?.mp hq2
            exact hpres ⟨n, q2, hn, of_decide_eq_true hp2⟩
        have hfib2 : ∀ g' ∈ L, FiberIs BIG g' := by
          intro g' hg' i
          have hfib' := hfib g' (List.mem_cons_of_mem _ hg')
          have hdisj' : i ∈ g'.2 → i ∉ g.2 := by
            intro hig' hig
            obtain ⟨qa, hqa, hsa⟩ := (hfib' i).mp hig'
            obtain ⟨qb, hqb, hsb⟩ := (hfibg i).mp hig
            rw [hqa] at hqb
            injection hqb with h9
            rw [← h9] at hsb
            rw [hsa] at hsb
            injection hsb with h8
            apply hcc.1
            rw [← h8]
            exact List.mem_map_of_mem Prod.fst hg'
          constructor
          · intro hig'
            obtain ⟨q', hq', hs'⟩ := (hfib' i).mp hig'
            refine ⟨q', ?_, hs'⟩
            rw [hout i (hdisj' hig')]
            exact hq'
          · rintro ⟨q', hq', hs'⟩
            by_cases hig : i ∈ g.2
            · by_cases hany : (m.any fun p => decide (p.1 = i)) = true
              · obtain ⟨p, hp, hpi0⟩ := List.any_eq_true.mp hany
                have hpi : p.1 = i := of_decide_eq_true hpi0
                obtain ⟨q0, hq0, _⟩ := (hfibg p.1).mp (hkeys p hp)
                have hio1 := hwrite p hp q0 hq0
                rw [hpi] at hio1
                rw [hio1] at hq'
                injection hq' with h9
                rw [← h9] at hs'
                have h8 : GroupLabel.sub g.1 p.2 = g'.1 := by
                  injection hs'
                exact absurd h8.symm
                  (hnotsub2 g' (List.mem_cons_of_mem _ hg') g.1 p.2)
              · have hanyf : (m.any fun p => decide (p.1 = i)) = false :=
                  Bool.eq_false_iff.mpr hany
                obtain ⟨q0, hq0, _⟩ := (hfibg i).mp hig
                have hio := hclear i hig hanyf q0 hq0
                rw [hio] at hq'
                injection hq' with h9
                rw [← h9] at hs'
                exact Option.noConfusion hs'
            · rw [hout i hig] at hq'
              exact (hfib' i).mpr ⟨q', hq', hs'⟩
        apply ih hcc.2 (fun g' h' => hnodups2 g' (List.mem_cons_of_mem _ h'))
          (fun g' h' => hnotsub2 g' (List.mem_cons_of_mem _ h'))
        · show MinTwo BIG
          exact hmin2
        · intro g' hg'
          show FiberIs BIG g'
          exact hfib2 g' hg'
      · rw [if_neg hc]
        exact ih hcc.2 (fun g' h' => hnodups2 g' (List.mem_cons_of_mem _ h'))
          (fun g' h' => hnotsub2 g' (List.mem_cons_of_mem _ h'))
          _ hm (fun g' h' => hfib g' (List.mem_cons_of_mem _ h'))

end SimilarQuestions

namespace SimilarQuestions

/-- **C2.**  Minimum group size after both stages: after Stage 1 every label
is absent or carried by at least two records; after running Stage 2 on the
Stage-1 output the same holds (no label ends a stage with exactly one
member); and no record ever carries more than one label at a time (its
similarity value is a single optional label). -/
theorem c2_minimum_group_size (cluster1 cluster2 : List String → List Int)
    (hcut : List (List ℚ) → ℚ → List Nat) (score1 score2 : String → String → ℚ)
    (useCE : Bool) (t1 : ℚ) (refineThr : Nat) (t2 : ℚ) (qs : List Question)
    (hlen1 : ∀ ts : List String, (cluster1 ts).length = ts.length)
    (hlen2 : ∀ ts : List String, (cluster2 ts).length = ts.length)
    (hh : ∀ (d : List (List ℚ)) (c : ℚ), (hcut d c).length = d.length) :
    MinTwo (runStage1 cluster1 score1 useCE t1 qs) ∧
    MinTwo (runStage2 cluster2 hcut score2 refineThr t2
      (runStage1 cluster1 score1 useCE t1 qs)).1 ∧
    (∀ q ∈ (runStage2 cluster2 hcut score2 refineThr t2
        (runStage1 cluster1 score1 useCE t1 qs)).1,
      ∀ l l2, simVal q = some l → simVal q = some l2 → l = l2) := by
  refine ⟨runStage1_min_two cluster1 score1 useCE t1 qs hlen1, ?_, ?_⟩
  · apply runStage2_min_two cluster2 hcut score2 refineThr t2 _ hlen2 hh
      (runStage1_min_two cluster1 score1 useCE t1 qs hlen1)
    intro q hq g2 n2 hsim
    exact runStage1_values cluster1 score1 useCE t1 qs q hq g2 n2 hsim
  · intro q _ l l2 h1 h2
    rw [h1] at h2
    injection h2

theorem c2_minimum_group_size_witness :
    MinTwo (runStage1 (fun ts => ts.map fun _ => 0) (fun _ _ => 1) true 0
      [⟨false, none, none⟩]) ∧
    MinTwo (runStage2 (fun ts => ts.map fun _ => 0)
      (fun d _ => d.map fun _ => 0) (fun _ _ => 1) 5 0
      (runStage1 (fun ts => ts.map fun _ => 0) (fun _ _ => 1) true 0
        [⟨false, none, none⟩])).1 ∧
    (∀ q ∈ (runStage2 (fun ts => ts.map fun _ => 0)
        (fun d _ => d.map fun _ => 0) (fun _ _ => 1) 5 0
        (runStage1 (fun ts => ts.map fun _ => 0) (fun _ _ => 1) true 0
          [⟨false, none, none⟩])).1,
      ∀ l l2, simVal q = some l → simVal q = some l2 → l = l2) :=
  c2_minimum_group_size (fun ts => ts.map fun _ => 0)
    (fun ts => ts.map fun _ => 0) (fun d _ => d.map fun _ => 0)
    (fun _ _ => 1) (fun _ _ => 1) true 0 5 0 [⟨false, none, none⟩]
    (by intro ts; rw [List.length_map])
    (by intro ts; rw [List.length_map])
    (by intro d c; rw [List.length_map])

end SimilarQuestions
